import Mathlib

/-!
# Station and region registry (`datastructures.hh`, `datastructures.cc`)

A shallow embedding of the class `Datastructures` and a verification of its
documented behaviour.

Modelling conventions

* `std::unordered_map<K, V>` is an association list with one entry per key.
  Its iteration order is unspecified in C++; the model iterates in insertion
  order and nothing proved below depends on that order.
* `std::map` and `std::set` are lists kept in comparator order.  Two keys are
  equivalent when neither is less than the other; `insert` does nothing when an
  equivalent key is present, otherwise it places the new element in front of
  the first greater one.
* `std::shared_ptr<Station>` / `std::shared_ptr<Region>` values are stored in
  the map itself; mutation through the pointer is an update of the entry.
* `Region*` is the id of the region pointed to (`nullptr` is `none`); regions
  are only ever destroyed by `clear_all`, which destroys all of them.
* `int` is `Int` with the values of a 32-bit two's complement `int`: the
  subtraction and the `abs` of `distance_between` wrap modulo `2^32`
  (`wrap_int`).  `std::hypot` returns the `double` nearest to the real
  `sqrt (a*a + b*b)` (53-bit significand), and its conversion to `int` keeps
  the integer part when that fits and gives `INT_MIN` otherwise
  (`double_to_int`).  Signed overflow and the out-of-range conversion are
  undefined behaviour in C++; the model takes the values the x86-64 build of
  the program computes.
* `unsigned long long` region ids and `unsigned short` times are `Nat`; no
  arithmetic is performed on them.
-/

namespace Registry

/-! ## Types and sentinels (`datastructures.hh`) -/

abbrev StationID := String
abbrev TrainID := String
abbrev RegionID := Nat
abbrev Name := String
abbrev Time := Nat
abbrev Distance := Int

def NO_STATION : StationID := "---"
def NO_TRAIN : TrainID := "---"
/-- The value of `RegionID const NO_REGION = -1` for a 64-bit `unsigned long long`. -/
def NO_REGION : RegionID := 2 ^ 64 - 1
def NO_NAME : Name := "!NO_NAME!"
def NO_TIME : Time := 9999
/-- The value of `std::numeric_limits<int>::min()` for a 32-bit `int`. -/
def NO_VALUE : Int := -(2 ^ 31)

structure Coord where
  x : Int
  y : Int
  deriving DecidableEq, Repr

def NO_COORD : Coord := ⟨NO_VALUE, NO_VALUE⟩

/-- Integer part of the square root, two binary digits of `n` per round;
`fuel` rounds suffice for `n < 4 ^ fuel`. -/
def isqrtAux : Nat → Nat → Nat
  | 0, _ => 0
  | fuel + 1, n =>
    if n = 0 then 0
    else if (2 * isqrtAux fuel (n / 4) + 1) * (2 * isqrtAux fuel (n / 4) + 1) ≤ n then
      2 * isqrtAux fuel (n / 4) + 1
    else 2 * isqrtAux fuel (n / 4)

/-- Integer part of the square root of `n`. -/
def isqrt (n : Nat) : Nat := isqrtAux n n

/-- The number of halvings that take `m` below 2, in at most `fuel` rounds. -/
def log2Aux : Nat → Nat → Nat
  | 0, _ => 0
  | fuel + 1, m => if m < 2 then 0 else log2Aux fuel (m / 2) + 1

/-- The binary exponent of `m`: the `e` with `2 ^ e ≤ m < 2 ^ (e + 1)`. -/
def log2floor (m : Nat) : Nat := log2Aux m m

/-- The integer part of the `double` nearest to `sqrt n`. With `k` the integer
part of `sqrt n`, the nearest `double` is below `k + 1` unless `sqrt n` lies
above the midpoint between `k + 1` and the `double` just below it; doubles
have a 53-bit significand, so that midpoint is `k + 1 - 2 ^ (-t)` with
`t = 53 - e` for `2 ^ e < k + 1 < 2 ^ (e + 1)` and `t = 54 - e` for
`k + 1 = 2 ^ e`. -/
def nearest_double_sqrt_floor (n : Nat) : Nat :=
  let k := isqrt n
  let e := log2floor (k + 1)
  let t := if k + 1 = 2 ^ e then 54 - e else 53 - e
  if ((k + 1) * 2 ^ t - 1) * ((k + 1) * 2 ^ t - 1) < n * 2 ^ (2 * t) then k + 1 else k

/-- The conversion of a non-negative integral `double` to `int`: the value
itself when it fits, `INT_MIN` otherwise. -/
def double_to_int (v : Nat) : Int := if v < 2 ^ 31 then (v : Int) else -(2 ^ 31)

/-- The 32-bit two's complement `int` that a result wraps to. -/
def wrap_int (z : Int) : Int := (z + 2 ^ 31) % 2 ^ 32 - 2 ^ 31

/-- The value of `int d = std::hypot(a, b)` for `int` arguments. -/
def hypot_int (a b : Int) : Int :=
  double_to_int (nearest_double_sqrt_floor (a * a + b * b).toNat)

/-- The `operator<(Coord, Coord)` of the header. -/
def Coord.lt (c1 c2 : Coord) : Bool :=
  let d1 := hypot_int c1.x c1.y
  let d2 := hypot_int c2.x c2.y
  if d1 < d2 then true
  else if d2 < d1 then false
  else if c1.y < c2.y then true
  else if c2.y < c1.y then false
  else decide (c1.x < c2.x)

/-! ## Containers -/

section Containers
variable {K V α : Type}

/-- Lookup in a `std::unordered_map`: `find(k)`. -/
def umap_find [DecidableEq K] : List (K × V) → K → Option V
  | [], _ => none
  | e :: t, k => if e.1 = k then some e.2 else umap_find t k

/-- The `insert` of `std::unordered_map`: the new map and the `.second` of the result. -/
def umap_insert [DecidableEq K] (m : List (K × V)) (k : K) (v : V) : List (K × V) × Bool :=
  if (umap_find m k).isSome then (m, false) else (m ++ [(k, v)], true)

/-- The `erase(k)` of `std::unordered_map`. -/
def umap_erase [DecidableEq K] (m : List (K × V)) (k : K) : List (K × V) :=
  m.filter (fun e => !decide (e.1 = k))

/-- Mutation of the value stored under `k` (through the shared pointer). -/
def umap_modify [DecidableEq K] (m : List (K × V)) (k : K) (f : V → V) : List (K × V) :=
  m.map (fun e => if e.1 = k then (e.1, f e.2) else e)

/-- Equivalence of keys under a comparator: neither is less than the other. -/
def equiv (lt : α → α → Bool) (a b : α) : Bool := !lt a b && !lt b a

/-- Placement of `a` in front of the first element greater than `a`. -/
def ordered_insert (lt : α → α → Bool) (a : α) : List α → List α
  | [] => [a]
  | b :: t => if lt a b then a :: b :: t else b :: ordered_insert lt a t

/-- The `find` of `std::set`: the element equivalent to `a`, if any. -/
def set_find (lt : α → α → Bool) (l : List α) (a : α) : Option α :=
  l.find? (fun b => equiv lt a b)

/-- The `insert` of `std::set`: the new set and the `.second` of the result. -/
def set_insert (lt : α → α → Bool) (l : List α) (a : α) : List α × Bool :=
  if (set_find lt l a).isSome then (l, false) else (ordered_insert lt a l, true)

/-- The `erase(a)` of `std::set`. -/
def set_erase (lt : α → α → Bool) (l : List α) (a : α) : List α :=
  l.filter (fun b => !equiv lt a b)

/-- The comparator of a `std::map`, acting on the keys of the entries. -/
def key_lt (lt : K → K → Bool) (e1 e2 : K × V) : Bool := lt e1.1 e2.1

/-- The `find` of `std::map`: the entry whose key is equivalent to `k`, if any. -/
def map_find (lt : K → K → Bool) (m : List (K × V)) (k : K) : Option (K × V) :=
  m.find? (fun e => equiv lt k e.1)

/-- The `insert` of `std::map`: the new map and the `.second` of the result. -/
def map_insert (lt : K → K → Bool) (m : List (K × V)) (k : K) (v : V) :
    List (K × V) × Bool :=
  if (map_find lt m k).isSome then (m, false) else (ordered_insert (key_lt lt) (k, v) m, true)

/-- The `erase(k)` of `std::map`. -/
def map_erase (lt : K → K → Bool) (m : List (K × V)) (k : K) : List (K × V) :=
  m.filter (fun e => !equiv lt k e.1)

/-- The `extract(k)` of `std::map`: the node handle (empty when no key is
equivalent to `k`) and the map without that node. -/
def map_extract (lt : K → K → Bool) (m : List (K × V)) (k : K) :
    Option (K × V) × List (K × V) :=
  (map_find lt m k, map_erase lt m k)

/-- The `operator<` of `std::pair`. -/
def pair_lt {β : Type} (lta : α → α → Bool) (ltb : β → β → Bool) (p q : α × β) : Bool :=
  lta p.1 q.1 || (!lta q.1 p.1 && ltb p.2 q.2)

end Containers

/-- The `operator<` of `std::string`: lexicographic comparison of the
characters (for UTF-8 text the byte order and the code point order agree). -/
def str_lt (a b : String) : Bool := decide (a.toList < b.toList)

/-- The `operator<` of `int`. -/
def int_lt (a b : Int) : Bool := decide (a < b)

/-- The `operator<` of the unsigned integer types. -/
def nat_lt (a b : Nat) : Bool := decide (a < b)

/-! ## The records and the state -/

structure Station where
  id : StationID := NO_STATION
  name : Name := NO_NAME
  coord : Coord := NO_COORD
  location : RegionID := NO_REGION
  departures : List (Time × TrainID) := []
  deriving DecidableEq, Repr

structure Region where
  id : RegionID := NO_REGION
  name : Name := NO_NAME
  limits : List Coord := []
  parent : Option RegionID := none
  subregions : List RegionID := []
  deriving DecidableEq, Repr

/-- The private members of `class Datastructures`. -/
structure Datastructures where
  stations_to_ids : List (StationID × Station) := []
  station_ids_to_coords : List (Coord × StationID) := []
  station_ids_to_names : List (Name × StationID) := []
  regions_to_ids : List (RegionID × Region) := []
  deriving DecidableEq, Repr

/-- The state built by the constructor. -/
def Datastructures.empty : Datastructures := {}

/-! ## Station operations (`datastructures.cc`) -/

def station_count (s : Datastructures) : Nat := s.stations_to_ids.length

def clear_all (_s : Datastructures) : Datastructures := {}

def all_stations (s : Datastructures) : List StationID :=
  s.stations_to_ids.map (fun station_to_id => station_to_id.1)

def add_station (s : Datastructures) (id : StationID) (name : Name) (xy : Coord) :
    Bool × Datastructures :=
  if (umap_find s.stations_to_ids id).isSome then (false, s)
  else
    let new_station : Station := { id := id, name := name, coord := xy }
    let r := umap_insert s.stations_to_ids id new_station
    if r.2 then
      (true, { s with
        stations_to_ids := r.1
        station_ids_to_coords := (map_insert Coord.lt s.station_ids_to_coords xy id).1
        station_ids_to_names :=
          (set_insert (pair_lt str_lt str_lt) s.station_ids_to_names (name, id)).1 })
    else (false, { s with stations_to_ids := r.1 })

def get_station_name (s : Datastructures) (id : StationID) : Name :=
  match umap_find s.stations_to_ids id with
  | none => NO_NAME
  | some station => station.name

def get_station_coordinates (s : Datastructures) (id : StationID) : Coord :=
  match umap_find s.stations_to_ids id with
  | none => NO_COORD
  | some station => station.coord

def stations_alphabetically (s : Datastructures) : List StationID :=
  s.station_ids_to_names.map (fun id_to_name => id_to_name.2)

def stations_distance_increasing (s : Datastructures) : List StationID :=
  s.station_ids_to_coords.map (fun id_to_coord => id_to_coord.2)

def find_station_with_coord (s : Datastructures) (xy : Coord) : StationID :=
  match map_find Coord.lt s.station_ids_to_coords xy with
  | none => NO_STATION
  | some found_station => found_station.2

/-- The result is `none` when `extract` yields an empty node handle: `key()` of
an empty handle is undefined behaviour. -/
def change_station_coord (s : Datastructures) (id : StationID) (newcoord : Coord) :
    Option (Bool × Datastructures) :=
  match umap_find s.stations_to_ids id with
  | none => some (false, s)
  | some station =>
    let oldcoord := station.coord
    let r := map_extract Coord.lt s.station_ids_to_coords oldcoord
    match r.1 with
    | none => none
    | some id_to_coord =>
      some (true, { s with
        station_ids_to_coords := (map_insert Coord.lt r.2 newcoord id_to_coord.2).1
        stations_to_ids :=
          umap_modify s.stations_to_ids id (fun st => { st with coord := newcoord }) })

def add_departure (s : Datastructures) (stationid : StationID) (trainid : TrainID)
    (time : Time) : Bool × Datastructures :=
  match umap_find s.stations_to_ids stationid with
  | none => (false, s)
  | some station =>
    let r := set_insert (pair_lt nat_lt str_lt) station.departures (time, trainid)
    (r.2, { s with
      stations_to_ids :=
        umap_modify s.stations_to_ids stationid (fun st => { st with departures := r.1 }) })

def remove_departure (s : Datastructures) (stationid : StationID) (trainid : TrainID)
    (time : Time) : Bool × Datastructures :=
  match umap_find s.stations_to_ids stationid with
  | none => (false, s)
  | some station =>
    match set_find (pair_lt nat_lt str_lt) station.departures (time, trainid) with
    | none => (false, s)
    | some departure_to_remove =>
      (true, { s with
        stations_to_ids :=
          umap_modify s.stations_to_ids stationid (fun st => { st with
            departures :=
              set_erase (pair_lt nat_lt str_lt) st.departures departure_to_remove }) })

def station_departures_after (s : Datastructures) (stationid : StationID) (time : Time) :
    List (Time × TrainID) :=
  match umap_find s.stations_to_ids stationid with
  | none => [(NO_TIME, NO_TRAIN)]
  | some station => station.departures.dropWhile (fun departure => !decide (departure.1 ≥ time))

def remove_station (s : Datastructures) (id : StationID) : Bool × Datastructures :=
  match umap_find s.stations_to_ids id with
  | none => (false, s)
  | some station =>
    let coord_to_remove := station.coord
    let name_to_remove := station.name
    (true, { s with
      station_ids_to_coords := map_erase Coord.lt s.station_ids_to_coords coord_to_remove
      station_ids_to_names :=
        set_erase (pair_lt str_lt str_lt) s.station_ids_to_names (name_to_remove, id)
      stations_to_ids := umap_erase s.stations_to_ids id })

/-! ## Region operations -/

def add_region (s : Datastructures) (id : RegionID) (name : Name) (coords : List Coord) :
    Bool × Datastructures :=
  let new_region : Region := { id := id, name := name, limits := coords }
  let r := umap_insert s.regions_to_ids id new_region
  (r.2, { s with regions_to_ids := r.1 })

def all_regions (s : Datastructures) : List RegionID :=
  s.regions_to_ids.map (fun region => region.1)

def get_region_name (s : Datastructures) (id : RegionID) : Name :=
  match umap_find s.regions_to_ids id with
  | none => NO_NAME
  | some region => region.name

def get_region_coords (s : Datastructures) (id : RegionID) : List Coord :=
  match umap_find s.regions_to_ids id with
  | none => [NO_COORD]
  | some region => region.limits

/-- The pointers `new_parent.get()` and `subregion.get()` are the keys under
which the two regions are stored. -/
def add_subregion_to_region (s : Datastructures) (id parentid : RegionID) :
    Bool × Datastructures :=
  match umap_find s.regions_to_ids id with
  | none => (false, s)
  | some subregion =>
    match umap_find s.regions_to_ids parentid with
    | none => (false, s)
    | some _ =>
      match subregion.parent with
      | some _ => (false, s)
      | none =>
        let m1 := umap_modify s.regions_to_ids id (fun r => { r with parent := some parentid })
        let m2 := umap_modify m1 parentid (fun r => { r with subregions := r.subregions ++ [id] })
        (true, { s with regions_to_ids := m2 })

def add_station_to_region (s : Datastructures) (id : StationID) (parentid : RegionID) :
    Bool × Datastructures :=
  match umap_find s.stations_to_ids id with
  | none => (false, s)
  | some station =>
    match umap_find s.regions_to_ids parentid with
    | none => (false, s)
    | some _ =>
      if station.location ≠ NO_REGION then (false, s)
      else
        (true, { s with
          stations_to_ids :=
            umap_modify s.stations_to_ids id (fun st => { st with location := parentid }) })

/-- The loop `while (current_region != nullptr)` of `all_parents_of_region`,
run for at most `fuel` rounds; `none` when the rounds do not suffice. -/
def parent_walk (s : Datastructures) : Nat → Option RegionID → Option (List RegionID)
  | _, none => some []
  | 0, some _ => none
  | fuel + 1, some current_region =>
    match umap_find s.regions_to_ids current_region with
    | none => none
    | some region => (parent_walk s fuel region.parent).map (fun l => region.id :: l)

/-- The result is `none` when `regions_to_ids.at(id)` throws or the loop does
not end within `fuel` rounds. -/
def all_parents_of_region (fuel : Nat) (s : Datastructures) (id : RegionID) :
    Option (List RegionID) :=
  match umap_find s.regions_to_ids id with
  | none => none
  | some _ => parent_walk s fuel (some id)

def station_in_regions (fuel : Nat) (s : Datastructures) (id : StationID) :
    Option (List RegionID) :=
  match umap_find s.stations_to_ids id with
  | none => some [NO_REGION]
  | some station =>
    if station.location = NO_REGION then some []
    else all_parents_of_region fuel s station.location

/-- The `std::find_first_of` over two ranges. -/
def find_first_of (l1 l2 : List RegionID) : Option RegionID :=
  l1.find? (fun a => l2.contains a)

/-- The value of `parent->id` for a parent pointer. -/
def pointee_id (s : Datastructures) (p : RegionID) : Option RegionID :=
  (umap_find s.regions_to_ids p).map (fun region => region.id)

def common_parent_of_regions (fuel : Nat) (s : Datastructures) (id1 id2 : RegionID) :
    Option RegionID :=
  match umap_find s.regions_to_ids id1, umap_find s.regions_to_ids id2 with
  | some region1, some region2 =>
    match region1.parent, region2.parent with
    | some parent1, some parent2 =>
      match pointee_id s parent1, pointee_id s parent2 with
      | some pid1, some pid2 =>
        match all_parents_of_region fuel s pid1, all_parents_of_region fuel s pid2 with
        | some parents1, some parents2 =>
          match find_first_of parents1 parents2 with
          | none => some NO_REGION
          | some common_parent => some common_parent
        | _, _ => none
      | _, _ => none
    | _, _ => some NO_REGION
  | _, _ => some NO_REGION

/-- The `for` loop of `all_subregions_of_region` over the child pointers that
are still to be visited; `visit` gives what one round appends to `ids`, and is
`none` when that round does not return. -/
def subregions_loop (visit : RegionID → Option (List RegionID)) :
    List RegionID → List RegionID → Option (List RegionID)
  | ids, [] => some ids
  | ids, subregion :: rest =>
    match visit subregion with
    | none => none
    | some l => subregions_loop visit (ids ++ l) rest

/-- The recursion is cut after `fuel` nested calls; the result is `none` when
the nesting goes deeper. -/
def all_subregions_of_region : Nat → Datastructures → RegionID → Option (List RegionID)
  | 0, _, _ => none
  | fuel + 1, s, id =>
    match umap_find s.regions_to_ids id with
    | none => some [NO_REGION]
    | some region =>
      subregions_loop (fun subregion =>
        match pointee_id s subregion with
        | none => none
        | some sub_id =>
          (all_subregions_of_region fuel s sub_id).map (fun subsubs => sub_id :: subsubs))
        [] region.subregions

/-! ## Nearest stations -/

def distance_between (c1 c2 : Coord) : Distance :=
  let distance : Distance := hypot_int (wrap_int (c1.x - c2.x)) (wrap_int (c1.y - c2.y))
  wrap_int (Int.natAbs distance : Int)

/-- Mutation of the value stored under the key equivalent to `k` in a `std::map`. -/
def map_modify {K V : Type} (lt : K → K → Bool) (m : List (K × V)) (k : K) (f : V → V) :
    List (K × V) :=
  m.map (fun e => if equiv lt k e.1 then (e.1, f e.2) else e)

/-- The statement `sorted_ids[distance].insert({y_coord, id})`: `operator[]`
creates an empty set under `distance` when there is none. -/
def sorted_ids_insert (sorted_ids : List (Distance × List (Int × StationID)))
    (distance : Distance) (e : Int × StationID) : List (Distance × List (Int × StationID)) :=
  let m := (map_insert int_lt sorted_ids distance []).1
  map_modify int_lt m distance (fun ids => (set_insert (pair_lt int_lt str_lt) ids e).1)

/-- The first loop of `stations_closest_to`. -/
def build_sorted_ids (index : List (Coord × StationID)) (xy : Coord) :
    List (Distance × List (Int × StationID)) :=
  index.foldl (fun sorted_ids id_to_coord =>
    sorted_ids_insert sorted_ids (distance_between id_to_coord.1 xy)
      (id_to_coord.1.y, id_to_coord.2)) []

/-- The inner `for` loop of `stations_closest_to`. -/
def collect_group (closest_stations : List StationID) :
    List (Int × StationID) → List StationID
  | [] => closest_stations
  | id_to_y_coord :: t =>
    collect_group
      (if closest_stations.length < 3 then closest_stations ++ [id_to_y_coord.2]
       else closest_stations) t

/-- The `while` loop of `stations_closest_to`. -/
def collect_closest (closest_stations : List StationID) :
    List (Distance × List (Int × StationID)) → List StationID
  | [] => closest_stations
  | g :: t =>
    if closest_stations.length < 3 then collect_closest (collect_group closest_stations g.2) t
    else closest_stations

def stations_closest_to (s : Datastructures) (xy : Coord) : List StationID :=
  collect_closest [] (build_sorted_ids s.station_ids_to_coords xy)

/-! ## Runs of public operations -/

/-- The mutating public operations. -/
inductive Op where
  | clear_all
  | add_station (id : StationID) (name : Name) (xy : Coord)
  | change_station_coord (id : StationID) (newcoord : Coord)
  | add_departure (stationid : StationID) (trainid : TrainID) (time : Time)
  | remove_departure (stationid : StationID) (trainid : TrainID) (time : Time)
  | add_region (id : RegionID) (name : Name) (coords : List Coord)
  | add_subregion_to_region (id parentid : RegionID)
  | add_station_to_region (id : StationID) (parentid : RegionID)
  | remove_station (id : StationID)
  deriving DecidableEq, Repr

/-- The state after one operation; `none` when the operation has no defined result. -/
def step (s : Datastructures) : Op → Option Datastructures
  | .clear_all => some (clear_all s)
  | .add_station id name xy => some (add_station s id name xy).2
  | .change_station_coord id newcoord => (change_station_coord s id newcoord).map (fun r => r.2)
  | .add_departure stationid trainid time => some (add_departure s stationid trainid time).2
  | .remove_departure stationid trainid time =>
    some (remove_departure s stationid trainid time).2
  | .add_region id name coords => some (add_region s id name coords).2
  | .add_subregion_to_region id parentid => some (add_subregion_to_region s id parentid).2
  | .add_station_to_region id parentid => some (add_station_to_region s id parentid).2
  | .remove_station id => some (remove_station s id).2

/-- The states reached from the constructed registry by operations that each
satisfy `ok` in the state they are applied to. -/
inductive Reach (ok : Datastructures → Op → Prop) : Datastructures → Prop
  | init : Reach ok Datastructures.empty
  | step (s : Datastructures) (op : Op) (t : Datastructures) :
      Reach ok s → ok s op → step s op = some t → Reach ok t

/-- The states reachable through the public operations. -/
def Reachable (s : Datastructures) : Prop := Reach (fun _ _ => True) s

/-- The state after a sequence of operations; `none` when one of them has no
defined result. -/
def run (s : Datastructures) : List Op → Option Datastructures
  | [] => some s
  | op :: ops => (step s op).bind (fun t => run t ops)

/-! ## Concrete registries used as test inputs -/

/-- Two stations on different coordinates. -/
def two_apart : Datastructures :=
  (add_station (add_station {} "A" "a" ⟨0, 0⟩).2 "B" "b" ⟨1, 1⟩).2

/-- One station at the origin. -/
def one_station : Datastructures := (add_station {} "A" "a" ⟨0, 0⟩).2

/-- Two stations on the same coordinate. -/
def same_coord : Datastructures := (add_station one_station "B" "b" ⟨0, 0⟩).2

/-- One region made a subregion of itself. -/
def self_parent : Datastructures :=
  (add_subregion_to_region (add_region {} 1 "R" []).2 1 1).2

/-- Region 1 inside region 2. -/
def one_in_two : Datastructures :=
  (add_subregion_to_region (add_region (add_region {} 1 "R1" []).2 2 "R2" []).2 1 2).2

/-- A station, a region stored under the id `NO_REGION` and a region 7. -/
def sentinel_region : Datastructures :=
  (add_station (add_region (add_region {} NO_REGION "X" []).2 7 "Y" []).2 "s" "n" ⟨0, 0⟩).2

/-- A station without a region, and the regions 7 and 8. -/
def unassigned_station : Datastructures :=
  (add_station (add_region (add_region {} 7 "Y" []).2 8 "Z" []).2 "s" "n" ⟨0, 0⟩).2

/-- The regions R1, R2, R3, R4 with R1 inside R2, R2 inside R4 and R3 inside R2. -/
def family : Datastructures :=
  (add_subregion_to_region
    (add_subregion_to_region
      (add_subregion_to_region
        (add_region (add_region (add_region (add_region {} 1 "R1" []).2 2 "R2" []).2
          3 "R3" []).2 4 "R4" []).2
        1 2).2
      2 4).2
    3 2).2

/-- Two stations whose distances from the origin are `sqrt 2` and `1`. -/
def near_pair : Datastructures :=
  (add_station (add_station {} "A" "a" ⟨1, -1⟩).2 "B" "b" ⟨1, 0⟩).2

/-- Station B is added on the coordinate of A and then moved, which re-keys
the index entry of A; then station C is added. -/
def moved_entry_ops : List Op :=
  [.add_station "A" "a" ⟨0, -5⟩, .add_station "B" "b" ⟨0, -5⟩,
   .change_station_coord "B" ⟨0, -7⟩, .add_station "C" "c" ⟨5, 0⟩]

/-- The state after `moved_entry_ops`. -/
def moved_entry : Datastructures := (run Datastructures.empty moved_entry_ops).getD {}

/-- Station B is added on the coordinate of A and then moved far away, which
re-keys the index entry of A; then station C is added. -/
def moved_far_ops : List Op :=
  [.add_station "A" "a" ⟨0, -1⟩, .add_station "B" "b" ⟨0, -1⟩,
   .change_station_coord "B" ⟨0, -9⟩, .add_station "C" "c" ⟨5, 0⟩]

/-- The state after `moved_far_ops`. -/
def moved_far : Datastructures := (run Datastructures.empty moved_far_ops).getD {}

/-- Two stations at distance 5 from the origin and one at distance 1. -/
def ring : Datastructures :=
  (add_station (add_station (add_station {} "A" "a" ⟨3, 4⟩).2 "B" "b" ⟨5, 0⟩).2
    "C" "c" ⟨0, 1⟩).2

/-- Two stations, the first with one departure. -/
def with_departure : Datastructures := (add_departure two_apart "A" "T1" 100).2

/-- Operations that record four departures for one station. -/
def ledger_ops : List Op :=
  [.add_station "A" "a" ⟨0, 0⟩, .add_departure "A" "T1" 100, .add_departure "A" "T3" 50,
   .add_departure "A" "T0" 200, .add_departure "A" "T2" 100]

/-- The state after `ledger_ops`. -/
def ledger : Datastructures := (run Datastructures.empty ledger_ops).getD {}

/-- Operations that add two stations named Central and one named Alpha. -/
def centrals_ops : List Op :=
  [.add_station "B" "Central" ⟨1, 0⟩, .add_station "A" "Central" ⟨2, 0⟩,
   .add_station "C" "Alpha" ⟨3, 0⟩]

/-- The state after `centrals_ops`. -/
def centrals : Datastructures := (run Datastructures.empty centrals_ops).getD {}

/-- The regions of `family` and a station assigned to region 1. -/
def lodged : Datastructures :=
  (add_station_to_region (add_station family "s" "n" ⟨0, 0⟩).2 "s" 1).2

/-- Region 1 and a region stored under the id `NO_REGION`, which is made a
subregion of region 1. -/
def sentinel_child : Datastructures :=
  (add_subregion_to_region (add_region (add_region {} 1 "R" []).2 NO_REGION "X" []).2
    NO_REGION 1).2

/-- Two stations whose distances from the origin have the integer parts
134217728 and 134217729; the nearest `double` of the first distance is
134217729. -/
def far_pair : Datastructures :=
  (add_station (add_station {} "A" "a" ⟨134217728, 16384⟩).2 "B" "b" ⟨134217729, -5⟩).2

/-- A station whose distance from the origin exceeds `INT_MAX`, and a station
at distance 1. -/
def beyond_pair : Datastructures :=
  (add_station (add_station {} "A" "a" ⟨2000000000, 2000000000⟩).2 "B" "b" ⟨1, 0⟩).2

/-- Two stations that are both 4000000000 away from the point
(-2000000000, -2000000000). -/
def wrapped_pair : Datastructures :=
  (add_station (add_station {} "A" "a" ⟨2000000000, -2000000000⟩).2
    "B" "b" ⟨400000000, 1200000000⟩).2

/-- A station assigned to the region stored under the id `NO_REGION`. -/
def sentinel_lodged : Datastructures := (add_station_to_region sentinel_region "s" NO_REGION).2

/-! ## Predicates used in the statements -/

/-- A comparator that is a strict total order. -/
structure StrictTotal {α : Type} (lt : α → α → Bool) : Prop where
  irrefl : ∀ a, lt a a = false
  trans : ∀ a b c, lt a b = true → lt b c = true → lt a c = true
  total : ∀ a b, lt a b = false → lt b a = false → a = b

/-- The two station indices are in sync with the store: station ids are stored
once, the coordinate index holds exactly the pairs (coordinate, id) of the
live stations with no coordinate twice, and the name index holds exactly the
pairs (name, id) of the live stations. -/
structure StationsSync (s : Datastructures) : Prop where
  ids_nodup : (s.stations_to_ids.map Prod.fst).Nodup
  coords_nodup : (s.station_ids_to_coords.map Prod.fst).Nodup
  coords_mem : ∀ c id, (c, id) ∈ s.station_ids_to_coords ↔
    ∃ st, (id, st) ∈ s.stations_to_ids ∧ st.coord = c
  names_nodup : s.station_ids_to_names.Nodup
  names_mem : ∀ n id, (n, id) ∈ s.station_ids_to_names ↔
    ∃ st, (id, st) ∈ s.stations_to_ids ∧ st.name = n

/-- The name index is in sync with the store: station ids are stored once and
the name index holds exactly the pairs (name, id) of the live stations. -/
structure NamesInSync (s : Datastructures) : Prop where
  ids_nodup : (s.stations_to_ids.map Prod.fst).Nodup
  names_nodup : s.station_ids_to_names.Nodup
  names_mem : ∀ n id, (n, id) ∈ s.station_ids_to_names ↔
    ∃ st, (id, st) ∈ s.stations_to_ids ∧ st.name = n

/-- The parent pointer of region `c`, `none` when `c` is unknown or has no parent. -/
def parent_of (s : Datastructures) (c : RegionID) : Option RegionID :=
  (umap_find s.regions_to_ids c).bind (fun region => region.parent)

/-- The entries of `sorted_ids` in iteration order, each with its distance key. -/
def ranked (m : List (Distance × List (Int × StationID))) :
    List (Distance × (Int × StationID)) :=
  m.flatMap (fun g => g.2.map (fun e => (g.1, e)))

/-- The entry of `sorted_ids` made from an entry of the coordinate index. -/
def rank_key (xy : Coord) (id_to_coord : Coord × StationID) : Distance × (Int × StationID) :=
  (distance_between id_to_coord.1 xy, (id_to_coord.1.y, id_to_coord.2))

/-- The order in which `sorted_ids` is walked: by distance key, then by the
pair (y, id). -/
def rank_lt : Distance × (Int × StationID) → Distance × (Int × StationID) → Bool :=
  pair_lt int_lt (pair_lt int_lt str_lt)

/-- The representation invariant of `sorted_ids`: distance keys increase and
every group is in the order of its `std::set`. -/
def GroupsSorted (m : List (Distance × List (Int × StationID))) : Prop :=
  m.Pairwise (fun g h => g.1 < h.1) ∧
  ∀ g ∈ m, g.2.Pairwise (fun a b => pair_lt int_lt str_lt a b = true)

/-- The departures recorded for station `id` (none for an unknown station). -/
def departures_of (s : Datastructures) (id : StationID) : List (Time × TrainID) :=
  match umap_find s.stations_to_ids id with
  | none => []
  | some station => station.departures

/-- The direct subregions recorded for region `r` (none for an unknown region). -/
def children_of (s : Datastructures) (r : RegionID) : List RegionID :=
  match umap_find s.regions_to_ids r with
  | none => []
  | some region => region.subregions

/-- The ordered containers are in the order of their comparators: the
coordinate index, the name index and the departures of every station. -/
structure OrderedContainers (s : Datastructures) : Prop where
  coords_sorted : s.station_ids_to_coords.Pairwise (fun e f => Coord.lt e.1 f.1 = true)
  names_sorted : s.station_ids_to_names.Pairwise (fun e f => pair_lt str_lt str_lt e f = true)
  departures_sorted : ∀ e ∈ s.stations_to_ids,
    e.2.departures.Pairwise (fun a b => pair_lt nat_lt str_lt a b = true)

/-- The region of every station is `NO_REGION` or a stored region. -/
def LocationsWF (s : Datastructures) : Prop :=
  ∀ id station, umap_find s.stations_to_ids id = some station →
    station.location = NO_REGION ∨ (umap_find s.regions_to_ids station.location).isSome = true

/-- Every stored station record has the region `NO_REGION` or a stored region. -/
def LocationsStored (s : Datastructures) : Prop :=
  ∀ e ∈ s.stations_to_ids,
    e.2.location = NO_REGION ∨ (umap_find s.regions_to_ids e.2.location).isSome = true

/-- Station `id` is live and its assigned region is `r`. -/
def HasLocation (s : Datastructures) (id : StationID) (r : RegionID) : Prop :=
  ∃ st, umap_find s.stations_to_ids id = some st ∧ st.location = r

/-- The operation does not place a station on a coordinate held by another
live station. -/
def CollisionFree (s : Datastructures) : Op → Prop
  | .add_station _ _ xy => ∀ e ∈ s.stations_to_ids, e.2.coord ≠ xy
  | .change_station_coord id newcoord =>
    ∀ e ∈ s.stations_to_ids, e.1 ≠ id → e.2.coord ≠ newcoord
  | _ => True

/-- The square of the Euclidean distance between two coordinates. -/
def sq_dist (c1 c2 : Coord) : Int :=
  (c1.x - c2.x) * (c1.x - c2.x) + (c1.y - c2.y) * (c1.y - c2.y)

/-- The integer part of the Euclidean distance between two coordinates. -/
def floor_dist (c1 c2 : Coord) : Int := (isqrt (sq_dist c1 c2).toNat : Nat)

/-- The differences of the coordinates of `c1` and `c2` are values of `int`:
the subtractions of `distance_between` do not overflow. -/
def DiffFits (c1 c2 : Coord) : Prop :=
  -(2 ^ 31) ≤ c1.x - c2.x ∧ c1.x - c2.x < 2 ^ 31 ∧
  -(2 ^ 31) ≤ c1.y - c2.y ∧ c1.y - c2.y < 2 ^ 31

/-- Region `p` is the parent of region `c`. -/
def ParentOf (s : Datastructures) (c p : RegionID) : Prop :=
  ∃ region, umap_find s.regions_to_ids c = some region ∧ region.parent = some p

/-- Region `a` is a proper ancestor of region `c`: it is reached from `c` by
one or more parent links. -/
def Anc (s : Datastructures) (c a : RegionID) : Prop :=
  Relation.TransGen (ParentOf s) c a

/-- The parent relation is a forest: a region has at most one parent and no
region is its own ancestor. -/
def Forest (s : Datastructures) : Prop :=
  (∀ c p q, ParentOf s c p → ParentOf s c q → p = q) ∧ ∀ r, ¬ Anc s r r

/-- The region records are well formed: a region is stored under its own id
and a parent pointer points to a stored region. -/
def RegionsWF (s : Datastructures) : Prop :=
  (∀ k region, umap_find s.regions_to_ids k = some region → region.id = k) ∧
  (∀ k region p, umap_find s.regions_to_ids k = some region → region.parent = some p →
    (umap_find s.regions_to_ids p).isSome)

/-- The operation does not make a region a subregion of itself or of one of its
own descendants. -/
def NoCycleOp (s : Datastructures) : Op → Prop
  | .add_subregion_to_region id parentid => parentid ≠ id ∧ ¬ Anc s parentid id
  | _ => True

/-- The children lists are the inverse of the parent links: region `c` is in
the list of `p` exactly when the parent of `c` is `p`, and no list holds a
region twice. -/
def ChildrenInverse (s : Datastructures) : Prop :=
  ∀ p region, umap_find s.regions_to_ids p = some region →
    region.subregions.Nodup ∧ ∀ c, c ∈ region.subregions ↔ ParentOf s c p

/-! ## Lemmas on the containers -/

section ContainerLemmas
variable {K V α : Type}

theorem umap_find_eq_none [DecidableEq K] (m : List (K × V)) (k : K) :
    umap_find m k = none ↔ k ∉ m.map Prod.fst := by
  induction m with
  | nil => simp [umap_find]
  | cons e t ih =>
    obtain ⟨k', v⟩ := e
    by_cases h : k' = k
    · simp [umap_find, h]
    · have h' : ¬ k = k' := fun e => h e.symm
      simp [umap_find, h, h', ih]

theorem umap_find_append_new [DecidableEq K] (m : List (K × V)) (k : K) (v : V)
    (h : umap_find m k = none) : umap_find (m ++ [(k, v)]) k = some v := by
  induction m with
  | nil => simp [umap_find]
  | cons e t ih =>
    obtain ⟨k', v'⟩ := e
    by_cases hk : k' = k
    · simp [umap_find, hk] at h
    · simp only [umap_find, hk, if_false] at h
      simp [umap_find, hk, ih h]

theorem equiv_iff_eq {lt : α → α → Bool} (h : StrictTotal lt) (a b : α) :
    equiv lt a b = true ↔ a = b := by
  constructor
  · intro he
    simp only [equiv, Bool.and_eq_true, Bool.not_eq_true'] at he
    exact h.total a b he.1 he.2
  · rintro rfl
    simp [equiv, h.irrefl]

theorem ordered_insert_perm (lt : α → α → Bool) (a : α) (l : List α) :
    (ordered_insert lt a l).Perm (a :: l) := by
  induction l with
  | nil => simp [ordered_insert]
  | cons b t ih =>
    by_cases hab : lt a b = true
    · simp [ordered_insert, hab]
    · simp only [ordered_insert, hab]
      exact (List.Perm.cons b ih).trans (List.Perm.swap a b t)

theorem set_find_eq_none {lt : α → α → Bool} (h : StrictTotal lt) (l : List α) (a : α) :
    set_find lt l a = none ↔ a ∉ l := by
  simp only [set_find, List.find?_eq_none, equiv_iff_eq h]
  constructor
  · intro hx ha; exact hx a ha rfl
  · intro ha x hx e; exact ha (e ▸ hx)

theorem set_insert_perm {lt : α → α → Bool} (h : StrictTotal lt) (l : List α) (a : α)
    (ha : a ∉ l) : (set_insert lt l a).1.Perm (a :: l) := by
  have hf := (set_find_eq_none h l a).2 ha
  simp only [set_insert, hf]
  exact ordered_insert_perm lt a l

theorem set_insert_of_mem {lt : α → α → Bool} (h : StrictTotal lt) (l : List α) (a : α)
    (ha : a ∈ l) : (set_insert lt l a).1 = l := by
  have hf : (set_find lt l a).isSome = true := by
    cases hs : set_find lt l a with
    | none => exact absurd ha ((set_find_eq_none h l a).1 hs)
    | some _ => rfl
  simp [set_insert, hf]

theorem mem_set_insert {lt : α → α → Bool} (h : StrictTotal lt) (l : List α) (a x : α) :
    x ∈ (set_insert lt l a).1 ↔ x = a ∨ x ∈ l := by
  by_cases ha : a ∈ l
  · rw [set_insert_of_mem h l a ha]
    constructor
    · exact Or.inr
    · rintro (rfl | hx)
      · exact ha
      · exact hx
  · rw [(set_insert_perm h l a ha).mem_iff]; simp

theorem nodup_set_insert {lt : α → α → Bool} (h : StrictTotal lt) (l : List α) (a : α)
    (hl : l.Nodup) : (set_insert lt l a).1.Nodup := by
  by_cases ha : a ∈ l
  · rw [set_insert_of_mem h l a ha]; exact hl
  · rw [(set_insert_perm h l a ha).nodup_iff]; exact List.nodup_cons.2 ⟨ha, hl⟩

theorem mem_set_erase {lt : α → α → Bool} (h : StrictTotal lt) (l : List α) (a x : α) :
    x ∈ set_erase lt l a ↔ x ∈ l ∧ x ≠ a := by
  simp only [set_erase, List.mem_filter, Bool.not_eq_true', ← Bool.not_eq_true,
    equiv_iff_eq h]
  constructor
  · rintro ⟨hx, hne⟩; exact ⟨hx, fun e => hne e.symm⟩
  · rintro ⟨hx, hne⟩; exact ⟨hx, fun e => hne e.symm⟩

theorem map_find_eq_none {lt : K → K → Bool} (h : StrictTotal lt) (m : List (K × V)) (k : K) :
    map_find lt m k = none ↔ k ∉ m.map Prod.fst := by
  simp only [map_find, List.find?_eq_none, equiv_iff_eq h, List.mem_map, not_exists, not_and]
  constructor
  · intro hx e he hk; exact hx e he hk.symm
  · intro hx e he hk; exact hx e he hk.symm

theorem map_find_of_mem {lt : K → K → Bool} (h : StrictTotal lt) (m : List (K × V)) (k : K)
    (v : V) (hn : (m.map Prod.fst).Nodup) (hm : (k, v) ∈ m) :
    map_find lt m k = some (k, v) := by
  induction m with
  | nil => simp at hm
  | cons e t ih =>
    simp only [List.map_cons, List.nodup_cons] at hn
    by_cases he : equiv lt k e.1 = true
    · have hk : k = e.1 := (equiv_iff_eq h _ _).1 he
      rcases List.mem_cons.1 hm with hm | hm
      · simp [map_find, List.find?, ← hm, (equiv_iff_eq h k k).2 rfl]
      · exact absurd (List.mem_map.2 ⟨(k, v), hm, hk⟩) hn.1
    · rcases List.mem_cons.1 hm with hm | hm
      · exact absurd ((equiv_iff_eq h _ _).2 (by rw [← hm])) he
      · have := ih hn.2 hm
        simp only [map_find] at this ⊢
        simp [List.find?, he, this]

theorem map_insert_perm {lt : K → K → Bool} (h : StrictTotal lt) (m : List (K × V)) (k : K)
    (v : V) (hk : k ∉ m.map Prod.fst) : (map_insert lt m k v).1.Perm ((k, v) :: m) := by
  have hf := (map_find_eq_none h m k).2 hk
  simp only [map_insert, hf]
  exact ordered_insert_perm _ _ _

theorem map_insert_of_mem {lt : K → K → Bool} (h : StrictTotal lt) (m : List (K × V)) (k : K)
    (v : V) (hk : k ∈ m.map Prod.fst) : (map_insert lt m k v).1 = m := by
  have hf : (map_find lt m k).isSome = true := by
    cases hs : map_find lt m k with
    | none => exact absurd hk ((map_find_eq_none h m k).1 hs)
    | some _ => rfl
  simp [map_insert, hf]

theorem mem_map_erase {lt : K → K → Bool} (h : StrictTotal lt) (m : List (K × V)) (k : K)
    (x : K × V) : x ∈ map_erase lt m k ↔ x ∈ m ∧ x.1 ≠ k := by
  simp only [map_erase, List.mem_filter, Bool.not_eq_true', ← Bool.not_eq_true,
    equiv_iff_eq h]
  constructor
  · rintro ⟨hx, hne⟩; exact ⟨hx, fun e => hne e.symm⟩
  · rintro ⟨hx, hne⟩; exact ⟨hx, fun e => hne e.symm⟩

end ContainerLemmas

/-! ## The comparators are strict total orders -/

theorem strictTotal_int_lt : StrictTotal int_lt where
  irrefl a := by simp [int_lt]
  trans a b c := by simp only [int_lt, decide_eq_true_eq]; omega
  total a b := by simp only [int_lt, decide_eq_false_iff_not]; omega

theorem strictTotal_nat_lt : StrictTotal nat_lt where
  irrefl a := by simp [nat_lt]
  trans a b c := by simp only [nat_lt, decide_eq_true_eq]; omega
  total a b := by simp only [nat_lt, decide_eq_false_iff_not]; omega

theorem str_lt_iff (a b : String) : str_lt a b = true ↔ a < b := by
  simp only [str_lt, decide_eq_true_eq, String.lt_iff_toList_lt]

theorem strictTotal_str_lt : StrictTotal str_lt where
  irrefl a := by
    rw [← Bool.not_eq_true, str_lt_iff]; exact lt_irrefl a
  trans a b c := by
    simp only [str_lt_iff]; exact fun h1 h2 => lt_trans h1 h2
  total a b := by
    rw [← Bool.not_eq_true, ← Bool.not_eq_true, str_lt_iff, str_lt_iff]
    exact fun h1 h2 => le_antisymm (not_lt.1 h2) (not_lt.1 h1)

theorem strictTotal_pair_lt {α β : Type} {lta : α → α → Bool} {ltb : β → β → Bool}
    (ha : StrictTotal lta) (hb : StrictTotal ltb) : StrictTotal (pair_lt lta ltb) where
  irrefl p := by simp [pair_lt, ha.irrefl, hb.irrefl]
  trans p q r := by
    intro h1 h2
    simp only [pair_lt, Bool.or_eq_true, Bool.and_eq_true, Bool.not_eq_true'] at h1 h2 ⊢
    rcases h1 with h1 | ⟨h1, h1'⟩
    · rcases h2 with h2 | ⟨h2, _⟩
      · exact Or.inl (ha.trans _ _ _ h1 h2)
      · by_cases hqr : lta q.1 r.1 = true
        · exact Or.inl (ha.trans _ _ _ h1 hqr)
        · have e : q.1 = r.1 := ha.total _ _ (by simpa using hqr) h2
          exact Or.inl (e ▸ h1)
    · rcases h2 with h2 | ⟨h2, h2'⟩
      · by_cases hpq : lta p.1 q.1 = true
        · exact Or.inl (ha.trans _ _ _ hpq h2)
        · have e : p.1 = q.1 := ha.total _ _ (by simpa using hpq) h1
          exact Or.inl (e ▸ h2)
      · by_cases hpq : lta p.1 q.1 = true
        · by_cases hqr : lta q.1 r.1 = true
          · exact Or.inl (ha.trans _ _ _ hpq hqr)
          · have e : q.1 = r.1 := ha.total _ _ (by simpa using hqr) h2
            exact Or.inl (e ▸ hpq)
        · have e : p.1 = q.1 := ha.total _ _ (by simpa using hpq) h1
          by_cases hqr : lta q.1 r.1 = true
          · exact Or.inl (e ▸ hqr)
          · have e' : q.1 = r.1 := ha.total _ _ (by simpa using hqr) h2
            refine Or.inr ⟨?_, hb.trans _ _ _ h1' h2'⟩
            rw [← e', ← e]; exact ha.irrefl _
  total p q := by
    intro h1 h2
    simp only [pair_lt, Bool.or_eq_false_iff, Bool.and_eq_false_iff, Bool.not_eq_false'] at h1 h2
    have e1 : p.1 = q.1 := ha.total _ _ h1.1 h2.1
    have e2 : p.2 = q.2 := by
      apply hb.total
      · rcases h1.2 with h | h
        · rw [h] at h2; exact absurd h2.1 (by simp)
        · exact h
      · rcases h2.2 with h | h
        · rw [h] at h1; exact absurd h1.1 (by simp)
        · exact h
    exact Prod.ext e1 e2

theorem coord_lt_iff (c1 c2 : Coord) :
    Coord.lt c1 c2 = true ↔
      hypot_int c1.x c1.y < hypot_int c2.x c2.y ∨
      (hypot_int c1.x c1.y = hypot_int c2.x c2.y ∧
        (c1.y < c2.y ∨ (c1.y = c2.y ∧ c1.x < c2.x))) := by
  unfold Coord.lt
  generalize hypot_int c1.x c1.y = d1
  generalize hypot_int c2.x c2.y = d2
  simp only
  split_ifs <;> simp <;> omega

theorem strictTotal_coord_lt : StrictTotal Coord.lt where
  irrefl a := by
    rw [← Bool.not_eq_true, coord_lt_iff]; omega
  trans a b c := by
    rw [coord_lt_iff, coord_lt_iff, coord_lt_iff]
    generalize hypot_int a.x a.y = d1
    generalize hypot_int b.x b.y = d2
    generalize hypot_int c.x c.y = d3
    omega
  total a b := by
    rw [← Bool.not_eq_true, ← Bool.not_eq_true, coord_lt_iff, coord_lt_iff]
    generalize hypot_int a.x a.y = d1
    generalize hypot_int b.x b.y = d2
    intro h1 h2
    have hx : a.x = b.x := by omega
    have hy : a.y = b.y := by omega
    cases a; cases b; simp_all

/-! ## Adding a station -/

theorem add_station_new (s : Datastructures) (id : StationID) (name : Name) (xy : Coord)
    (h : umap_find s.stations_to_ids id = none) :
    add_station s id name xy =
      (true, { s with
        stations_to_ids := s.stations_to_ids ++ [(id, { id := id, name := name, coord := xy })]
        station_ids_to_coords := (map_insert Coord.lt s.station_ids_to_coords xy id).1
        station_ids_to_names :=
          (set_insert (pair_lt str_lt str_lt) s.station_ids_to_names (name, id)).1 }) := by
  simp [add_station, umap_insert, h]

/-- C1: adding a station whose id is not live returns true, and the name and
the coordinate read back for that id are the ones just given. -/
theorem add_station_then_get (s : Datastructures) (id : StationID) (name : Name)
    (coord : Coord) (h : id ∉ all_stations s) :
    (add_station s id name coord).1 = true ∧
    get_station_name (add_station s id name coord).2 id = name ∧
    get_station_coordinates (add_station s id name coord).2 id = coord := by
  have hf : umap_find s.stations_to_ids id = none := by
    rw [umap_find_eq_none]; simpa [all_stations] using h
  rw [add_station_new s id name coord hf]
  simp [get_station_name, get_station_coordinates, umap_find_append_new _ _ _ hf]

theorem add_station_then_get_witness :
    "B" ∉ all_stations (add_station {} "A" "Alpha" ⟨3, 4⟩).2 ∧
    (add_station (add_station {} "A" "Alpha" ⟨3, 4⟩).2 "B" "Beta" ⟨0, 1⟩).1 = true ∧
    get_station_name
      (add_station (add_station {} "A" "Alpha" ⟨3, 4⟩).2 "B" "Beta" ⟨0, 1⟩).2 "B" = "Beta" ∧
    get_station_coordinates
      (add_station (add_station {} "A" "Alpha" ⟨3, 4⟩).2 "B" "Beta" ⟨0, 1⟩).2 "B" = ⟨0, 1⟩ :=
  ⟨by decide, add_station_then_get _ "B" "Beta" ⟨0, 1⟩ (by decide)⟩

/-! ## Moving a station -/

theorem map_find_ordered_insert {K V : Type} {lt : K → K → Bool} (h : StrictTotal lt)
    (m : List (K × V)) (k : K) (v : V) (hk : k ∉ m.map Prod.fst) :
    map_find lt (ordered_insert (key_lt lt) (k, v) m) k = some (k, v) := by
  induction m with
  | nil => simp [ordered_insert, map_find, List.find?, (equiv_iff_eq h k k).2 rfl]
  | cons b t ih =>
    simp only [List.map_cons, List.mem_cons, not_or] at hk
    by_cases hlt : key_lt lt (k, v) b = true
    · simp [ordered_insert, hlt, map_find, List.find?, (equiv_iff_eq h k k).2 rfl]
    · have hne : ¬ equiv lt k b.1 = true := fun e => hk.1 ((equiv_iff_eq h _ _).1 e)
      have := ih hk.2
      simp only [map_find] at this ⊢
      simp [ordered_insert, hlt, List.find?, hne, this]

theorem umap_find_mem {K V : Type} [DecidableEq K] (m : List (K × V)) (k : K) (v : V)
    (h : umap_find m k = some v) : (k, v) ∈ m := by
  induction m with
  | nil => simp [umap_find] at h
  | cons e t ih =>
    obtain ⟨k', v'⟩ := e
    by_cases hk : k' = k
    · simp only [umap_find, hk, if_true, Option.some.injEq] at h
      simp [hk, h]
    · simp only [umap_find, hk, if_false] at h
      exact List.mem_cons_of_mem _ (ih h)

theorem umap_find_isSome {K V : Type} [DecidableEq K] (m : List (K × V)) (k : K)
    (h : k ∈ m.map Prod.fst) : ∃ v, umap_find m k = some v := by
  cases hf : umap_find m k with
  | none => exact absurd h ((umap_find_eq_none m k).1 hf)
  | some v => exact ⟨v, rfl⟩

theorem change_station_coord_live (s : Datastructures) (id : StationID) (newcoord : Coord)
    (st : Station) (e : Coord × StationID) (hst : umap_find s.stations_to_ids id = some st)
    (hold : map_find Coord.lt s.station_ids_to_coords st.coord = some e) :
    change_station_coord s id newcoord =
      some (true, { s with
        station_ids_to_coords :=
          (map_insert Coord.lt (map_erase Coord.lt s.station_ids_to_coords st.coord)
            newcoord e.2).1
        stations_to_ids :=
          umap_modify s.stations_to_ids id (fun st => { st with coord := newcoord }) }) := by
  simp only [change_station_coord, hst, map_extract, hold]

/-- C2 (counterexample): station A is moved onto the coordinate of station B;
the call returns true and the lookup of that coordinate still answers B. -/
theorem change_station_coord_onto_other :
    Reachable two_apart ∧ "A" ∈ all_stations two_apart ∧
    ∃ t, change_station_coord two_apart "A" ⟨1, 1⟩ = some (true, t) ∧
      find_station_with_coord t ⟨1, 1⟩ ≠ "A" := by
  refine ⟨?_, by decide, _, rfl, by decide⟩
  exact Reach.step _ (.add_station "B" "b" ⟨1, 1⟩) _
    (Reach.step _ (.add_station "A" "a" ⟨0, 0⟩) _ Reach.init trivial rfl) trivial rfl

/-- C2 (amended): when the coordinate index holds the live station `id` under
its current coordinate and has no entry for `newcoord`, the call
`change_station_coord(id, newcoord)` returns true, after which the lookup of
`newcoord` answers `id` and the lookup of the old coordinate answers
`NO_STATION`. -/
theorem change_station_coord_then_find (s : Datastructures) (id : StationID)
    (newcoord : Coord) (hlive : id ∈ all_stations s)
    (hold : map_find Coord.lt s.station_ids_to_coords (get_station_coordinates s id) =
      some (get_station_coordinates s id, id))
    (hnew : map_find Coord.lt s.station_ids_to_coords newcoord = none) :
    ∃ t, change_station_coord s id newcoord = some (true, t) ∧
      find_station_with_coord t newcoord = id ∧
      find_station_with_coord t (get_station_coordinates s id) = NO_STATION := by
  obtain ⟨st, hst⟩ := umap_find_isSome s.stations_to_ids id (by simpa [all_stations] using hlive)
  have hc : get_station_coordinates s id = st.coord := by simp [get_station_coordinates, hst]
  rw [hc] at hold ⊢
  have hT := strictTotal_coord_lt
  have hnewk := (map_find_eq_none hT _ _).1 hnew
  have holdk : st.coord ∈ s.station_ids_to_coords.map Prod.fst := by
    by_contra hcon
    rw [(map_find_eq_none hT _ _).2 hcon] at hold
    exact Option.noConfusion hold
  have hne : st.coord ≠ newcoord := fun e => hnewk (e ▸ holdk)
  have hnewk' : newcoord ∉ (map_erase Coord.lt s.station_ids_to_coords st.coord).map Prod.fst := by
    intro hm
    obtain ⟨e, he, hek⟩ := List.mem_map.1 hm
    exact hnewk (List.mem_map.2 ⟨e, ((mem_map_erase hT _ _ _).1 he).1, hek⟩)
  have hins : (map_insert Coord.lt (map_erase Coord.lt s.station_ids_to_coords st.coord)
      newcoord id).1 = ordered_insert (key_lt Coord.lt) (newcoord, id)
        (map_erase Coord.lt s.station_ids_to_coords st.coord) := by
    simp [map_insert, (map_find_eq_none hT _ _).2 hnewk']
  refine ⟨_, change_station_coord_live s id newcoord st _ hst hold, ?_, ?_⟩
  · simp only [find_station_with_coord, hins, map_find_ordered_insert hT _ _ _ hnewk']
  · have hnone : map_find Coord.lt (ordered_insert (key_lt Coord.lt) (newcoord, id)
        (map_erase Coord.lt s.station_ids_to_coords st.coord)) st.coord = none := by
      rw [map_find_eq_none hT]
      intro hm
      obtain ⟨e, he, hek⟩ := List.mem_map.1 hm
      rcases List.mem_cons.1 ((ordered_insert_perm _ _ _).mem_iff.1 he) with he | he
      · subst he; exact hne hek.symm
      · exact ((mem_map_erase hT _ _ _).1 he).2 hek
    simp only [find_station_with_coord, hins, hnone]

theorem change_station_coord_then_find_witness :
    "A" ∈ all_stations two_apart ∧
    map_find Coord.lt two_apart.station_ids_to_coords (get_station_coordinates two_apart "A") =
      some (get_station_coordinates two_apart "A", "A") ∧
    map_find Coord.lt two_apart.station_ids_to_coords ⟨2, 5⟩ = none ∧
    ∃ t, change_station_coord two_apart "A" ⟨2, 5⟩ = some (true, t) ∧
      find_station_with_coord t ⟨2, 5⟩ = "A" ∧
      find_station_with_coord t (get_station_coordinates two_apart "A") = NO_STATION :=
  ⟨by decide, by decide, by decide,
    change_station_coord_then_find two_apart "A" ⟨2, 5⟩ (by decide) (by decide) (by decide)⟩

/-! ## Adding a station on a taken coordinate -/

theorem umap_find_append_old {K V : Type} [DecidableEq K] (m : List (K × V)) (k k' : K)
    (v v' : V) (h : umap_find m k = some v) : umap_find (m ++ [(k', v')]) k = some v := by
  induction m with
  | nil => simp [umap_find] at h
  | cons e t ih =>
    obtain ⟨k0, v0⟩ := e
    by_cases hk : k0 = k
    · simp only [umap_find, hk, if_true] at h
      simp [umap_find, hk, h]
    · simp only [umap_find, hk, if_false] at h
      simp [umap_find, hk, ih h]

/-- C4 (counterexample): station B is added on the coordinate of the live
station A; the call returns true and the state changes. -/
theorem add_station_same_coord_accepted :
    Reachable one_station ∧ "B" ∉ all_stations one_station ∧
    "A" ∈ all_stations one_station ∧ get_station_coordinates one_station "A" = ⟨0, 0⟩ ∧
    (add_station one_station "B" "b" ⟨0, 0⟩).1 = true ∧
    (add_station one_station "B" "b" ⟨0, 0⟩).2 ≠ one_station ∧
    get_station_coordinates (add_station one_station "B" "b" ⟨0, 0⟩).2 "A" =
      get_station_coordinates (add_station one_station "B" "b" ⟨0, 0⟩).2 "B" := by
  refine ⟨?_, by decide, by decide, by decide, by decide, by decide, by decide⟩
  exact Reach.step _ (.add_station "A" "a" ⟨0, 0⟩) _ Reach.init trivial rfl

/-- C4 (amended): a new id is accepted even when `coord` is already the
coordinate of a live station `other`: add_station returns true, the station
count grows by one, both stations then have coordinate `coord`, and the
coordinate index is left as it was when it already has an entry for `coord`. -/
theorem add_station_on_taken_coord (s : Datastructures) (id other : StationID) (name : Name)
    (coord : Coord) (hnew : id ∉ all_stations s) (hother : other ∈ all_stations s)
    (hco : get_station_coordinates s other = coord) :
    (add_station s id name coord).1 = true ∧
    station_count (add_station s id name coord).2 = station_count s + 1 ∧
    get_station_coordinates (add_station s id name coord).2 id = coord ∧
    get_station_coordinates (add_station s id name coord).2 other = coord ∧
    ((map_find Coord.lt s.station_ids_to_coords coord).isSome = true →
      (add_station s id name coord).2.station_ids_to_coords = s.station_ids_to_coords) := by
  have hf : umap_find s.stations_to_ids id = none := by
    rw [umap_find_eq_none]; simpa [all_stations] using hnew
  obtain ⟨st, hst⟩ := umap_find_isSome s.stations_to_ids other
    (by simpa [all_stations] using hother)
  have hc : st.coord = coord := by simpa [get_station_coordinates, hst] using hco
  rw [add_station_new s id name coord hf]
  refine ⟨rfl, by simp [station_count], ?_, ?_, ?_⟩
  · simp [get_station_coordinates, umap_find_append_new _ _ _ hf]
  · simp [get_station_coordinates, umap_find_append_old _ _ _ _ _ hst, hc]
  · intro hsome
    simp [map_insert, hsome]

theorem add_station_on_taken_coord_witness :
    "B" ∉ all_stations one_station ∧ "A" ∈ all_stations one_station ∧
    get_station_coordinates one_station "A" = ⟨0, 0⟩ ∧
    (add_station one_station "B" "b" ⟨0, 0⟩).1 = true ∧
    station_count (add_station one_station "B" "b" ⟨0, 0⟩).2 = station_count one_station + 1 ∧
    get_station_coordinates (add_station one_station "B" "b" ⟨0, 0⟩).2 "B" = ⟨0, 0⟩ ∧
    get_station_coordinates (add_station one_station "B" "b" ⟨0, 0⟩).2 "A" = ⟨0, 0⟩ ∧
    ((map_find Coord.lt one_station.station_ids_to_coords ⟨0, 0⟩).isSome = true →
      (add_station one_station "B" "b" ⟨0, 0⟩).2.station_ids_to_coords =
        one_station.station_ids_to_coords) :=
  ⟨by decide, by decide, by decide,
    add_station_on_taken_coord one_station "B" "A" "b" ⟨0, 0⟩ (by decide) (by decide)
      (by decide)⟩

/-! ## The station indices stay in sync -/

theorem eq_of_mem_of_nodup_keys {K V : Type} {l : List (K × V)}
    (hn : (l.map Prod.fst).Nodup) {k : K} {v1 v2 : V} (h1 : (k, v1) ∈ l) (h2 : (k, v2) ∈ l) :
    v1 = v2 := by
  have := List.inj_on_of_nodup_map hn h1 h2 rfl
  exact (Prod.mk.inj this).2

theorem mem_umap_modify {K V : Type} [DecidableEq K] (m : List (K × V)) (k : K) (f : V → V)
    (i : K) (v' : V) :
    (i, v') ∈ umap_modify m k f ↔ ∃ v, (i, v) ∈ m ∧ v' = if i = k then f v else v := by
  simp only [umap_modify, List.mem_map, Prod.exists]
  constructor
  · rintro ⟨a, b, hab, h⟩
    by_cases hk : a = k
    · simp only [hk, if_true, Prod.mk.injEq] at h
      obtain ⟨h1, h2⟩ := h
      subst hk; subst h1
      exact ⟨b, hab, by simp [h2]⟩
    · simp only [hk, if_false, Prod.mk.injEq] at h
      obtain ⟨h1, h2⟩ := h
      subst h1; subst h2
      exact ⟨b, hab, by simp [hk]⟩
  · rintro ⟨v, hv, rfl⟩
    refine ⟨i, v, hv, ?_⟩
    by_cases hk : i = k <;> simp [hk]

theorem keys_umap_modify {K V : Type} [DecidableEq K] (m : List (K × V)) (k : K) (f : V → V) :
    (umap_modify m k f).map Prod.fst = m.map Prod.fst := by
  simp only [umap_modify, List.map_map]
  apply List.map_congr_left
  intro e _
  by_cases hk : e.1 = k <;> simp [hk]

theorem mem_umap_erase {K V : Type} [DecidableEq K] (m : List (K × V)) (k : K) (x : K × V) :
    x ∈ umap_erase m k ↔ x ∈ m ∧ x.1 ≠ k := by
  simp [umap_erase, List.mem_filter]

theorem sync_empty : StationsSync {} where
  ids_nodup := by simp
  coords_nodup := by simp
  coords_mem := by simp
  names_nodup := by simp
  names_mem := by simp

theorem sync_regions (s : Datastructures) (r : List (RegionID × Region))
    (h : StationsSync s) : StationsSync { s with regions_to_ids := r } where
  ids_nodup := h.ids_nodup
  coords_nodup := h.coords_nodup
  coords_mem := h.coords_mem
  names_nodup := h.names_nodup
  names_mem := h.names_mem

theorem sync_modify (s : Datastructures) (id : StationID) (f : Station → Station)
    (hc : ∀ st, (f st).coord = st.coord) (hname : ∀ st, (f st).name = st.name)
    (h : StationsSync s) :
    StationsSync { s with stations_to_ids := umap_modify s.stations_to_ids id f } where
  ids_nodup := by
    show ((umap_modify s.stations_to_ids id f).map Prod.fst).Nodup
    rw [keys_umap_modify]; exact h.ids_nodup
  coords_nodup := h.coords_nodup
  coords_mem := by
    intro c i
    show (c, i) ∈ s.station_ids_to_coords ↔
      ∃ st, (i, st) ∈ umap_modify s.stations_to_ids id f ∧ st.coord = c
    rw [h.coords_mem]
    constructor
    · rintro ⟨st, hst, hco⟩
      refine ⟨_, (mem_umap_modify _ _ _ _ _).2 ⟨st, hst, rfl⟩, ?_⟩
      by_cases hk : i = id <;> simp [hk, hc, hco]
    · rintro ⟨st', hst', hco⟩
      obtain ⟨st, hst, rfl⟩ := (mem_umap_modify _ _ _ _ _).1 hst'
      refine ⟨st, hst, ?_⟩
      by_cases hk : i = id <;> simp [hk, hc] at hco <;> exact hco
  names_nodup := h.names_nodup
  names_mem := by
    intro n i
    show (n, i) ∈ s.station_ids_to_names ↔
      ∃ st, (i, st) ∈ umap_modify s.stations_to_ids id f ∧ st.name = n
    rw [h.names_mem]
    constructor
    · rintro ⟨st, hst, hco⟩
      refine ⟨_, (mem_umap_modify _ _ _ _ _).2 ⟨st, hst, rfl⟩, ?_⟩
      by_cases hk : i = id <;> simp [hk, hname, hco]
    · rintro ⟨st', hst', hco⟩
      obtain ⟨st, hst, rfl⟩ := (mem_umap_modify _ _ _ _ _).1 hst'
      refine ⟨st, hst, ?_⟩
      by_cases hk : i = id <;> simp [hk, hname] at hco <;> exact hco

theorem sync_add_station (s : Datastructures) (id : StationID) (name : Name) (xy : Coord)
    (hfree : ∀ e ∈ s.stations_to_ids, e.2.coord ≠ xy) (h : StationsSync s) :
    StationsSync (add_station s id name xy).2 := by
  cases hf : umap_find s.stations_to_ids id with
  | some st => simpa [add_station, hf] using h
  | none =>
    rw [add_station_new s id name xy hf]
    have hid : id ∉ s.stations_to_ids.map Prod.fst := (umap_find_eq_none _ _).1 hf
    have hxy : xy ∉ s.station_ids_to_coords.map Prod.fst := by
      intro hm
      obtain ⟨e, he, hek⟩ := List.mem_map.1 hm
      obtain ⟨st, hst, hco⟩ := (h.coords_mem e.1 e.2).1 he
      exact hfree _ hst (hco.trans hek)
    have hP := map_insert_perm strictTotal_coord_lt s.station_ids_to_coords xy id hxy
    have hS := strictTotal_pair_lt strictTotal_str_lt strictTotal_str_lt
    refine ⟨?_, ?_, ?_, ?_, ?_⟩
    · show ((s.stations_to_ids ++ [_]).map Prod.fst).Nodup
      rw [List.map_append, List.nodup_append]
      refine ⟨h.ids_nodup, by simp, ?_⟩
      intro a ha hb
      simp only [List.map_cons, List.map_nil, List.mem_singleton] at hb
      exact hid (hb ▸ ha)
    · show ((map_insert Coord.lt s.station_ids_to_coords xy id).1.map Prod.fst).Nodup
      rw [(hP.map Prod.fst).nodup_iff]
      exact List.nodup_cons.2 ⟨hxy, h.coords_nodup⟩
    · intro c i
      show (c, i) ∈ (map_insert Coord.lt s.station_ids_to_coords xy id).1 ↔
        ∃ st, (i, st) ∈ s.stations_to_ids ++ [_] ∧ st.coord = c
      rw [hP.mem_iff, List.mem_cons, h.coords_mem]
      constructor
      · rintro (he | ⟨st, hst, hco⟩)
        · obtain ⟨rfl, rfl⟩ := Prod.mk.inj he
          exact ⟨_, List.mem_append_right _ (List.mem_singleton.2 rfl), rfl⟩
        · exact ⟨st, List.mem_append_left _ hst, hco⟩
      · rintro ⟨st, hst, hco⟩
        rcases List.mem_append.1 hst with hst | hst
        · exact Or.inr ⟨st, hst, hco⟩
        · obtain ⟨rfl, rfl⟩ := Prod.mk.inj (List.mem_singleton.1 hst)
          exact Or.inl (by rw [← hco])
    · exact nodup_set_insert hS _ _ h.names_nodup
    · intro n i
      show (n, i) ∈ (set_insert (pair_lt str_lt str_lt) s.station_ids_to_names (name, id)).1 ↔
        ∃ st, (i, st) ∈ s.stations_to_ids ++ [_] ∧ st.name = n
      rw [mem_set_insert hS, h.names_mem]
      constructor
      · rintro (he | ⟨st, hst, hco⟩)
        · obtain ⟨rfl, rfl⟩ := Prod.mk.inj he
          exact ⟨_, List.mem_append_right _ (List.mem_singleton.2 rfl), rfl⟩
        · exact ⟨st, List.mem_append_left _ hst, hco⟩
      · rintro ⟨st, hst, hco⟩
        rcases List.mem_append.1 hst with hst | hst
        · exact Or.inr ⟨st, hst, hco⟩
        · obtain ⟨rfl, rfl⟩ := Prod.mk.inj (List.mem_singleton.1 hst)
          exact Or.inl (by rw [← hco])

theorem nodup_keys_filter {K V : Type} (l : List (K × V)) (p : K × V → Bool)
    (h : (l.map Prod.fst).Nodup) : ((l.filter p).map Prod.fst).Nodup :=
  h.sublist ((List.filter_sublist l).map Prod.fst)

theorem sync_remove_station (s : Datastructures) (id : StationID) (h : StationsSync s) :
    StationsSync (remove_station s id).2 := by
  cases hf : umap_find s.stations_to_ids id with
  | none => simpa [remove_station, hf] using h
  | some st =>
    have hst : (id, st) ∈ s.stations_to_ids := umap_find_mem _ _ _ hf
    have hT := strictTotal_coord_lt
    have hS := strictTotal_pair_lt strictTotal_str_lt strictTotal_str_lt
    simp only [remove_station, hf]
    refine ⟨?_, ?_, ?_, ?_, ?_⟩
    · exact nodup_keys_filter _ _ h.ids_nodup
    · exact nodup_keys_filter _ _ h.coords_nodup
    · intro c i
      show (c, i) ∈ map_erase Coord.lt s.station_ids_to_coords st.coord ↔
        ∃ st', (i, st') ∈ umap_erase s.stations_to_ids id ∧ st'.coord = c
      rw [mem_map_erase hT, h.coords_mem]
      constructor
      · rintro ⟨⟨st', hst', hco⟩, hne⟩
        refine ⟨st', (mem_umap_erase _ _ _).2 ⟨hst', ?_⟩, hco⟩
        rintro rfl
        have := eq_of_mem_of_nodup_keys h.ids_nodup hst' hst
        exact hne (by rw [← hco, this])
      · rintro ⟨st', hst', hco⟩
        obtain ⟨hm, hne⟩ := (mem_umap_erase _ _ _).1 hst'
        refine ⟨⟨st', hm, hco⟩, ?_⟩
        intro hc
        have h1 : (st.coord, i) ∈ s.station_ids_to_coords :=
          (h.coords_mem _ _).2 ⟨st', hm, hco.trans hc⟩
        have h2 : (st.coord, id) ∈ s.station_ids_to_coords := (h.coords_mem _ _).2 ⟨st, hst, rfl⟩
        exact hne (eq_of_mem_of_nodup_keys h.coords_nodup h1 h2)
    · exact h.names_nodup.sublist (List.filter_sublist _)
    · intro n i
      show (n, i) ∈ set_erase (pair_lt str_lt str_lt) s.station_ids_to_names (st.name, id) ↔
        ∃ st', (i, st') ∈ umap_erase s.stations_to_ids id ∧ st'.name = n
      rw [mem_set_erase hS, h.names_mem]
      constructor
      · rintro ⟨⟨st', hst', hco⟩, hne⟩
        refine ⟨st', (mem_umap_erase _ _ _).2 ⟨hst', ?_⟩, hco⟩
        rintro rfl
        have := eq_of_mem_of_nodup_keys h.ids_nodup hst' hst
        exact hne (by rw [← hco, this])
      · rintro ⟨st', hst', hco⟩
        obtain ⟨hm, hne⟩ := (mem_umap_erase _ _ _).1 hst'
        exact ⟨⟨st', hm, hco⟩, fun e => hne (Prod.mk.inj e).2⟩

theorem sync_find_coord (s : Datastructures) (h : StationsSync s) (id : StationID)
    (st : Station) (hst : (id, st) ∈ s.stations_to_ids) :
    map_find Coord.lt s.station_ids_to_coords st.coord = some (st.coord, id) :=
  map_find_of_mem strictTotal_coord_lt _ _ _ h.coords_nodup
    ((h.coords_mem _ _).2 ⟨st, hst, rfl⟩)

theorem sync_change_station_coord (s t : Datastructures) (id : StationID) (newcoord : Coord)
    (b : Bool) (hfree : ∀ e ∈ s.stations_to_ids, e.1 ≠ id → e.2.coord ≠ newcoord)
    (h : StationsSync s) (hstep : change_station_coord s id newcoord = some (b, t)) :
    StationsSync t := by
  cases hf : umap_find s.stations_to_ids id with
  | none =>
    simp only [change_station_coord, hf, Option.some.injEq, Prod.mk.injEq] at hstep
    exact hstep.2 ▸ h
  | some st =>
    have hst : (id, st) ∈ s.stations_to_ids := umap_find_mem _ _ _ hf
    have hT := strictTotal_coord_lt
    rw [change_station_coord_live s id newcoord st _ hf (sync_find_coord s h id st hst)] at hstep
    simp only [Option.some.injEq, Prod.mk.injEq] at hstep
    rw [← hstep.2]
    have hk : newcoord ∉ (map_erase Coord.lt s.station_ids_to_coords st.coord).map Prod.fst := by
      intro hm
      obtain ⟨e, he, hek⟩ := List.mem_map.1 hm
      obtain ⟨he1, he2⟩ := (mem_map_erase hT _ _ _).1 he
      obtain ⟨st', hst', hco⟩ := (h.coords_mem e.1 e.2).1 he1
      by_cases hid : e.2 = id
      · rw [hid] at hst'
        have := eq_of_mem_of_nodup_keys h.ids_nodup hst' hst
        exact he2 (by rw [← hco, this])
      · exact hfree _ hst' hid (hco.trans hek)
    have hP := map_insert_perm hT _ newcoord id hk
    refine ⟨?_, ?_, ?_, h.names_nodup, ?_⟩
    · show ((umap_modify s.stations_to_ids id
          (fun st => { st with coord := newcoord })).map Prod.fst).Nodup
      rw [keys_umap_modify]; exact h.ids_nodup
    · show ((map_insert Coord.lt _ newcoord id).1.map Prod.fst).Nodup
      rw [(hP.map Prod.fst).nodup_iff]
      exact List.nodup_cons.2 ⟨hk, nodup_keys_filter _ _ h.coords_nodup⟩
    · intro c i
      show (c, i) ∈ (map_insert Coord.lt _ newcoord id).1 ↔
        ∃ st', (i, st') ∈ umap_modify s.stations_to_ids id
          (fun st => { st with coord := newcoord }) ∧ st'.coord = c
      rw [hP.mem_iff, List.mem_cons, mem_map_erase hT, h.coords_mem]
      constructor
      · rintro (he | ⟨⟨st', hst', hco⟩, hne⟩)
        · obtain ⟨rfl, rfl⟩ := Prod.mk.inj he
          exact ⟨_, (mem_umap_modify _ _ _ _ _).2 ⟨st, hst, rfl⟩, by simp⟩
        · have hid : i ≠ id := by
            rintro rfl
            have := eq_of_mem_of_nodup_keys h.ids_nodup hst' hst
            exact hne (by rw [← hco, this])
          exact ⟨_, (mem_umap_modify _ _ _ _ _).2 ⟨st', hst', rfl⟩, by simp [hid, hco]⟩
      · rintro ⟨st', hst', hco⟩
        obtain ⟨st0, hst0, rfl⟩ := (mem_umap_modify _ _ _ _ _).1 hst'
        by_cases hid : i = id
        · left
          simp only [hid, if_true] at hco
          rw [hid, ← hco]
        · right
          simp only [hid, if_false] at hco
          refine ⟨⟨st0, hst0, hco⟩, ?_⟩
          intro hc
          have h1 : (st.coord, i) ∈ s.station_ids_to_coords :=
            (h.coords_mem _ _).2 ⟨st0, hst0, hco.trans hc⟩
          have h2 : (st.coord, id) ∈ s.station_ids_to_coords :=
            (h.coords_mem _ _).2 ⟨st, hst, rfl⟩
          exact hid (eq_of_mem_of_nodup_keys h.coords_nodup h1 h2)
    · intro n i
      show (n, i) ∈ s.station_ids_to_names ↔
        ∃ st', (i, st') ∈ umap_modify s.stations_to_ids id
          (fun st => { st with coord := newcoord }) ∧ st'.name = n
      rw [h.names_mem]
      constructor
      · rintro ⟨st', hst', hco⟩
        refine ⟨_, (mem_umap_modify _ _ _ _ _).2 ⟨st', hst', rfl⟩, ?_⟩
        by_cases hk : i = id <;> simp [hk, hco]
      · rintro ⟨st', hst', hco⟩
        obtain ⟨st0, hst0, rfl⟩ := (mem_umap_modify _ _ _ _ _).1 hst'
        refine ⟨st0, hst0, ?_⟩
        by_cases hk : i = id <;> simp [hk] at hco <;> exact hco

theorem sync_add_departure (s : Datastructures) (stationid : StationID) (trainid : TrainID)
    (time : Time) (h : StationsSync s) :
    StationsSync (add_departure s stationid trainid time).2 := by
  cases hf : umap_find s.stations_to_ids stationid with
  | none => simpa [add_departure, hf] using h
  | some st =>
    simp only [add_departure, hf]
    exact sync_modify s stationid _ (fun _ => rfl) (fun _ => rfl) h

theorem sync_remove_departure (s : Datastructures) (stationid : StationID)
    (trainid : TrainID) (time : Time) (h : StationsSync s) :
    StationsSync (remove_departure s stationid trainid time).2 := by
  cases hf : umap_find s.stations_to_ids stationid with
  | none => simpa [remove_departure, hf] using h
  | some st =>
    cases hd : set_find (pair_lt nat_lt str_lt) st.departures (time, trainid) with
    | none => simpa [remove_departure, hf, hd] using h
    | some d =>
      simp only [remove_departure, hf, hd]
      exact sync_modify s stationid _ (fun _ => rfl) (fun _ => rfl) h

theorem sync_add_station_to_region (s : Datastructures) (id : StationID)
    (parentid : RegionID) (h : StationsSync s) :
    StationsSync (add_station_to_region s id parentid).2 := by
  cases hf : umap_find s.stations_to_ids id with
  | none => simpa [add_station_to_region, hf] using h
  | some st =>
    cases hr : umap_find s.regions_to_ids parentid with
    | none => simpa [add_station_to_region, hf, hr] using h
    | some r =>
      by_cases hl : st.location = NO_REGION
      · simp only [add_station_to_region, hf, hr, hl, ne_eq, not_true_eq_false, if_false]
        exact sync_modify s id _ (fun _ => rfl) (fun _ => rfl) h
      · simpa [add_station_to_region, hf, hr, hl] using h

theorem sync_add_region (s : Datastructures) (id : RegionID) (name : Name)
    (coords : List Coord) (h : StationsSync s) : StationsSync (add_region s id name coords).2 :=
  sync_regions s _ h

theorem sync_add_subregion_to_region (s : Datastructures) (id parentid : RegionID)
    (h : StationsSync s) : StationsSync (add_subregion_to_region s id parentid).2 := by
  unfold add_subregion_to_region
  split
  · exact h
  · split
    · exact h
    · split
      · exact h
      · exact sync_regions s _ h

/-- Every run without coordinate collisions keeps the indices in sync. -/
theorem reach_sync (s : Datastructures) (h : Reach CollisionFree s) : StationsSync s := by
  induction h with
  | init => exact sync_empty
  | step s op t _ hok hstep ih =>
    cases op with
    | clear_all =>
      simp only [step, Option.some.injEq] at hstep
      rw [← hstep]; exact sync_empty
    | add_station id name xy =>
      simp only [step, Option.some.injEq] at hstep
      rw [← hstep]; exact sync_add_station s id name xy hok ih
    | change_station_coord id newcoord =>
      simp only [step, Option.map_eq_some'] at hstep
      obtain ⟨r, hr, rfl⟩ := hstep
      exact sync_change_station_coord s r.2 id newcoord r.1 hok ih hr
    | add_departure stationid trainid time =>
      simp only [step, Option.some.injEq] at hstep
      rw [← hstep]; exact sync_add_departure s _ _ _ ih
    | remove_departure stationid trainid time =>
      simp only [step, Option.some.injEq] at hstep
      rw [← hstep]; exact sync_remove_departure s _ _ _ ih
    | add_region id name coords =>
      simp only [step, Option.some.injEq] at hstep
      rw [← hstep]; exact sync_add_region s _ _ _ ih
    | add_subregion_to_region id parentid =>
      simp only [step, Option.some.injEq] at hstep
      rw [← hstep]; exact sync_add_subregion_to_region s _ _ ih
    | add_station_to_region id parentid =>
      simp only [step, Option.some.injEq] at hstep
      rw [← hstep]; exact sync_add_station_to_region s _ _ ih
    | remove_station id =>
      simp only [step, Option.some.injEq] at hstep
      rw [← hstep]; exact sync_remove_station s _ ih

theorem sync_coord_ids_nodup (s : Datastructures) (h : StationsSync s) :
    (s.station_ids_to_coords.map Prod.snd).Nodup := by
  refine List.Nodup.map_on ?_ (List.Nodup.of_map _ h.coords_nodup)
  rintro ⟨c1, i1⟩ h1 ⟨c2, i2⟩ h2 (e : i1 = i2)
  subst e
  obtain ⟨st1, hst1, hc1⟩ := (h.coords_mem _ _).1 h1
  obtain ⟨st2, hst2, hc2⟩ := (h.coords_mem _ _).1 h2
  have := eq_of_mem_of_nodup_keys h.ids_nodup hst1 hst2
  rw [← hc1, ← hc2, this]

theorem sync_coord_ids_perm (s : Datastructures) (h : StationsSync s) :
    (s.station_ids_to_coords.map Prod.snd).Perm (s.stations_to_ids.map Prod.fst) := by
  rw [List.perm_ext_iff_of_nodup (sync_coord_ids_nodup s h) h.ids_nodup]
  intro i
  simp only [List.mem_map, Prod.exists, exists_eq_right, exists_and_right]
  constructor
  · rintro ⟨c, hc⟩
    obtain ⟨st, hst, _⟩ := (h.coords_mem _ _).1 hc
    exact ⟨st, hst⟩
  · rintro ⟨st, hst⟩
    exact ⟨st.coord, (h.coords_mem _ _).2 ⟨st, hst, rfl⟩⟩

/-! ## The region hierarchy -/

theorem umap_find_umap_modify {K V : Type} [DecidableEq K] (m : List (K × V)) (k : K)
    (f : V → V) (i : K) :
    umap_find (umap_modify m k f) i = (umap_find m i).map (fun v => if i = k then f v else v) := by
  induction m with
  | nil => simp [umap_modify, umap_find]
  | cons e t ih =>
    obtain ⟨k', v⟩ := e
    simp only [umap_modify] at ih
    by_cases h1 : k' = k
    · subst h1
      by_cases h2 : k' = i
      · subst h2; simp [umap_modify, umap_find]
      · have h3 : ¬ i = k' := fun e => h2 e.symm
        simp [umap_modify, umap_find, h2, h3, ih]
    · by_cases h2 : k' = i
      · subst h2; simp [umap_modify, umap_find, h1]
      · simp [umap_modify, umap_find, h1, h2, ih]

theorem umap_find_umap_insert {K V : Type} [DecidableEq K] (m : List (K × V)) (k : K) (v : V)
    (i : K) :
    umap_find (umap_insert m k v).1 i =
      match umap_find m i with
      | some x => some x
      | none => if i = k then some v else none := by
  cases hk : umap_find m k with
  | some x =>
    simp only [umap_insert, hk, Option.isSome_some, if_true]
    cases hi : umap_find m i with
    | some y => rfl
    | none =>
      have : i ≠ k := by rintro rfl; rw [hk] at hi; exact Option.noConfusion hi
      simp [this]
  | none =>
    simp only [umap_insert, hk, Option.isSome_none, Bool.false_eq_true, if_false]
    cases hi : umap_find m i with
    | some y => simp [umap_find_append_old _ _ _ _ _ hi]
    | none =>
      by_cases hik : i = k
      · subst hik; simp [umap_find_append_new _ _ _ hi]
      · have hn : i ∉ (m ++ [(k, v)]).map Prod.fst := by
          have := (umap_find_eq_none m i).1 hi
          simp only [List.map_append, List.mem_append, List.map_cons, List.map_nil,
            List.mem_singleton]
          rintro (h | h)
          · exact this h
          · exact hik h
        simp [(umap_find_eq_none _ _).2 hn, hik]

theorem parentOf_congr (s t : Datastructures) (h : t.regions_to_ids = s.regions_to_ids) :
    ParentOf t = ParentOf s := by
  funext c p; simp only [ParentOf, h]

theorem anc_congr (s t : Datastructures) (h : t.regions_to_ids = s.regions_to_ids)
    (hs : ∀ r, ¬ Anc s r r) : ∀ r, ¬ Anc t r r := by
  intro r; simp only [Anc, parentOf_congr s t h]; exact hs r

theorem parentOf_add_region (s : Datastructures) (id : RegionID) (name : Name)
    (coords : List Coord) : ParentOf (add_region s id name coords).2 = ParentOf s := by
  funext c p
  simp only [ParentOf, add_region, umap_find_umap_insert, eq_iff_iff]
  cases hc : umap_find s.regions_to_ids c with
  | some x => simp
  | none => by_cases hi : c = id <;> simp [hi]

theorem add_subregion_to_region_cases (s : Datastructures) (id parentid : RegionID) :
    add_subregion_to_region s id parentid = (false, s) ∨
    ∃ sub, umap_find s.regions_to_ids id = some sub ∧ sub.parent = none ∧
      (umap_find s.regions_to_ids parentid).isSome = true ∧
      add_subregion_to_region s id parentid =
        (true, { s with
          regions_to_ids :=
            umap_modify
              (umap_modify s.regions_to_ids id (fun r => { r with parent := some parentid }))
              parentid (fun r => { r with subregions := r.subregions ++ [id] }) }) := by
  cases h1 : umap_find s.regions_to_ids id with
  | none => left; simp [add_subregion_to_region, h1]
  | some sub =>
    cases h2 : umap_find s.regions_to_ids parentid with
    | none => left; simp [add_subregion_to_region, h1, h2]
    | some par =>
      cases h3 : sub.parent with
      | some q => left; simp [add_subregion_to_region, h1, h2, h3]
      | none =>
        right
        exact ⟨sub, rfl, h3, rfl, by simp [add_subregion_to_region, h1, h2, h3]⟩

theorem parentOf_add_subregion (s : Datastructures) (id parentid : RegionID) (sub : Region)
    (h1 : umap_find s.regions_to_ids id = some sub) (h3 : sub.parent = none) (c p : RegionID) :
    ParentOf { s with
        regions_to_ids :=
          umap_modify
            (umap_modify s.regions_to_ids id (fun r => { r with parent := some parentid }))
            parentid (fun r => { r with subregions := r.subregions ++ [id] }) } c p ↔
      ParentOf s c p ∨ (c = id ∧ p = parentid) := by
  simp only [ParentOf, umap_find_umap_modify, Option.map_map, Option.map_eq_some',
    Function.comp]
  constructor
  · rintro ⟨region, ⟨r0, hr0, rfl⟩, hp⟩
    by_cases hc : c = id
    · subst hc
      right
      refine ⟨rfl, ?_⟩
      by_cases hcp : c = parentid <;> simp [hcp] at hp <;> exact hp.symm
    · left
      refine ⟨r0, hr0, ?_⟩
      by_cases hcp : c = parentid
      · subst hcp; simpa [hc] using hp
      · simpa [hc, hcp] using hp
  · rintro (⟨r0, hr0, hp⟩ | ⟨rfl, rfl⟩)
    · have hc : c ≠ id := by
        rintro rfl
        rw [h1] at hr0
        cases hr0
        rw [h3] at hp
        exact Option.noConfusion hp
      refine ⟨_, ⟨r0, hr0, rfl⟩, ?_⟩
      by_cases hcp : c = parentid
      · subst hcp; simp [hc, hp]
      · simp [hc, hcp, hp]
    · refine ⟨_, ⟨sub, h1, rfl⟩, ?_⟩
      by_cases hcp : c = p <;> simp [hcp]

/-- A new parent link from `id` to `parentid` creates no cycle when `parentid`
is neither `id` nor a descendant of `id`. -/
theorem acyclic_add_link (R R' : RegionID → RegionID → Prop) (id parentid : RegionID)
    (hR' : ∀ c p, R' c p ↔ R c p ∨ (c = id ∧ p = parentid))
    (hne : parentid ≠ id) (hnd : ¬ Relation.TransGen R parentid id)
    (hac : ∀ r, ¬ Relation.TransGen R r r) : ∀ r, ¬ Relation.TransGen R' r r := by
  have hrt : ¬ Relation.ReflTransGen R parentid id := by
    intro h
    rcases Relation.reflTransGen_iff_eq_or_transGen.1 h with h | h
    · exact hne h.symm
    · exact hnd h
  have key : ∀ a b, Relation.TransGen R' a b →
      Relation.TransGen R a b ∨
        (Relation.ReflTransGen R a id ∧ Relation.ReflTransGen R parentid b) := by
    intro a b hab
    induction hab with
    | single h =>
      rcases (hR' _ _).1 h with h | ⟨rfl, rfl⟩
      · exact Or.inl (Relation.TransGen.single h)
      · exact Or.inr ⟨Relation.ReflTransGen.refl, Relation.ReflTransGen.refl⟩
    | tail _ h ih =>
      rcases (hR' _ _).1 h with h | ⟨rfl, rfl⟩
      · rcases ih with ih | ⟨ih1, ih2⟩
        · exact Or.inl (Relation.TransGen.tail ih h)
        · exact Or.inr ⟨ih1, Relation.ReflTransGen.tail ih2 h⟩
      · rcases ih with ih | ⟨_, ih2⟩
        · exact Or.inr ⟨ih.to_reflTransGen, Relation.ReflTransGen.refl⟩
        · exact absurd ih2 hrt
  intro r hr
  rcases key r r hr with h | ⟨h1, h2⟩
  · exact hac r h
  · exact hrt (h2.trans h1)

theorem acyclic_add_subregion (s : Datastructures) (id parentid : RegionID)
    (hok : parentid ≠ id ∧ ¬ Anc s parentid id) (hac : ∀ r, ¬ Anc s r r) :
    ∀ r, ¬ Anc (add_subregion_to_region s id parentid).2 r r := by
  rcases add_subregion_to_region_cases s id parentid with h | ⟨sub, h1, h3, _, h⟩
  · rw [h]; exact hac
  · rw [h]
    exact acyclic_add_link (ParentOf s) _ id parentid
      (parentOf_add_subregion s id parentid sub h1 h3) hok.1 hok.2 hac

theorem add_station_regions (s : Datastructures) (id : StationID) (name : Name) (xy : Coord) :
    (add_station s id name xy).2.regions_to_ids = s.regions_to_ids := by
  cases hf : umap_find s.stations_to_ids id with
  | some st => simp [add_station, hf]
  | none => rw [add_station_new s id name xy hf]

theorem change_station_coord_regions (s : Datastructures) (id : StationID) (newcoord : Coord)
    (r : Bool × Datastructures) (h : change_station_coord s id newcoord = some r) :
    r.2.regions_to_ids = s.regions_to_ids := by
  cases hf : umap_find s.stations_to_ids id with
  | none =>
    simp only [change_station_coord, hf, Option.some.injEq] at h
    rw [← h]
  | some st =>
    cases hm : map_find Coord.lt s.station_ids_to_coords st.coord with
    | none => simp [change_station_coord, hf, map_extract, hm] at h
    | some e =>
      rw [change_station_coord_live s id newcoord st e hf hm, Option.some.injEq] at h
      rw [← h]

theorem add_departure_regions (s : Datastructures) (stationid : StationID)
    (trainid : TrainID) (time : Time) :
    (add_departure s stationid trainid time).2.regions_to_ids = s.regions_to_ids := by
  unfold add_departure; split <;> rfl

theorem remove_departure_regions (s : Datastructures) (stationid : StationID)
    (trainid : TrainID) (time : Time) :
    (remove_departure s stationid trainid time).2.regions_to_ids = s.regions_to_ids := by
  unfold remove_departure; split
  · rfl
  · split <;> rfl

theorem add_station_to_region_regions (s : Datastructures) (id : StationID)
    (parentid : RegionID) :
    (add_station_to_region s id parentid).2.regions_to_ids = s.regions_to_ids := by
  unfold add_station_to_region; split
  · rfl
  · split
    · rfl
    · split <;> rfl

theorem remove_station_regions (s : Datastructures) (id : StationID) :
    (remove_station s id).2.regions_to_ids = s.regions_to_ids := by
  unfold remove_station; split <;> rfl

/-- Every run that never attaches a region below itself keeps the parent
relation free of cycles. -/
theorem reach_acyclic (s : Datastructures) (h : Reach NoCycleOp s) : ∀ r, ¬ Anc s r r := by
  induction h with
  | init =>
    intro r hr
    obtain ⟨b, ⟨region, hreg, _⟩, _⟩ := Relation.TransGen.head'_iff.1 hr
    simp [Datastructures.empty, umap_find] at hreg
  | step s op t _ hok hstep ih =>
    cases op with
    | clear_all =>
      simp only [step, Option.some.injEq] at hstep
      subst hstep
      intro r hr
      obtain ⟨b, ⟨region, hreg, _⟩, _⟩ := Relation.TransGen.head'_iff.1 hr
      simp [clear_all, umap_find] at hreg
    | add_station id name xy =>
      simp only [step, Option.some.injEq] at hstep
      subst hstep; exact anc_congr s _ (add_station_regions s _ _ _) ih
    | change_station_coord id newcoord =>
      simp only [step, Option.map_eq_some'] at hstep
      obtain ⟨r, hr, rfl⟩ := hstep
      exact anc_congr s _ (change_station_coord_regions s _ _ r hr) ih
    | add_departure stationid trainid time =>
      simp only [step, Option.some.injEq] at hstep
      subst hstep; exact anc_congr s _ (add_departure_regions s _ _ _) ih
    | remove_departure stationid trainid time =>
      simp only [step, Option.some.injEq] at hstep
      subst hstep; exact anc_congr s _ (remove_departure_regions s _ _ _) ih
    | add_region id name coords =>
      simp only [step, Option.some.injEq] at hstep
      subst hstep
      intro r; simp only [Anc, parentOf_add_region]; exact ih r
    | add_subregion_to_region id parentid =>
      simp only [step, Option.some.injEq] at hstep
      subst hstep; exact acyclic_add_subregion s id parentid hok ih
    | add_station_to_region id parentid =>
      simp only [step, Option.some.injEq] at hstep
      subst hstep; exact anc_congr s _ (add_station_to_region_regions s _ _) ih
    | remove_station id =>
      simp only [step, Option.some.injEq] at hstep
      subst hstep; exact anc_congr s _ (remove_station_regions s _) ih

theorem parentOf_functional (s : Datastructures) (c p q : RegionID) (hp : ParentOf s c p)
    (hq : ParentOf s c q) : p = q := by
  obtain ⟨r1, h1, h1'⟩ := hp
  obtain ⟨r2, h2, h2'⟩ := hq
  rw [h1] at h2; cases h2
  rw [h1'] at h2'; exact Option.some.inj h2'

/-- C5 (counterexample): a region is accepted as its own subregion, after
which it is its own parent. -/
theorem region_own_parent :
    Reachable self_parent ∧ (add_subregion_to_region (add_region {} 1 "R" []).2 1 1).1 = true ∧
    ¬ Forest self_parent := by
  refine ⟨?_, by decide, ?_⟩
  · exact Reach.step _ (.add_subregion_to_region 1 1) _
      (Reach.step _ (.add_region 1 "R" []) _ Reach.init trivial rfl) trivial rfl
  · intro h
    exact h.2 1 (Relation.TransGen.single
      ⟨{ id := 1, name := "R", limits := [], parent := some 1, subregions := [1] },
        by decide, rfl⟩)

/-- C5 (amended): in every state each region has at most one parent; and in
every state reached from the empty registry by public operations in which
add_subregion_to_region(child, parent) is never called with a parent that is
the child itself or a descendant of the child, the parent relation is a
forest: no region is its own ancestor. -/
theorem parent_relation_forest (s : Datastructures) :
    (∀ c p q, ParentOf s c p → ParentOf s c q → p = q) ∧
    (Reach NoCycleOp s → Forest s) :=
  ⟨parentOf_functional s, fun h => ⟨parentOf_functional s, reach_acyclic s h⟩⟩

theorem reach_one_in_two : Reach NoCycleOp one_in_two := by
  refine Reach.step _ (.add_subregion_to_region 1 2) _
    (Reach.step _ (.add_region 2 "R2" []) _
      (Reach.step _ (.add_region 1 "R1" []) _ Reach.init trivial rfl) trivial rfl)
    ⟨by decide, ?_⟩ rfl
  intro h
  obtain ⟨b, ⟨region, hr, hp⟩, _⟩ := Relation.TransGen.head'_iff.1 h
  simp [add_region, umap_insert, umap_find] at hr
  subst hr
  simp at hp

theorem parent_relation_forest_witness :
    Reach NoCycleOp one_in_two ∧
    (∀ c p q, ParentOf one_in_two c p → ParentOf one_in_two c q → p = q) ∧
    Forest one_in_two :=
  ⟨reach_one_in_two, (parent_relation_forest one_in_two).1,
    (parent_relation_forest one_in_two).2 reach_one_in_two⟩

/-! ## Assigning a station to a region -/

theorem umap_find_umap_erase_ne {K V : Type} [DecidableEq K] (m : List (K × V)) (k i : K)
    (h : k ≠ i) : umap_find (umap_erase m k) i = umap_find m i := by
  induction m with
  | nil => rfl
  | cons e t ih =>
    simp only [umap_erase] at ih
    by_cases he : e.1 = k
    · have hi : e.1 ≠ i := he ▸ h
      simp [umap_erase, List.filter_cons, he, umap_find, h, ih]
    · by_cases hi : e.1 = i
      · have hik : ¬ i = k := fun e' => he (hi.trans e')
        simp [umap_erase, List.filter_cons, he, umap_find, hi, hik]
      · simp [umap_erase, List.filter_cons, he, umap_find, hi, ih]

theorem add_station_to_region_assigned (t : Datastructures) (id : StationID)
    (r1 r2 : RegionID) (hr : r1 ≠ NO_REGION) (h : HasLocation t id r1) :
    add_station_to_region t id r2 = (false, t) := by
  obtain ⟨st, hst, hl⟩ := h
  cases hreg : umap_find t.regions_to_ids r2 with
  | none => simp [add_station_to_region, hst, hreg]
  | some r => simp [add_station_to_region, hst, hreg, hl, hr]

theorem hasLocation_modify (s : Datastructures) (id id' : StationID) (r : RegionID)
    (f : Station → Station) (hf : ∀ st, id' = id → st.location = r → (f st).location = r)
    (h : HasLocation s id r) :
    HasLocation { s with stations_to_ids := umap_modify s.stations_to_ids id' f } id r := by
  obtain ⟨st, hst, hl⟩ := h
  refine ⟨if id = id' then f st else st, by simp [umap_find_umap_modify, hst], ?_⟩
  by_cases hk : id = id'
  · simp [hk, hf st hk.symm hl]
  · simp [hk, hl]

theorem hasLocation_step (s t : Datastructures) (id : StationID) (r : RegionID) (op : Op)
    (hr : r ≠ NO_REGION) (h : HasLocation s id r) (h1 : op ≠ .clear_all)
    (h2 : op ≠ .remove_station id) (hstep : step s op = some t) : HasLocation t id r := by
  obtain ⟨st, hst, hl⟩ := h
  cases op with
  | clear_all => exact absurd rfl h1
  | add_station id' name xy =>
    simp only [step, Option.some.injEq] at hstep
    subst hstep
    cases hf : umap_find s.stations_to_ids id' with
    | some st' => simpa [add_station, hf] using ⟨st, hst, hl⟩
    | none =>
      rw [add_station_new s id' name xy hf]
      exact ⟨st, umap_find_append_old _ _ _ _ _ hst, hl⟩
  | change_station_coord id' newcoord =>
    simp only [step, Option.map_eq_some'] at hstep
    obtain ⟨res, hres, rfl⟩ := hstep
    cases hf : umap_find s.stations_to_ids id' with
    | none =>
      simp only [change_station_coord, hf, Option.some.injEq] at hres
      rw [← hres]; exact ⟨st, hst, hl⟩
    | some st' =>
      cases hm : map_find Coord.lt s.station_ids_to_coords st'.coord with
      | none => simp [change_station_coord, hf, map_extract, hm] at hres
      | some e =>
        rw [change_station_coord_live s id' newcoord st' e hf hm, Option.some.injEq] at hres
        rw [← hres]
        exact hasLocation_modify s id id' r _ (fun _ _ h => h) ⟨st, hst, hl⟩
  | add_departure stationid trainid time =>
    simp only [step, Option.some.injEq] at hstep
    subst hstep
    cases hf : umap_find s.stations_to_ids stationid with
    | none => simpa [add_departure, hf] using ⟨st, hst, hl⟩
    | some st' =>
      simp only [add_departure, hf]
      exact hasLocation_modify s id stationid r _ (fun _ _ h => h) ⟨st, hst, hl⟩
  | remove_departure stationid trainid time =>
    simp only [step, Option.some.injEq] at hstep
    subst hstep
    cases hf : umap_find s.stations_to_ids stationid with
    | none => simpa [remove_departure, hf] using ⟨st, hst, hl⟩
    | some st' =>
      cases hd : set_find (pair_lt nat_lt str_lt) st'.departures (time, trainid) with
      | none => simpa [remove_departure, hf, hd] using ⟨st, hst, hl⟩
      | some d =>
        simp only [remove_departure, hf, hd]
        exact hasLocation_modify s id stationid r _ (fun _ _ h => h) ⟨st, hst, hl⟩
  | add_region id' name coords =>
    simp only [step, Option.some.injEq] at hstep
    subst hstep; exact ⟨st, hst, hl⟩
  | add_subregion_to_region id' parentid =>
    simp only [step, Option.some.injEq] at hstep
    subst hstep
    rcases add_subregion_to_region_cases s id' parentid with h | ⟨_, _, _, _, h⟩
    · rw [h]; exact ⟨st, hst, hl⟩
    · rw [h]; exact ⟨st, hst, hl⟩
  | add_station_to_region id' parentid =>
    simp only [step, Option.some.injEq] at hstep
    subst hstep
    cases hf : umap_find s.stations_to_ids id' with
    | none => simpa [add_station_to_region, hf] using ⟨st, hst, hl⟩
    | some st' =>
      cases hreg : umap_find s.regions_to_ids parentid with
      | none => simpa [add_station_to_region, hf, hreg] using ⟨st, hst, hl⟩
      | some reg =>
        by_cases hloc : st'.location = NO_REGION
        · simp only [add_station_to_region, hf, hreg, hloc, ne_eq, not_true_eq_false, if_false]
          refine hasLocation_modify s id id' r _ ?_ ⟨st, hst, hl⟩
          intro st0 hid _
          subst hid
          rw [hst] at hf; cases hf
          exact absurd (hl.symm.trans hloc) hr
        · simpa [add_station_to_region, hf, hreg, hloc] using ⟨st, hst, hl⟩
  | remove_station id' =>
    simp only [step, Option.some.injEq] at hstep
    subst hstep
    have hne : id' ≠ id := fun e => h2 (by rw [e])
    cases hf : umap_find s.stations_to_ids id' with
    | none => simpa [remove_station, hf] using ⟨st, hst, hl⟩
    | some st' =>
      simp only [remove_station, hf]
      exact ⟨st, (umap_find_umap_erase_ne _ _ _ hne).trans hst, hl⟩

theorem hasLocation_run (ops : List Op) (s t : Datastructures) (id : StationID)
    (r : RegionID) (hr : r ≠ NO_REGION) (h : HasLocation s id r)
    (hops : ∀ op ∈ ops, op ≠ .clear_all ∧ op ≠ .remove_station id)
    (hrun : run s ops = some t) : HasLocation t id r := by
  induction ops generalizing s with
  | nil =>
    simp only [run, Option.some.injEq] at hrun
    exact hrun ▸ h
  | cons op ops ih =>
    simp only [run, Option.bind_eq_some] at hrun
    obtain ⟨u, hu, hrest⟩ := hrun
    have hop := hops op (List.mem_cons_self _ _)
    exact ih u (hasLocation_step s u id r op hr h hop.1 hop.2 hu)
      (fun o ho => hops o (List.mem_cons_of_mem _ ho)) hrest

theorem add_station_to_region_true (s : Datastructures) (id : StationID) (r1 : RegionID)
    (h : (add_station_to_region s id r1).1 = true) :
    HasLocation (add_station_to_region s id r1).2 id r1 := by
  cases hf : umap_find s.stations_to_ids id with
  | none => simp [add_station_to_region, hf] at h
  | some st =>
    cases hreg : umap_find s.regions_to_ids r1 with
    | none => simp [add_station_to_region, hf, hreg] at h
    | some reg =>
      by_cases hloc : st.location = NO_REGION
      · simp only [add_station_to_region, hf, hreg, hloc, ne_eq, not_true_eq_false, if_false]
        exact ⟨{ st with location := r1 }, by simp [umap_find_umap_modify, hf], rfl⟩
      · simp [add_station_to_region, hf, hreg, hloc] at h

/-! ## Ancestor chains -/

theorem parent_walk_none (s : Datastructures) (fuel : Nat) : parent_walk s fuel none = some [] := by
  cases fuel <;> rfl

theorem parent_walk_succ (s : Datastructures) (fuel : Nat) (x : RegionID) (region : Region)
    (h : umap_find s.regions_to_ids x = some region) :
    parent_walk s (fuel + 1) (some x) =
      (parent_walk s fuel region.parent).map (fun l => region.id :: l) := by
  simp only [parent_walk, h]

theorem anc_iff_of_parent (s : Datastructures) (c p a : RegionID) (h : ParentOf s c p) :
    Anc s c a ↔ a = p ∨ Anc s p a := by
  constructor
  · intro hca
    obtain ⟨b, hb, hba⟩ := Relation.TransGen.head'_iff.1 hca
    have := parentOf_functional s c b p hb h
    subst this
    rcases Relation.reflTransGen_iff_eq_or_transGen.1 hba with e | e
    · exact Or.inl e
    · exact Or.inr e
  · rintro (rfl | hpa)
    · exact Relation.TransGen.single h
    · exact Relation.TransGen.head h hpa

theorem not_anc_of_no_parent (s : Datastructures) (c a : RegionID)
    (h : ∀ p, ¬ ParentOf s c p) : ¬ Anc s c a := by
  intro hca
  obtain ⟨b, hb, _⟩ := Relation.TransGen.head'_iff.1 hca
  exact h b hb

/-- A finished ancestor walk from `x` lists `x` and then exactly the proper
ancestors of `x`, each followed only by its own ancestors. -/
theorem parent_walk_spec (s : Datastructures) (hwf : RegionsWF s) :
    ∀ (fuel : Nat) (x : RegionID) (l : List RegionID),
      parent_walk s fuel (some x) = some l →
      ∃ l', l = x :: l' ∧ (∀ a, a ∈ l' ↔ Anc s x a) ∧ l.Pairwise (fun a b => Anc s a b) := by
  intro fuel
  induction fuel with
  | zero => intro x l h; simp [parent_walk] at h
  | succ n ih =>
    intro x l h
    cases hx : umap_find s.regions_to_ids x with
    | none => simp [parent_walk, hx] at h
    | some region =>
      rw [parent_walk_succ s n x region hx, Option.map_eq_some'] at h
      obtain ⟨l', hl', rfl⟩ := h
      have hid : region.id = x := hwf.1 x region hx
      cases hp : region.parent with
      | none =>
        rw [hp, parent_walk_none] at hl'
        cases hl'
        have hno : ∀ p, ¬ ParentOf s x p := by
          rintro p ⟨r', hr', hp'⟩
          rw [hx] at hr'; cases hr'
          rw [hp] at hp'; exact Option.noConfusion hp'
        refine ⟨[], by rw [hid], ?_, by simp⟩
        intro a
        simp only [List.not_mem_nil, false_iff]
        exact not_anc_of_no_parent s x a hno
      | some p =>
        rw [hp] at hl'
        obtain ⟨l'', rfl, hmem, hpw⟩ := ih p l' hl'
        have hpar : ParentOf s x p := ⟨region, hx, hp⟩
        have hall : ∀ a, a ∈ p :: l'' ↔ Anc s x a := by
          intro a
          rw [anc_iff_of_parent s x p a hpar, List.mem_cons, hmem]
        refine ⟨p :: l'', by rw [hid], hall, ?_⟩
        rw [hid]
        exact List.pairwise_cons.2 ⟨fun a ha => (hall a).1 ha, hpw⟩

theorem parent_walk_out_of_fuel (s : Datastructures) (hwf : RegionsWF s) :
    ∀ (fuel : Nat) (x : RegionID), (umap_find s.regions_to_ids x).isSome = true →
      parent_walk s fuel (some x) = none →
      ∃ l, l.length = fuel ∧ List.Chain (ParentOf s) x l ∧
        ∀ y ∈ l, y ∈ s.regions_to_ids.map Prod.fst := by
  intro fuel
  induction fuel with
  | zero => intro x _ _; exact ⟨[], rfl, List.Chain.nil, by simp⟩
  | succ n ih =>
    intro x hx h
    obtain ⟨region, hreg⟩ := Option.isSome_iff_exists.1 hx
    rw [parent_walk_succ s n x region hreg, Option.map_eq_none'] at h
    cases hp : region.parent with
    | none => rw [hp, parent_walk_none] at h; exact Option.noConfusion h
    | some p =>
      rw [hp] at h
      have hpk : (umap_find s.regions_to_ids p).isSome = true := hwf.2 x region p hreg hp
      obtain ⟨l, hlen, hch, hsub⟩ := ih p hpk h
      refine ⟨p :: l, by simp [hlen], List.Chain.cons ⟨region, hreg, hp⟩ hch, ?_⟩
      intro y hy
      rcases List.mem_cons.1 hy with rfl | hy
      · by_contra hcon
        rw [(umap_find_eq_none _ _).2 hcon] at hpk
        exact Bool.noConfusion hpk
      · exact hsub y hy

/-- In a forest the ancestor walk ends within as many rounds as there are
regions. -/
theorem parent_walk_total (s : Datastructures) (hwf : RegionsWF s)
    (hac : ∀ r, ¬ Anc s r r) (fuel : Nat) (x : RegionID)
    (hx : (umap_find s.regions_to_ids x).isSome = true)
    (hfuel : s.regions_to_ids.length ≤ fuel) :
    ∃ l, parent_walk s fuel (some x) = some l := by
  cases h : parent_walk s fuel (some x) with
  | some l => exact ⟨l, rfl⟩
  | none =>
    exfalso
    obtain ⟨l, hlen, hch, hsub⟩ := parent_walk_out_of_fuel s hwf fuel x hx h
    have hxk : x ∈ s.regions_to_ids.map Prod.fst := by
      by_contra hcon
      rw [(umap_find_eq_none _ _).2 hcon] at hx
      exact Bool.noConfusion hx
    have hch' : List.Chain' (Relation.TransGen (ParentOf s)) (x :: l) :=
      List.Chain'.imp (fun _ _ h => Relation.TransGen.single h) (show List.Chain' _ (x :: l) from hch)
    have hpw : (x :: l).Pairwise (Relation.TransGen (ParentOf s)) :=
      List.chain'_iff_pairwise.1 hch'
    have hnd : (x :: l).Nodup := by
      refine List.Pairwise.imp ?_ hpw
      intro a b hab e
      rw [← e] at hab
      exact hac a hab
    have hss : (x :: l) ⊆ s.regions_to_ids.map Prod.fst := by
      intro y hy
      rcases List.mem_cons.1 hy with rfl | hy
      · exact hxk
      · exact hsub y hy
    have := (List.subperm_of_subset hnd hss).length_le
    simp only [List.length_cons, List.length_map, hlen] at this
    omega

theorem chain_of_parent (s : Datastructures) (hwf : RegionsWF s) (hac : ∀ r, ¬ Anc s r r)
    (fuel : Nat) (c p : RegionID) (h : ParentOf s c p)
    (hfuel : s.regions_to_ids.length ≤ fuel) :
    pointee_id s p = some p ∧
    ∃ l, all_parents_of_region fuel s p = some l ∧ (∀ a, a ∈ l ↔ Anc s c a) ∧
      l.Pairwise (fun a b => Anc s a b) := by
  obtain ⟨region, hreg, hpar⟩ := h
  have hpk : (umap_find s.regions_to_ids p).isSome = true := hwf.2 c region p hreg hpar
  obtain ⟨preg, hpreg⟩ := Option.isSome_iff_exists.1 hpk
  have hpid : preg.id = p := hwf.1 p preg hpreg
  refine ⟨by simp [pointee_id, hpreg, hpid], ?_⟩
  obtain ⟨l, hl⟩ := parent_walk_total s hwf hac fuel p hpk hfuel
  obtain ⟨l', rfl, hmem, hpw⟩ := parent_walk_spec s hwf fuel p l hl
  refine ⟨p :: l', by simp [all_parents_of_region, hpreg, hl], ?_, hpw⟩
  intro a
  rw [anc_iff_of_parent s c p a ⟨region, hreg, hpar⟩, List.mem_cons, hmem]

theorem find_first_of_none (l1 l2 : List RegionID) (h : find_first_of l1 l2 = none) :
    ∀ a ∈ l1, a ∉ l2 := by
  intro a ha
  have := List.find?_eq_none.1 h a ha
  simpa using this

theorem find_first_of_some (l1 l2 : List RegionID) (r : RegionID)
    (h : find_first_of l1 l2 = some r) :
    r ∈ l2 ∧ ∃ as bs, l1 = as ++ r :: bs ∧ ∀ a ∈ as, a ∉ l2 := by
  obtain ⟨hr, as, bs, hl, has⟩ := List.find?_eq_some.1 h
  refine ⟨by simpa using hr, as, bs, hl, ?_⟩
  intro a ha
  simpa using has a ha

/-- C9: in a forest of well-formed region records, for two regions that both
have a parent, common_parent_of_regions returns a result as soon as the walk
is given as many rounds as there are regions; when the two regions have a
common proper ancestor the result is one, and every other common proper
ancestor is an ancestor of the result; when they have none the result is
`NO_REGION`. -/
theorem common_parent_is_nearest (s : Datastructures) (hwf : RegionsWF s) (hf : Forest s)
    (id1 id2 p1 p2 : RegionID) (h1 : ParentOf s id1 p1) (h2 : ParentOf s id2 p2)
    (fuel : Nat) (hfuel : s.regions_to_ids.length ≤ fuel) :
    ∃ r, common_parent_of_regions fuel s id1 id2 = some r ∧
      ((∃ a, Anc s id1 a ∧ Anc s id2 a) →
        Anc s id1 r ∧ Anc s id2 r ∧ ∀ a, Anc s id1 a → Anc s id2 a → a ≠ r → Anc s r a) ∧
      ((¬ ∃ a, Anc s id1 a ∧ Anc s id2 a) → r = NO_REGION) := by
  obtain ⟨hpt1, l1, hl1, hm1, hpw1⟩ := chain_of_parent s hwf hf.2 fuel id1 p1 h1 hfuel
  obtain ⟨hpt2, l2, hl2, hm2, _⟩ := chain_of_parent s hwf hf.2 fuel id2 p2 h2 hfuel
  obtain ⟨reg1, hr1, hp1⟩ := h1
  obtain ⟨reg2, hr2, hp2⟩ := h2
  cases hff : find_first_of l1 l2 with
  | none =>
    refine ⟨NO_REGION, ?_, ?_, fun _ => rfl⟩
    · simp only [common_parent_of_regions, hr1, hr2, hp1, hp2, hpt1, hpt2, hl1, hl2, hff]
    · rintro ⟨a, ha1, ha2⟩
      exact absurd ((hm2 a).2 ha2) (find_first_of_none l1 l2 hff a ((hm1 a).2 ha1))
  | some r =>
    obtain ⟨hr2', as, bs, hsplit, has⟩ := find_first_of_some l1 l2 r hff
    have hr1' : r ∈ l1 := by rw [hsplit]; simp
    refine ⟨r, ?_, ?_, ?_⟩
    · simp only [common_parent_of_regions, hr1, hr2, hp1, hp2, hpt1, hpt2, hl1, hl2, hff]
    · intro _
      refine ⟨(hm1 r).1 hr1', (hm2 r).1 hr2', ?_⟩
      intro a ha1 ha2 hne
      have hal1 : a ∈ l1 := (hm1 a).2 ha1
      rw [hsplit] at hal1 hpw1
      rcases List.mem_append.1 hal1 with hin | hin
      · exact absurd ((hm2 a).2 ha2) (has a hin)
      · rcases List.mem_cons.1 hin with e | hin
        · exact absurd e hne
        · exact (List.pairwise_cons.1 (List.pairwise_append.1 hpw1).2.1).1 a hin
    · intro hno
      exact absurd ⟨r, (hm1 r).1 hr1', (hm2 r).1 hr2'⟩ hno

/-! ## A station is assigned to a region at most once -/

theorem known_step (s t : Datastructures) (r : RegionID) (op : Op)
    (h : (umap_find s.regions_to_ids r).isSome = true) (h1 : op ≠ .clear_all)
    (hstep : step s op = some t) : (umap_find t.regions_to_ids r).isSome = true := by
  cases op with
  | clear_all => exact absurd rfl h1
  | add_station id name xy =>
    simp only [step, Option.some.injEq] at hstep
    subst hstep; rw [add_station_regions]; exact h
  | change_station_coord id newcoord =>
    simp only [step, Option.map_eq_some'] at hstep
    obtain ⟨res, hres, rfl⟩ := hstep
    rw [change_station_coord_regions s _ _ res hres]; exact h
  | add_departure stationid trainid time =>
    simp only [step, Option.some.injEq] at hstep
    subst hstep; rw [add_departure_regions]; exact h
  | remove_departure stationid trainid time =>
    simp only [step, Option.some.injEq] at hstep
    subst hstep; rw [remove_departure_regions]; exact h
  | add_region id name coords =>
    simp only [step, Option.some.injEq] at hstep
    subst hstep
    obtain ⟨x, hx⟩ := Option.isSome_iff_exists.1 h
    simp [add_region, umap_find_umap_insert, hx]
  | add_subregion_to_region id parentid =>
    simp only [step, Option.some.injEq] at hstep
    subst hstep
    rcases add_subregion_to_region_cases s id parentid with e | ⟨_, _, _, _, e⟩
    · rw [e]; exact h
    · rw [e]; simp [umap_find_umap_modify, h]
  | add_station_to_region id parentid =>
    simp only [step, Option.some.injEq] at hstep
    subst hstep; rw [add_station_to_region_regions]; exact h
  | remove_station id =>
    simp only [step, Option.some.injEq] at hstep
    subst hstep; rw [remove_station_regions]; exact h

theorem known_run (ops : List Op) (s t : Datastructures) (r : RegionID)
    (h : (umap_find s.regions_to_ids r).isSome = true)
    (hops : ∀ op ∈ ops, op ≠ .clear_all) (hrun : run s ops = some t) :
    (umap_find t.regions_to_ids r).isSome = true := by
  induction ops generalizing s with
  | nil =>
    simp only [run, Option.some.injEq] at hrun
    exact hrun ▸ h
  | cons op ops ih =>
    simp only [run, Option.bind_eq_some] at hrun
    obtain ⟨u, hu, hrest⟩ := hrun
    exact ih u (known_step s u r op h (hops op (List.mem_cons_self _ _)) hu)
      (fun o ho => hops o (List.mem_cons_of_mem _ ho)) hrest

theorem add_station_to_region_known (s : Datastructures) (id : StationID) (r1 : RegionID)
    (h : (add_station_to_region s id r1).1 = true) :
    (umap_find (add_station_to_region s id r1).2.regions_to_ids r1).isSome = true := by
  rw [add_station_to_region_regions]
  cases hf : umap_find s.stations_to_ids id with
  | none => simp [add_station_to_region, hf] at h
  | some st =>
    cases hreg : umap_find s.regions_to_ids r1 with
    | none => simp [add_station_to_region, hf, hreg] at h
    | some reg => rfl

theorem station_in_regions_assigned (t : Datastructures) (id : StationID) (r1 : RegionID)
    (hr : r1 ≠ NO_REGION) (hl : HasLocation t id r1)
    (hk : (umap_find t.regions_to_ids r1).isSome = true) (hwf : RegionsWF t) (hf : Forest t)
    (fuel : Nat) (hfuel : t.regions_to_ids.length ≤ fuel) :
    ∃ l, station_in_regions fuel t id = some (r1 :: l) := by
  obtain ⟨st, hst, hloc⟩ := hl
  obtain ⟨reg, hreg⟩ := Option.isSome_iff_exists.1 hk
  obtain ⟨l, hl⟩ := parent_walk_total t hwf hf.2 fuel r1 hk hfuel
  obtain ⟨l', rfl, _, _⟩ := parent_walk_spec t hwf fuel r1 l hl
  exact ⟨l', by simp [station_in_regions, hst, hloc, hr, all_parents_of_region, hreg, hl]⟩

/-- C10 (counterexample): a region is stored under the id `NO_REGION`; the
station is assigned to it with result true, and a later assignment of the same
station to region 7 also returns true. -/
theorem add_station_to_region_twice :
    (add_station_to_region sentinel_region "s" NO_REGION).1 = true ∧
    (add_station_to_region (add_station_to_region sentinel_region "s" NO_REGION).2 "s" 7).1 =
      true := by
  constructor <;> decide

/-- C10 (amended): once add_station_to_region(s, r1) has returned true for a
region id r1 other than the sentinel `NO_REGION`, then after any further
public operations that do not remove station s (remove_station(s), clear_all),
the station is still assigned to r1, add_station_to_region(s, r2) returns
false for every r2 and leaves the state unchanged, and station_in_regions(s)
starts with r1 whenever the region records form a forest. -/
theorem add_station_to_region_once (s t : Datastructures) (id : StationID)
    (r1 r2 : RegionID) (ops : List Op) (hr : r1 ≠ NO_REGION)
    (h : (add_station_to_region s id r1).1 = true)
    (hops : ∀ op ∈ ops, op ≠ .clear_all ∧ op ≠ .remove_station id)
    (hrun : run (add_station_to_region s id r1).2 ops = some t) :
    HasLocation t id r1 ∧ add_station_to_region t id r2 = (false, t) ∧
    (RegionsWF t → Forest t → ∀ fuel, t.regions_to_ids.length ≤ fuel →
      ∃ l, station_in_regions fuel t id = some (r1 :: l)) := by
  have hl := hasLocation_run ops _ t id r1 hr (add_station_to_region_true s id r1 h) hops hrun
  have hk := known_run ops _ t r1 (add_station_to_region_known s id r1 h)
    (fun op hop => (hops op hop).1) hrun
  exact ⟨hl, add_station_to_region_assigned t id r1 r2 hr hl,
    fun hwf hf fuel hfuel => station_in_regions_assigned t id r1 hr hl hk hwf hf fuel hfuel⟩

/-! ## Well-formed region records -/

theorem regionsWF_congr (s t : Datastructures) (h : t.regions_to_ids = s.regions_to_ids)
    (hs : RegionsWF s) : RegionsWF t := by
  unfold RegionsWF at hs ⊢
  rw [h]; exact hs

theorem regionsWF_add_region (s : Datastructures) (id : RegionID) (name : Name)
    (coords : List Coord) (hs : RegionsWF s) : RegionsWF (add_region s id name coords).2 := by
  have hfind : ∀ k region, umap_find (add_region s id name coords).2.regions_to_ids k =
      some region → umap_find s.regions_to_ids k = some region ∨
        (k = id ∧ region = { id := id, name := name, limits := coords }) := by
    intro k region h
    simp only [add_region, umap_find_umap_insert] at h
    cases hk : umap_find s.regions_to_ids k with
    | some x => rw [hk] at h; exact Or.inl h
    | none =>
      rw [hk] at h
      by_cases hid : k = id
      · simp only [hid, if_true, Option.some.injEq] at h
        exact Or.inr ⟨hid, h.symm⟩
      · simp [hid] at h
  have hkeep : ∀ p, (umap_find s.regions_to_ids p).isSome = true →
      (umap_find (add_region s id name coords).2.regions_to_ids p).isSome = true := by
    intro p hp
    obtain ⟨x, hx⟩ := Option.isSome_iff_exists.1 hp
    simp [add_region, umap_find_umap_insert, hx]
  constructor
  · intro k region h
    rcases hfind k region h with h | ⟨rfl, rfl⟩
    · exact hs.1 k region h
    · rfl
  · intro k region p h hp
    rcases hfind k region h with h | ⟨_, rfl⟩
    · exact hkeep p (hs.2 k region p h hp)
    · exact Option.noConfusion hp

theorem regionsWF_add_subregion (s : Datastructures) (id parentid : RegionID)
    (hs : RegionsWF s) : RegionsWF (add_subregion_to_region s id parentid).2 := by
  rcases add_subregion_to_region_cases s id parentid with h | ⟨sub, h1, h3, hk, h⟩
  · rw [h]; exact hs
  · rw [h]
    constructor
    · intro k region hreg
      simp only [umap_find_umap_modify, Option.map_map, Option.map_eq_some',
        Function.comp] at hreg
      obtain ⟨r0, hr0, rfl⟩ := hreg
      have := hs.1 k r0 hr0
      split_ifs <;> exact this
    · intro k region p hreg hp
      have hpar : ParentOf _ k p := ⟨region, hreg, hp⟩
      have hkeep : ∀ q, (umap_find s.regions_to_ids q).isSome = true →
          (umap_find (umap_modify
            (umap_modify s.regions_to_ids id (fun r => { r with parent := some parentid }))
            parentid (fun r => { r with subregions := r.subregions ++ [id] })) q).isSome =
            true := by
        intro q hq
        simp [umap_find_umap_modify, hq]
      rcases (parentOf_add_subregion s id parentid sub h1 h3 k p).1 hpar with
        ⟨r0, hr0, hp0⟩ | ⟨_, rfl⟩
      · exact hkeep p (hs.2 k r0 p hr0 hp0)
      · exact hkeep p hk

theorem reach_mono (ok ok' : Datastructures → Op → Prop) (himp : ∀ s op, ok s op → ok' s op)
    (s : Datastructures) (h : Reach ok s) : Reach ok' s := by
  induction h with
  | init => exact Reach.init
  | step s op t _ hok hstep ih => exact Reach.step s op t ih (himp s op hok) hstep

/-- The region records of every reachable state are well formed. -/
theorem reach_regionsWF (s : Datastructures) (h : Reachable s) : RegionsWF s := by
  induction h with
  | init => constructor <;> intro k region <;> simp [Datastructures.empty, umap_find]
  | step s op t _ _ hstep ih =>
    cases op with
    | clear_all =>
      simp only [step, Option.some.injEq] at hstep
      subst hstep
      constructor <;> intro k region <;> simp [clear_all, umap_find]
    | add_station id name xy =>
      simp only [step, Option.some.injEq] at hstep
      subst hstep; exact regionsWF_congr s _ (add_station_regions s _ _ _) ih
    | change_station_coord id newcoord =>
      simp only [step, Option.map_eq_some'] at hstep
      obtain ⟨r, hr, rfl⟩ := hstep
      exact regionsWF_congr s _ (change_station_coord_regions s _ _ r hr) ih
    | add_departure stationid trainid time =>
      simp only [step, Option.some.injEq] at hstep
      subst hstep; exact regionsWF_congr s _ (add_departure_regions s _ _ _) ih
    | remove_departure stationid trainid time =>
      simp only [step, Option.some.injEq] at hstep
      subst hstep; exact regionsWF_congr s _ (remove_departure_regions s _ _ _) ih
    | add_region id name coords =>
      simp only [step, Option.some.injEq] at hstep
      subst hstep; exact regionsWF_add_region s _ _ _ ih
    | add_subregion_to_region id parentid =>
      simp only [step, Option.some.injEq] at hstep
      subst hstep; exact regionsWF_add_subregion s _ _ ih
    | add_station_to_region id parentid =>
      simp only [step, Option.some.injEq] at hstep
      subst hstep; exact regionsWF_congr s _ (add_station_to_region_regions s _ _) ih
    | remove_station id =>
      simp only [step, Option.some.injEq] at hstep
      subst hstep; exact regionsWF_congr s _ (remove_station_regions s _) ih

theorem parentOf_iff (s : Datastructures) (c p : RegionID) :
    ParentOf s c p ↔ parent_of s c = some p := by
  simp [ParentOf, parent_of, Option.bind_eq_some]

theorem not_anc_of_parent_of_none (s : Datastructures) (c a : RegionID)
    (h : parent_of s c = none) : ¬ Anc s c a := by
  apply not_anc_of_no_parent
  intro p hp
  rw [parentOf_iff, h] at hp
  exact Option.noConfusion hp

theorem reach_family : Reach NoCycleOp family := by
  refine Reach.step _ (.add_subregion_to_region 3 2) _
    (Reach.step _ (.add_subregion_to_region 2 4) _
      (Reach.step _ (.add_subregion_to_region 1 2) _
        (Reach.step _ (.add_region 4 "R4" []) _
          (Reach.step _ (.add_region 3 "R3" []) _
            (Reach.step _ (.add_region 2 "R2" []) _
              (Reach.step _ (.add_region 1 "R1" []) _ Reach.init trivial rfl)
              trivial rfl)
            trivial rfl)
          trivial rfl)
        ⟨by decide, ?_⟩ rfl)
      ⟨by decide, ?_⟩ rfl)
    ⟨by decide, ?_⟩ rfl
  · exact not_anc_of_parent_of_none _ 2 1 (by decide)
  · exact not_anc_of_parent_of_none _ 4 2 (by decide)
  · intro h
    rw [anc_iff_of_parent _ 2 4 3 ((parentOf_iff _ _ _).2 (by decide))] at h
    rcases h with h | h
    · exact absurd h (by decide)
    · exact not_anc_of_parent_of_none _ 4 3 (by decide) h

theorem common_parent_is_nearest_witness :
    RegionsWF family ∧ Forest family ∧ ParentOf family 1 2 ∧ ParentOf family 3 2 ∧
    family.regions_to_ids.length ≤ 4 ∧
    ∃ r, common_parent_of_regions 4 family 1 3 = some r ∧
      ((∃ a, Anc family 1 a ∧ Anc family 3 a) →
        Anc family 1 r ∧ Anc family 3 r ∧
          ∀ a, Anc family 1 a → Anc family 3 a → a ≠ r → Anc family r a) ∧
      ((¬ ∃ a, Anc family 1 a ∧ Anc family 3 a) → r = NO_REGION) :=
  ⟨reach_regionsWF family (reach_mono _ _ (fun _ _ _ => trivial) family reach_family),
    ⟨parentOf_functional family, reach_acyclic family reach_family⟩,
    (parentOf_iff _ _ _).2 (by decide), (parentOf_iff _ _ _).2 (by decide), by decide,
    common_parent_is_nearest family
      (reach_regionsWF family (reach_mono _ _ (fun _ _ _ => trivial) family reach_family))
      ⟨parentOf_functional family, reach_acyclic family reach_family⟩ 1 3 2 2
      ((parentOf_iff _ _ _).2 (by decide)) ((parentOf_iff _ _ _).2 (by decide)) 4 (by decide)⟩

theorem common_parent_family : common_parent_of_regions 4 family 1 3 = some 2 := by decide

/-! ## The assignment of a station survives later operations -/

theorem reach_assigned :
    Reach NoCycleOp
      (add_departure (add_station_to_region unassigned_station "s" 7).2 "s" "T1" 100).2 :=
  Reach.step _ (.add_departure "s" "T1" 100) _
    (Reach.step _ (.add_station_to_region "s" 7) _
      (Reach.step _ (.add_station "s" "n" ⟨0, 0⟩) _
        (Reach.step _ (.add_region 8 "Z" []) _
          (Reach.step _ (.add_region 7 "Y" []) _ Reach.init trivial rfl) trivial rfl)
        trivial rfl)
      trivial rfl)
    trivial rfl

theorem add_station_to_region_once_witness :
    (7 : RegionID) ≠ NO_REGION ∧
    (add_station_to_region unassigned_station "s" 7).1 = true ∧
    (∀ op ∈ [Op.add_departure "s" "T1" 100], op ≠ .clear_all ∧ op ≠ .remove_station "s") ∧
    run (add_station_to_region unassigned_station "s" 7).2 [Op.add_departure "s" "T1" 100] =
      some (add_departure (add_station_to_region unassigned_station "s" 7).2 "s" "T1" 100).2 ∧
    HasLocation (add_departure (add_station_to_region unassigned_station "s" 7).2 "s" "T1" 100).2
      "s" 7 ∧
    add_station_to_region
      (add_departure (add_station_to_region unassigned_station "s" 7).2 "s" "T1" 100).2 "s" 8 =
      (false, (add_departure (add_station_to_region unassigned_station "s" 7).2 "s" "T1" 100).2) ∧
    ∃ l, station_in_regions 2
      (add_departure (add_station_to_region unassigned_station "s" 7).2 "s" "T1" 100).2 "s" =
        some (7 :: l) :=
  ⟨by decide, by decide, by decide, rfl,
    (add_station_to_region_once unassigned_station _ "s" 7 8 [Op.add_departure "s" "T1" 100]
      (by decide) (by decide) (by decide) rfl).1,
    (add_station_to_region_once unassigned_station _ "s" 7 8 [Op.add_departure "s" "T1" 100]
      (by decide) (by decide) (by decide) rfl).2.1,
    (add_station_to_region_once unassigned_station _ "s" 7 8 [Op.add_departure "s" "T1" 100]
      (by decide) (by decide) (by decide) rfl).2.2
      (reach_regionsWF _ (reach_mono _ _ (fun _ _ _ => trivial) _ reach_assigned))
      ⟨parentOf_functional _, reach_acyclic _ reach_assigned⟩ 2 (by decide)⟩

/-! ## The three nearest stations -/

theorem collect_group_eq (g : List (Int × StationID)) :
    ∀ acc : List StationID,
      collect_group acc g = acc ++ (g.map Prod.snd).take (3 - acc.length) := by
  induction g with
  | nil => intro acc; simp [collect_group]
  | cons e t ih =>
    intro acc
    by_cases h : acc.length < 3
    · obtain ⟨k, hk⟩ : ∃ k, 3 - acc.length = k + 1 := ⟨2 - acc.length, by omega⟩
      have hk' : 3 - (acc.length + 1) = k := by omega
      simp [collect_group, h, ih, hk, hk']
    · have hk : 3 - acc.length = 0 := by omega
      simp [collect_group, h, ih, hk]

theorem ranked_cons (g : Distance × List (Int × StationID))
    (t : List (Distance × List (Int × StationID))) :
    (ranked (g :: t)).map (fun x => x.2.2) = g.2.map Prod.snd ++ (ranked t).map (fun x => x.2.2) := by
  simp [ranked, List.flatMap_cons, Function.comp_def]

theorem collect_closest_eq (m : List (Distance × List (Int × StationID))) :
    ∀ acc : List StationID,
      collect_closest acc m = acc ++ ((ranked m).map (fun x => x.2.2)).take (3 - acc.length) := by
  induction m with
  | nil => intro acc; simp [collect_closest, ranked]
  | cons g t ih =>
    intro acc
    by_cases h : acc.length < 3
    · simp only [collect_closest, h, if_true, ih, collect_group_eq, ranked_cons,
        List.take_append_eq_append_take, List.append_assoc, List.length_append,
        List.length_take, List.length_map]
      congr 2
      congr 1
      omega
    · have hk : 3 - acc.length = 0 := by omega
      simp [collect_closest, h, hk]

theorem stations_closest_to_eq (s : Datastructures) (xy : Coord) :
    stations_closest_to s xy =
      (((ranked (build_sorted_ids s.station_ids_to_coords xy)).take 3).map (fun x => x.2.2)) := by
  simp [stations_closest_to, collect_closest_eq, List.map_take]

theorem ordered_insert_pairwise {α : Type} (lt : α → α → Bool)
    (htrans : ∀ a b c, lt a b = true → lt b c = true → lt a c = true) (a : α) (l : List α)
    (hl : l.Pairwise (fun x y => lt x y = true))
    (hna : ∀ b ∈ l, lt a b = false → lt b a = true) :
    (ordered_insert lt a l).Pairwise (fun x y => lt x y = true) := by
  induction l with
  | nil => simp [ordered_insert]
  | cons b t ih =>
    obtain ⟨hb, ht⟩ := List.pairwise_cons.1 hl
    by_cases hab : lt a b = true
    · simp only [ordered_insert, hab, if_true]
      refine List.pairwise_cons.2 ⟨?_, hl⟩
      intro c hc
      rcases List.mem_cons.1 hc with rfl | hc
      · exact hab
      · exact htrans _ _ _ hab (hb c hc)
    · simp only [ordered_insert, hab]
      refine List.pairwise_cons.2 ⟨?_, ih ht (fun c hc => hna c (List.mem_cons_of_mem _ hc))⟩
      intro c hc
      rcases List.mem_cons.1 ((ordered_insert_perm lt a t).mem_iff.1 hc) with rfl | hc
      · exact hna b (List.mem_cons_self _ _) (by simpa using hab)
      · exact hb c hc

theorem set_insert_pairwise {α : Type} {lt : α → α → Bool} (h : StrictTotal lt) (l : List α)
    (a : α) (hl : l.Pairwise (fun x y => lt x y = true)) :
    (set_insert lt l a).1.Pairwise (fun x y => lt x y = true) := by
  by_cases ha : a ∈ l
  · rw [set_insert_of_mem h l a ha]; exact hl
  · have hf := (set_find_eq_none h l a).2 ha
    simp only [set_insert, hf]
    refine ordered_insert_pairwise lt h.trans a l hl ?_
    intro b hb hab
    by_contra hba
    exact ha ((h.total a b hab (by simpa using hba)) ▸ hb)

theorem mem_ranked (m : List (Distance × List (Int × StationID)))
    (x : Distance × (Int × StationID)) :
    x ∈ ranked m ↔ ∃ g ∈ m, x.1 = g.1 ∧ x.2 ∈ g.2 := by
  simp only [ranked, List.mem_flatMap, List.mem_map]
  constructor
  · rintro ⟨g, hg, e, he, rfl⟩; exact ⟨g, hg, rfl, he⟩
  · rintro ⟨g, hg, h1, h2⟩; exact ⟨g, hg, x.2, h2, by rw [← h1]⟩

theorem sorted_ids_insert_sorted (m : List (Distance × List (Int × StationID)))
    (d : Distance) (e : Int × StationID) (hm : GroupsSorted m) :
    GroupsSorted (sorted_ids_insert m d e) := by
  have hI := strictTotal_int_lt
  have hP := strictTotal_pair_lt strictTotal_int_lt strictTotal_str_lt
  have h1 : GroupsSorted (map_insert int_lt m d []).1 := by
    by_cases hd : d ∈ m.map Prod.fst
    · rw [map_insert_of_mem hI m d [] hd]; exact hm
    · have hf := (map_find_eq_none hI m d).2 hd
      simp only [map_insert, hf]
      constructor
      · have := ordered_insert_pairwise (key_lt int_lt)
          (fun a b c h1 h2 => hI.trans _ _ _ h1 h2) (d, ([] : List (Int × StationID))) m
          (hm.1.imp (fun {a b} h => by simpa [key_lt, int_lt] using h))
          (by
            intro b hb hab
            have hne : (d : Int) ≠ (b.1 : Int) := fun e => hd (List.mem_map.2 ⟨b, hb, e.symm⟩)
            have hab' : ¬ d < b.1 := by simpa [key_lt, int_lt] using hab
            have : b.1 < d := lt_of_le_of_ne (not_lt.1 hab') (fun e => hne e.symm)
            simpa [key_lt, int_lt] using this)
        exact this.imp (fun {a b} h => by simpa [key_lt, int_lt] using h)
      · intro g hg
        rcases List.mem_cons.1 ((ordered_insert_perm _ _ _).mem_iff.1 hg) with rfl | hg
        · exact List.Pairwise.nil
        · exact hm.2 g hg
  unfold sorted_ids_insert map_modify
  constructor
  · rw [List.pairwise_map]
    refine h1.1.imp ?_
    intro a b hab
    by_cases ha : equiv int_lt d a.1 = true <;> by_cases hb : equiv int_lt d b.1 = true <;>
      simpa [ha, hb] using hab
  · intro g hg
    obtain ⟨g0, hg0, rfl⟩ := List.mem_map.1 hg
    by_cases ha : equiv int_lt d g0.1 = true
    · simp only [ha, if_true]
      exact set_insert_pairwise hP _ _ (h1.2 g0 hg0)
    · simp only [ha]
      exact h1.2 g0 hg0

theorem mem_ranked_sorted_ids_insert (m : List (Distance × List (Int × StationID)))
    (d : Distance) (e : Int × StationID) (x : Distance × (Int × StationID)) :
    x ∈ ranked (sorted_ids_insert m d e) ↔ x = (d, e) ∨ x ∈ ranked m := by
  have hI := strictTotal_int_lt
  have hP := strictTotal_pair_lt strictTotal_int_lt strictTotal_str_lt
  have hkey : d ∈ (map_insert int_lt m d []).1.map Prod.fst := by
    by_cases hd : d ∈ m.map Prod.fst
    · rw [map_insert_of_mem hI m d [] hd]; exact hd
    · exact List.mem_map.2 ⟨(d, []), (map_insert_perm hI m d [] hd).mem_iff.2
        (List.mem_cons_self _ _), rfl⟩
  have hsame : ∀ y, y ∈ ranked (map_insert int_lt m d []).1 ↔ y ∈ ranked m := by
    intro y
    by_cases hd : d ∈ m.map Prod.fst
    · rw [map_insert_of_mem hI m d [] hd]
    · simp only [mem_ranked, (map_insert_perm hI m d [] hd).mem_iff, List.mem_cons]
      constructor
      · rintro ⟨g, rfl | hg, h1, h2⟩
        · simp at h2
        · exact ⟨g, hg, h1, h2⟩
      · rintro ⟨g, hg, h1, h2⟩; exact ⟨g, Or.inr hg, h1, h2⟩
  rw [← hsame]
  simp only [sorted_ids_insert]
  generalize (map_insert int_lt m d []).1 = m1 at hkey ⊢
  simp only [map_modify, mem_ranked, List.mem_map]
  constructor
  · rintro ⟨g', ⟨g, hg, rfl⟩, h1, h2⟩
    by_cases ha : equiv int_lt d g.1 = true
    · have hd : d = g.1 := (equiv_iff_eq hI _ _).1 ha
      simp only [ha, if_true] at h1 h2
      rcases (mem_set_insert hP _ _ _).1 h2 with h2 | h2
      · left; exact Prod.ext (by rw [h1, hd]) h2
      · right; exact ⟨g, hg, h1, h2⟩
    · simp only [ha] at h1 h2
      right; exact ⟨g, hg, h1, h2⟩
  · rintro (rfl | ⟨g, hg, h1, h2⟩)
    · obtain ⟨g, hg, hgd⟩ := List.mem_map.1 hkey
      have ha : equiv int_lt d g.1 = true := (equiv_iff_eq hI _ _).2 hgd.symm
      refine ⟨_, ⟨g, hg, rfl⟩, ?_⟩
      simp only [ha, if_true]
      exact ⟨hgd.symm, (mem_set_insert hP _ _ _).2 (Or.inl rfl)⟩
    · refine ⟨_, ⟨g, hg, rfl⟩, ?_⟩
      by_cases ha : equiv int_lt d g.1 = true
      · simp only [ha, if_true]
        exact ⟨h1, (mem_set_insert hP _ _ _).2 (Or.inr h2)⟩
      · simp only [ha]
        exact ⟨h1, h2⟩

theorem build_sorted_ids_sorted (index : List (Coord × StationID)) (xy : Coord) :
    GroupsSorted (build_sorted_ids index xy) := by
  have key : ∀ (l : List (Coord × StationID)) (acc : List (Distance × List (Int × StationID))),
      GroupsSorted acc →
      GroupsSorted (l.foldl (fun sorted_ids id_to_coord =>
        sorted_ids_insert sorted_ids (distance_between id_to_coord.1 xy)
          (id_to_coord.1.y, id_to_coord.2)) acc) := by
    intro l
    induction l with
    | nil => intro acc h; exact h
    | cons e t ih =>
      intro acc h
      exact ih _ (sorted_ids_insert_sorted acc _ _ h)
  exact key index [] ⟨List.Pairwise.nil, by simp⟩

theorem mem_ranked_build (index : List (Coord × StationID)) (xy : Coord)
    (x : Distance × (Int × StationID)) :
    x ∈ ranked (build_sorted_ids index xy) ↔ ∃ e ∈ index, x = rank_key xy e := by
  have key : ∀ (l : List (Coord × StationID)) (acc : List (Distance × List (Int × StationID))),
      x ∈ ranked (l.foldl (fun sorted_ids id_to_coord =>
        sorted_ids_insert sorted_ids (distance_between id_to_coord.1 xy)
          (id_to_coord.1.y, id_to_coord.2)) acc) ↔
      x ∈ ranked acc ∨ ∃ e ∈ l, x = rank_key xy e := by
    intro l
    induction l with
    | nil => intro acc; simp
    | cons e t ih =>
      intro acc
      rw [List.foldl_cons, ih, mem_ranked_sorted_ids_insert]
      simp only [List.mem_cons, exists_eq_or_imp, rank_key]
      constructor
      · rintro ((h | h) | h)
        · exact Or.inr (Or.inl h)
        · exact Or.inl h
        · exact Or.inr (Or.inr h)
      · rintro (h | h | h)
        · exact Or.inl (Or.inr h)
        · exact Or.inl (Or.inl h)
        · exact Or.inr h
  rw [build_sorted_ids, key]
  simp [ranked]

theorem ranked_pairwise (m : List (Distance × List (Int × StationID)))
    (hm : GroupsSorted m) : (ranked m).Pairwise (fun a b => rank_lt a b = true) := by
  unfold ranked
  rw [List.pairwise_flatMap]
  constructor
  · intro g hg
    rw [List.pairwise_map]
    refine (hm.2 g hg).imp ?_
    intro a b hab
    simp [rank_lt, pair_lt, int_lt] at hab ⊢
    exact hab
  · refine hm.1.imp ?_
    intro g h hgh x hx y hy
    obtain ⟨a, _, rfl⟩ := List.mem_map.1 hx
    obtain ⟨b, _, rfl⟩ := List.mem_map.1 hy
    simp only [rank_lt, pair_lt, int_lt, Bool.or_eq_true, decide_eq_true_eq]
    exact Or.inl hgh

theorem umap_find_of_mem {K V : Type} [DecidableEq K] (m : List (K × V)) (k : K) (v : V)
    (hn : (m.map Prod.fst).Nodup) (h : (k, v) ∈ m) : umap_find m k = some v := by
  obtain ⟨v', hv'⟩ := umap_find_isSome m k (List.mem_map.2 ⟨(k, v), h, rfl⟩)
  rw [hv', eq_of_mem_of_nodup_keys hn (umap_find_mem m k v' hv') h]

theorem sync_get_coordinates (s : Datastructures) (h : StationsSync s) (c : Coord)
    (id : StationID) (hm : (c, id) ∈ s.station_ids_to_coords) :
    get_station_coordinates s id = c := by
  obtain ⟨st, hst, hc⟩ := (h.coords_mem c id).1 hm
  simp [get_station_coordinates, umap_find_of_mem _ _ _ h.ids_nodup hst, hc]

theorem sync_live_in_index (s : Datastructures) (h : StationsSync s) (id : StationID)
    (hlive : id ∈ all_stations s) :
    (get_station_coordinates s id, id) ∈ s.station_ids_to_coords := by
  obtain ⟨st, hst⟩ := umap_find_isSome s.stations_to_ids id (by simpa [all_stations] using hlive)
  have : get_station_coordinates s id = st.coord := by simp [get_station_coordinates, hst]
  rw [this]
  exact (h.coords_mem _ _).2 ⟨st, umap_find_mem _ _ _ hst, rfl⟩

/-- In a synchronised state the walk order of `sorted_ids` lists every entry
of the coordinate index exactly once. -/
theorem ranked_perm (s : Datastructures) (h : StationsSync s) (xy : Coord) :
    (ranked (build_sorted_ids s.station_ids_to_coords xy)).Perm
      (s.station_ids_to_coords.map (rank_key xy)) := by
  have hR := strictTotal_pair_lt strictTotal_int_lt
    (strictTotal_pair_lt strictTotal_int_lt strictTotal_str_lt)
  have hnd1 : (ranked (build_sorted_ids s.station_ids_to_coords xy)).Nodup := by
    refine (ranked_pairwise _ (build_sorted_ids_sorted _ xy)).imp ?_
    intro a b hab e
    rw [e] at hab
    have := hR.irrefl b
    simp only [rank_lt] at hab
    rw [this] at hab
    exact Bool.noConfusion hab
  have hnd2 : (s.station_ids_to_coords.map (rank_key xy)).Nodup := by
    apply List.Nodup.of_map (fun x => x.2.2)
    rw [List.map_map]
    exact sync_coord_ids_nodup s h
  rw [List.perm_ext_iff_of_nodup hnd1 hnd2]
  intro x
  rw [mem_ranked_build, List.mem_map]
  constructor
  · rintro ⟨e, he, rfl⟩; exact ⟨e, he, rfl⟩
  · rintro ⟨e, he, rfl⟩; exact ⟨e, he, rfl⟩

theorem ranked_ids_perm (s : Datastructures) (h : StationsSync s) (xy : Coord) :
    ((ranked (build_sorted_ids s.station_ids_to_coords xy)).map (fun x => x.2.2)).Perm
      (all_stations s) := by
  have h1 := (ranked_perm s h xy).map (fun x => x.2.2)
  rw [List.map_map] at h1
  exact h1.trans (sync_coord_ids_perm s h)

theorem isqrtAux_spec :
    ∀ (fuel n : Nat), n < 4 ^ fuel →
      isqrtAux fuel n * isqrtAux fuel n ≤ n ∧
        n < (isqrtAux fuel n + 1) * (isqrtAux fuel n + 1) := by
  intro fuel
  induction fuel with
  | zero => intro n hn; simp at hn; subst hn; simp [isqrtAux]
  | succ f ih =>
    intro n hn
    by_cases h0 : n = 0
    · subst h0; simp [isqrtAux]
    · have hq : n / 4 < 4 ^ f := by
        rw [Nat.div_lt_iff_lt_mul (by decide)]
        rw [pow_succ] at hn
        exact hn
      obtain ⟨h1, h2⟩ := ih (n / 4) hq
      have hdm := Nat.div_add_mod n 4
      have hmod := Nat.mod_lt n (show 0 < 4 by decide)
      rw [isqrtAux, if_neg h0]
      generalize isqrtAux f (n / 4) = r at h1 h2 ⊢
      generalize n / 4 = q at h1 h2 hdm
      split_ifs with hc
      · refine ⟨hc, ?_⟩
        nlinarith
      · have he : 2 * r * (2 * r) = 4 * (r * r) := by ring
        refine ⟨by omega, by omega⟩

theorem isqrt_spec (n : Nat) : isqrt n * isqrt n ≤ n ∧ n < (isqrt n + 1) * (isqrt n + 1) :=
  isqrtAux_spec n n (Nat.lt_pow_self (by decide) n)

theorem isqrt_unique (n k : Nat) (h1 : k * k ≤ n) (h2 : n < (k + 1) * (k + 1)) :
    isqrt n = k := by
  obtain ⟨h3, h4⟩ := isqrt_spec n
  have ha : isqrt n < k + 1 := by
    by_contra hcon
    have : (k + 1) * (k + 1) ≤ isqrt n * isqrt n := Nat.mul_le_mul (not_lt.1 hcon) (not_lt.1 hcon)
    omega
  have hb : k < isqrt n + 1 := by
    by_contra hcon
    have : (isqrt n + 1) * (isqrt n + 1) ≤ k * k := Nat.mul_le_mul (not_lt.1 hcon) (not_lt.1 hcon)
    omega
  omega

theorem log2Aux_spec :
    ∀ (fuel m : Nat), 0 < m → m ≤ fuel →
      2 ^ log2Aux fuel m ≤ m ∧ m < 2 ^ (log2Aux fuel m + 1) := by
  intro fuel
  induction fuel with
  | zero => intro m h1 h2; omega
  | succ f ih =>
    intro m h1 h2
    by_cases hm : m < 2
    · simp only [log2Aux, if_pos hm]
      constructor <;> simp <;> omega
    · simp only [log2Aux, if_neg hm]
      have hdm := Nat.div_add_mod m 2
      have hmod := Nat.mod_lt m (show 0 < 2 by decide)
      obtain ⟨h3, h4⟩ := ih (m / 2) (by omega) (by omega)
      generalize log2Aux f (m / 2) = e at h3 h4 ⊢
      rw [pow_succ, pow_succ]
      rw [pow_succ] at h4
      constructor <;> omega

theorem log2floor_spec (m : Nat) (h : 0 < m) :
    2 ^ log2floor m ≤ m ∧ m < 2 ^ (log2floor m + 1) :=
  log2Aux_spec m m h le_rfl

theorem isqrt_lt_of_lt_sq (n b : Nat) (h : n < b * b) : isqrt n < b := by
  by_contra hcon
  have := Nat.mul_le_mul (not_lt.1 hcon) (not_lt.1 hcon)
  have := (isqrt_spec n).1
  omega

/-- Below `2 ^ 52` the nearest double of the root has the same integer part as
the root itself. -/
theorem nearest_double_sqrt_floor_exact (n : Nat) (h : n < 2 ^ 52) :
    nearest_double_sqrt_floor n = isqrt n := by
  obtain ⟨h1, h2⟩ := isqrt_spec n
  have hk : isqrt n < 2 ^ 26 := isqrt_lt_of_lt_sq n (2 ^ 26) (by norm_num at h ⊢; exact h)
  obtain ⟨he1, he2⟩ := log2floor_spec (isqrt n + 1) (Nat.succ_pos _)
  unfold nearest_double_sqrt_floor
  simp only
  generalize isqrt n = k at h1 h2 hk he1 he2 ⊢
  generalize log2floor (k + 1) = e at he1 he2 ⊢
  have hm : k + 1 ≤ 2 ^ 26 := hk
  have he : e ≤ 26 := (Nat.pow_le_pow_iff_right (by decide)).1 (le_trans he1 hm)
  have hT : 2 * (k + 1) ≤ 2 ^ (if k + 1 = 2 ^ e then 54 - e else 53 - e) := by
    split_ifs with hp
    · rw [hp, ← pow_succ']
      exact Nat.pow_le_pow_right (by decide) (by omega)
    · have hlt : 2 ^ e < 2 ^ 26 := lt_of_lt_of_le (lt_of_le_of_ne he1 (Ne.symm hp)) hm
      have he' : e < 26 := (Nat.pow_lt_pow_iff_right (by decide)).1 hlt
      have h3 : 2 * (k + 1) ≤ 2 ^ (e + 2) := by
        rw [pow_succ] at he2 ⊢
        omega
      exact le_trans h3 (Nat.pow_le_pow_right (by decide) (by omega))
  generalize (if k + 1 = 2 ^ e then 54 - e else 53 - e) = t at hT ⊢
  rw [if_neg]
  rw [not_lt, two_mul, pow_add]
  generalize 2 ^ t = T at hT ⊢
  have hTpos : 0 < T := by omega
  obtain ⟨B, hB⟩ : ∃ B, (k + 1) * T = B + 1 :=
    ⟨(k + 1) * T - 1, (Nat.sub_add_cancel (Nat.mul_pos (Nat.succ_pos _) hTpos)).symm⟩
  rw [hB, Nat.add_sub_cancel]
  have e1 : n * (T * T) + T * T ≤ (k + 1) * (k + 1) * (T * T) := by
    have : n + 1 ≤ (k + 1) * (k + 1) := h2
    calc n * (T * T) + T * T = (n + 1) * (T * T) := by ring
      _ ≤ (k + 1) * (k + 1) * (T * T) := Nat.mul_le_mul_right _ this
  have e2 : (k + 1) * (k + 1) * (T * T) = (B + 1) * (B + 1) := by
    rw [← hB]; ring
  have e3 : 2 * (B + 1) ≤ T * T := by
    rw [← hB]
    calc 2 * ((k + 1) * T) = 2 * (k + 1) * T := by ring
      _ ≤ T * T := Nat.mul_le_mul_right _ hT
  have e4 : (B + 1) * (B + 1) = B * B + 2 * B + 1 := by ring
  linarith

theorem wrap_int_of_fits (z : Int) (h1 : -(2 ^ 31) ≤ z) (h2 : z < 2 ^ 31) : wrap_int z = z := by
  unfold wrap_int
  norm_num at h1 h2 ⊢
  omega

theorem hypot_int_exact (a b : Int) (h : a * a + b * b < 2 ^ 52) :
    hypot_int a b = (isqrt (a * a + b * b).toNat : Nat) := by
  have hn : (a * a + b * b).toNat < 2 ^ 52 := by
    have := Int.toNat_lt' (n := 2 ^ 52) (m := a * a + b * b) (by norm_num)
    omega
  unfold hypot_int
  rw [nearest_double_sqrt_floor_exact _ hn]
  have hk : isqrt (a * a + b * b).toNat < 2 ^ 26 :=
    isqrt_lt_of_lt_sq _ (2 ^ 26) (by norm_num at hn ⊢; exact hn)
  have hk' : isqrt (a * a + b * b).toNat < 2 ^ 31 := lt_trans hk (by norm_num)
  rw [double_to_int, if_pos hk']

theorem abs_lt_of_sq_lt (d r : Int) (hr : 0 ≤ r) (h : d * d + r < 2 ^ 52) :
    -(2 ^ 31) ≤ d ∧ d < 2 ^ 31 := by
  constructor <;> nlinarith

theorem diffFits_of_sq_dist (c1 c2 : Coord) (h : sq_dist c1 c2 < 2 ^ 52) : DiffFits c1 c2 := by
  unfold sq_dist at h
  have hx := abs_lt_of_sq_lt (c1.x - c2.x) _ (mul_self_nonneg (c1.y - c2.y)) h
  have hy := abs_lt_of_sq_lt (c1.y - c2.y) _ (mul_self_nonneg (c1.x - c2.x))
    (by rw [add_comm]; exact h)
  exact ⟨hx.1, hx.2, hy.1, hy.2⟩

/-- When the subtractions do not overflow, `distance_between` depends on the
two coordinates only through the square of their distance. -/
theorem distance_between_of_fits (c1 c2 : Coord) (h : DiffFits c1 c2) :
    distance_between c1 c2 =
      wrap_int (Int.natAbs (double_to_int (nearest_double_sqrt_floor (sq_dist c1 c2).toNat))) := by
  unfold distance_between hypot_int sq_dist
  rw [wrap_int_of_fits _ h.1 h.2.1, wrap_int_of_fits _ h.2.2.1 h.2.2.2]

/-- While the square of the distance is below `2 ^ 52`, `distance_between` is
the integer part of the Euclidean distance. -/
theorem distance_between_exact (c1 c2 : Coord) (h : sq_dist c1 c2 < 2 ^ 52) :
    distance_between c1 c2 = floor_dist c1 c2 := by
  have hf := diffFits_of_sq_dist c1 c2 h
  unfold distance_between
  rw [wrap_int_of_fits _ hf.1 hf.2.1, wrap_int_of_fits _ hf.2.2.1 hf.2.2.2]
  have := hypot_int_exact (c1.x - c2.x) (c1.y - c2.y) h
  simp only
  rw [this]
  have hk : isqrt ((c1.x - c2.x) * (c1.x - c2.x) + (c1.y - c2.y) * (c1.y - c2.y)).toNat
      < 2 ^ 26 := by
    apply isqrt_lt_of_lt_sq
    have := Int.toNat_lt' (n := 2 ^ 52) (m := sq_dist c1 c2) (by norm_num)
    unfold sq_dist at this h
    norm_num at this h ⊢
    omega
  rw [Int.natAbs_ofNat]
  unfold floor_dist sq_dist
  apply wrap_int_of_fits
  · have : (0:Int) ≤ (isqrt ((c1.x - c2.x) * (c1.x - c2.x) + (c1.y - c2.y) * (c1.y - c2.y)).toNat : Nat) := Int.natCast_nonneg _
    linarith
  · have : ((isqrt ((c1.x - c2.x) * (c1.x - c2.x) + (c1.y - c2.y) * (c1.y - c2.y)).toNat : Nat) : Int) < 2 ^ 26 := by exact_mod_cast hk
    linarith

/-- While the square of the distance from the origin is below `2 ^ 52`, the
`int` that `operator<` stores for a coordinate is the integer part of that
distance. -/
theorem hypot_int_floor_dist (c : Coord) (h : sq_dist c ⟨0, 0⟩ < 2 ^ 52) :
    hypot_int c.x c.y = floor_dist c ⟨0, 0⟩ := by
  have hsq : sq_dist c ⟨0, 0⟩ = c.x * c.x + c.y * c.y := by simp [sq_dist]
  rw [hsq] at h
  rw [floor_dist, hsq]
  exact hypot_int_exact c.x c.y h

theorem reachable_run (ops : List Op) (s t : Datastructures) (h : Reachable s)
    (hrun : run s ops = some t) : Reachable t := by
  induction ops generalizing s with
  | nil =>
    simp only [run, Option.some.injEq] at hrun
    exact hrun ▸ h
  | cons op ops ih =>
    simp only [run, Option.bind_eq_some] at hrun
    obtain ⟨u, hu, hrest⟩ := hrun
    exact ih u (Reach.step s op u h trivial hu) hrest

theorem ranked_key_of_mem (s : Datastructures) (h : StationsSync s) (xy : Coord)
    (x : Distance × (Int × StationID))
    (hx : x ∈ ranked (build_sorted_ids s.station_ids_to_coords xy)) :
    x.2.2 ∈ all_stations s ∧
    x.1 = distance_between (get_station_coordinates s x.2.2) xy ∧
    x.2.1 = (get_station_coordinates s x.2.2).y := by
  obtain ⟨e, he, rfl⟩ := (mem_ranked_build _ xy x).1 hx
  have hc := sync_get_coordinates s h e.1 e.2 he
  refine ⟨?_, by simp [rank_key, hc], by simp [rank_key, hc]⟩
  obtain ⟨st, hst, _⟩ := (h.coords_mem e.1 e.2).1 he
  exact List.mem_map.2 ⟨(e.2, st), hst, rfl⟩

theorem rank_lt_cases (a b : Distance × (Int × StationID)) (h : rank_lt a b = true) :
    a.1 < b.1 ∨ (a.1 = b.1 ∧ (a.2.1 < b.2.1 ∨ (a.2.1 = b.2.1 ∧ a.2.2 < b.2.2))) := by
  simp only [rank_lt, pair_lt, int_lt, Bool.or_eq_true, Bool.and_eq_true,
    decide_eq_true_eq, Bool.not_eq_true', decide_eq_false_iff_not, str_lt_iff] at h
  rcases h with h | ⟨h1, h2 | ⟨h2, h3⟩⟩
  · exact Or.inl h
  · by_cases hlt : a.1 < b.1
    · exact Or.inl hlt
    · exact Or.inr ⟨le_antisymm (not_lt.1 h1) (not_lt.1 hlt), Or.inl h2⟩
  · by_cases hlt : a.1 < b.1
    · exact Or.inl hlt
    · refine Or.inr ⟨le_antisymm (not_lt.1 h1) (not_lt.1 hlt), ?_⟩
      by_cases hlt2 : a.2.1 < b.2.1
      · exact Or.inl hlt2
      · exact Or.inr ⟨le_antisymm (not_lt.1 h2) (not_lt.1 hlt2), h3⟩

theorem reach_far_pair : Reach CollisionFree far_pair :=
  Reach.step _ (.add_station "B" "b" ⟨134217729, -5⟩) _
    (Reach.step _ (.add_station "A" "a" ⟨134217728, 16384⟩) _ Reach.init
      (by simp only [CollisionFree]; decide) rfl)
    (by simp only [CollisionFree]; decide) rfl

theorem reach_beyond_pair : Reach CollisionFree beyond_pair :=
  Reach.step _ (.add_station "B" "b" ⟨1, 0⟩) _
    (Reach.step _ (.add_station "A" "a" ⟨2000000000, 2000000000⟩) _ Reach.init
      (by simp only [CollisionFree]; decide) rfl)
    (by simp only [CollisionFree]; decide) rfl

theorem reach_wrapped_pair : Reach CollisionFree wrapped_pair :=
  Reach.step _ (.add_station "B" "b" ⟨400000000, 1200000000⟩) _
    (Reach.step _ (.add_station "A" "a" ⟨2000000000, -2000000000⟩) _ Reach.init
      (by simp only [CollisionFree]; decide) rfl)
    (by simp only [CollisionFree]; decide) rfl

set_option maxRecDepth 100000 in
/-- C6 (counterexample): from the origin, station A at distance `sqrt 2` is
listed before station B at distance `1`, in a state whose indices are in sync.
In the reachable state `moved_far`, whose coordinate index has lost sync,
station C at distance 5 is listed before the live station A at distance 1.
In `far_pair` station B, whose distance has the integer part 134217729, is
listed before station A, whose distance has the integer part 134217728. In
`beyond_pair` station A, more than `INT_MAX` away, is listed before station B
at distance 1. -/
theorem closest_not_exact_order :
    (Reachable near_pair ∧ StationsSync near_pair ∧
      stations_closest_to near_pair ⟨0, 0⟩ = ["A", "B"] ∧
      sq_dist (get_station_coordinates near_pair "B") ⟨0, 0⟩ <
        sq_dist (get_station_coordinates near_pair "A") ⟨0, 0⟩) ∧
    (Reachable moved_far ∧ "A" ∈ all_stations moved_far ∧ "C" ∈ all_stations moved_far ∧
      stations_closest_to moved_far ⟨0, 0⟩ = ["C", "A"] ∧
      distance_between (get_station_coordinates moved_far "A") ⟨0, 0⟩ <
        distance_between (get_station_coordinates moved_far "C") ⟨0, 0⟩) ∧
    (StationsSync far_pair ∧ stations_closest_to far_pair ⟨0, 0⟩ = ["B", "A"] ∧
      floor_dist (get_station_coordinates far_pair "A") ⟨0, 0⟩ = 134217728 ∧
      floor_dist (get_station_coordinates far_pair "B") ⟨0, 0⟩ = 134217729) ∧
    (StationsSync beyond_pair ∧ stations_closest_to beyond_pair ⟨0, 0⟩ = ["A", "B"] ∧
      distance_between (get_station_coordinates beyond_pair "A") ⟨0, 0⟩ = -2147483648 ∧
      sq_dist (get_station_coordinates beyond_pair "B") ⟨0, 0⟩ <
        sq_dist (get_station_coordinates beyond_pair "A") ⟨0, 0⟩) := by
  have hr : Reach CollisionFree near_pair :=
    Reach.step _ (.add_station "B" "b" ⟨1, 0⟩) _
      (Reach.step _ (.add_station "A" "a" ⟨1, -1⟩) _ Reach.init
        (by simp only [CollisionFree]; decide) rfl)
      (by simp only [CollisionFree]; decide) rfl
  have hrun : run Datastructures.empty moved_far_ops = some moved_far := by decide
  exact ⟨⟨reach_mono _ _ (fun _ _ _ => trivial) _ hr, reach_sync _ hr, by decide, by decide⟩,
    ⟨reachable_run _ _ _ Reach.init hrun, by decide, by decide, by decide, by decide⟩,
    ⟨reach_sync _ reach_far_pair, by decide, by decide, by decide⟩,
    ⟨reach_sync _ reach_beyond_pair, by decide, by decide, by decide⟩⟩

/-- C6 (amended): in a state whose coordinate index is in sync with the store
and in which the square of the distance from the point to every live station
is below `2 ^ 52`, the ids returned by stations_closest_to(point) are listed
in non-decreasing order of the integer part of the Euclidean distance from the
point to the station's coordinate, and no live station left out of the result
has a smaller integer part of the distance than a station that is returned. -/
theorem closest_ordered_by_int_distance (s : Datastructures) (h : StationsSync s)
    (xy : Coord)
    (hnear : ∀ id ∈ all_stations s, sq_dist (get_station_coordinates s id) xy < 2 ^ 52) :
    (stations_closest_to s xy).Pairwise (fun a b =>
      floor_dist (get_station_coordinates s a) xy ≤
        floor_dist (get_station_coordinates s b) xy) ∧
    ∀ id ∈ all_stations s, id ∉ stations_closest_to s xy →
      ∀ r ∈ stations_closest_to s xy,
        floor_dist (get_station_coordinates s r) xy ≤
          floor_dist (get_station_coordinates s id) xy := by
  have hpw := ranked_pairwise _ (build_sorted_ids_sorted s.station_ids_to_coords xy)
  rw [stations_closest_to_eq]
  constructor
  · rw [List.pairwise_map]
    refine List.Pairwise.imp_of_mem ?_ (hpw.sublist (List.take_sublist 3 _))
    intro a b ha hb hab
    obtain ⟨hla, ha1, _⟩ := ranked_key_of_mem s h xy a (List.mem_of_mem_take ha)
    obtain ⟨hlb, hb1, _⟩ := ranked_key_of_mem s h xy b (List.mem_of_mem_take hb)
    rw [← distance_between_exact _ _ (hnear _ hla), ← distance_between_exact _ _ (hnear _ hlb),
      ← ha1, ← hb1]
    rcases rank_lt_cases a b hab with hlt | ⟨heq, _⟩
    · exact le_of_lt hlt
    · exact le_of_eq heq
  · intro id hlive hout r hr
    obtain ⟨y, hy, rfl⟩ := List.mem_map.1 hr
    have hxin : rank_key xy (get_station_coordinates s id, id) ∈
        ranked (build_sorted_ids s.station_ids_to_coords xy) :=
      (mem_ranked_build _ xy _).2 ⟨_, sync_live_in_index s h id hlive, rfl⟩
    rw [← List.take_append_drop 3 (ranked (build_sorted_ids s.station_ids_to_coords xy))]
      at hxin hpw
    rcases List.mem_append.1 hxin with hin | hin
    · exact absurd (List.mem_map.2 ⟨_, hin, rfl⟩) hout
    · have hlt := (List.pairwise_append.1 hpw).2.2 y hy _ hin
      obtain ⟨hly, hy1, _⟩ := ranked_key_of_mem s h xy y (List.mem_of_mem_take hy)
      rw [← distance_between_exact _ _ (hnear _ hly), ← distance_between_exact _ _ (hnear _ hlive),
        ← hy1]
      rcases rank_lt_cases _ _ hlt with hlt | ⟨heq, _⟩
      · exact le_of_lt hlt
      · exact le_of_eq heq

theorem reach_ring : Reach CollisionFree ring :=
  Reach.step _ (.add_station "C" "c" ⟨0, 1⟩) _
    (Reach.step _ (.add_station "B" "b" ⟨5, 0⟩) _
      (Reach.step _ (.add_station "A" "a" ⟨3, 4⟩) _ Reach.init
        (by simp only [CollisionFree]; decide) rfl)
      (by simp only [CollisionFree]; decide) rfl)
    (by simp only [CollisionFree]; decide) rfl

theorem closest_ordered_by_int_distance_witness :
    StationsSync ring ∧
    (∀ id ∈ all_stations ring, sq_dist (get_station_coordinates ring id) ⟨0, 0⟩ < 2 ^ 52) ∧
    (stations_closest_to ring ⟨0, 0⟩).Pairwise (fun a b =>
      floor_dist (get_station_coordinates ring a) ⟨0, 0⟩ ≤
        floor_dist (get_station_coordinates ring b) ⟨0, 0⟩) ∧
    ∀ id ∈ all_stations ring, id ∉ stations_closest_to ring ⟨0, 0⟩ →
      ∀ r ∈ stations_closest_to ring ⟨0, 0⟩,
        floor_dist (get_station_coordinates ring r) ⟨0, 0⟩ ≤
          floor_dist (get_station_coordinates ring id) ⟨0, 0⟩ :=
  ⟨reach_sync ring reach_ring, by decide,
    closest_ordered_by_int_distance ring (reach_sync ring reach_ring) ⟨0, 0⟩ (by decide)⟩

set_option maxRecDepth 100000 in
/-- C7 (counterexample): in a reachable state whose coordinate index has lost
sync, the live stations A and C are equally far from the origin, A has the
smaller y, and C is listed first. In `wrapped_pair`, whose index is in sync,
the stations A and B are equally far from the point
(-2000000000, -2000000000), A has the smaller y, and B is listed first: the
subtractions overflow and the keys are 294967296 for A and `INT_MIN` for B. -/
theorem closest_tie_out_of_sync :
    (run Datastructures.empty moved_entry_ops = some moved_entry ∧
      Reachable moved_entry ∧
      "A" ∈ all_stations moved_entry ∧ "C" ∈ all_stations moved_entry ∧
      sq_dist (get_station_coordinates moved_entry "A") ⟨0, 0⟩ =
        sq_dist (get_station_coordinates moved_entry "C") ⟨0, 0⟩ ∧
      (get_station_coordinates moved_entry "A").y <
        (get_station_coordinates moved_entry "C").y ∧
      stations_closest_to moved_entry ⟨0, 0⟩ = ["C", "A"]) ∧
    (StationsSync wrapped_pair ∧
      sq_dist (get_station_coordinates wrapped_pair "A") ⟨-2000000000, -2000000000⟩ =
        sq_dist (get_station_coordinates wrapped_pair "B") ⟨-2000000000, -2000000000⟩ ∧
      (get_station_coordinates wrapped_pair "A").y <
        (get_station_coordinates wrapped_pair "B").y ∧
      distance_between (get_station_coordinates wrapped_pair "A")
        ⟨-2000000000, -2000000000⟩ = 294967296 ∧
      distance_between (get_station_coordinates wrapped_pair "B")
        ⟨-2000000000, -2000000000⟩ = -2147483648 ∧
      stations_closest_to wrapped_pair ⟨-2000000000, -2000000000⟩ = ["B", "A"]) := by
  have hrun : run Datastructures.empty moved_entry_ops = some moved_entry := by decide
  exact ⟨⟨hrun, reachable_run _ _ _ Reach.init hrun, by decide, by decide, by decide,
    by decide, by decide⟩,
    ⟨reach_sync _ reach_wrapped_pair, by decide, by decide, by decide, by decide, by decide⟩⟩

/-- C7 (amended): in a state whose coordinate index is in sync with the store,
of two stations at the same Euclidean distance from the point that both appear
in stations_closest_to(point) and whose coordinate differences from the point
are values of `int` (the subtractions do not overflow), the one listed first
has the smaller y, or the same y and the lexicographically smaller id. -/
theorem closest_tie_break (s : Datastructures) (h : StationsSync s) (xy : Coord) :
    (stations_closest_to s xy).Pairwise (fun a b =>
      DiffFits (get_station_coordinates s a) xy → DiffFits (get_station_coordinates s b) xy →
      sq_dist (get_station_coordinates s a) xy = sq_dist (get_station_coordinates s b) xy →
        (get_station_coordinates s a).y < (get_station_coordinates s b).y ∨
        ((get_station_coordinates s a).y = (get_station_coordinates s b).y ∧ a < b)) := by
  have hpw := ranked_pairwise _ (build_sorted_ids_sorted s.station_ids_to_coords xy)
  rw [stations_closest_to_eq, List.pairwise_map]
  refine List.Pairwise.imp_of_mem ?_ (hpw.sublist (List.take_sublist 3 _))
  intro a b ha hb hab hfa hfb hsq
  obtain ⟨_, ha1, ha2⟩ := ranked_key_of_mem s h xy a (List.mem_of_mem_take ha)
  obtain ⟨_, hb1, hb2⟩ := ranked_key_of_mem s h xy b (List.mem_of_mem_take hb)
  have hd : a.1 = b.1 := by
    rw [ha1, hb1, distance_between_of_fits _ _ hfa, distance_between_of_fits _ _ hfb, hsq]
  rw [← ha2, ← hb2]
  rcases rank_lt_cases a b hab with hlt | ⟨_, hcase⟩
  · exact absurd hd (ne_of_lt hlt)
  · exact hcase

theorem closest_tie_break_witness :
    StationsSync ring ∧
    (stations_closest_to ring ⟨0, 0⟩).Pairwise (fun a b =>
      DiffFits (get_station_coordinates ring a) ⟨0, 0⟩ →
      DiffFits (get_station_coordinates ring b) ⟨0, 0⟩ →
      sq_dist (get_station_coordinates ring a) ⟨0, 0⟩ =
          sq_dist (get_station_coordinates ring b) ⟨0, 0⟩ →
        (get_station_coordinates ring a).y < (get_station_coordinates ring b).y ∨
        ((get_station_coordinates ring a).y = (get_station_coordinates ring b).y ∧ a < b)) :=
  ⟨reach_sync ring reach_ring, closest_tie_break ring (reach_sync ring reach_ring) ⟨0, 0⟩⟩

theorem closest_tie_ring :
    DiffFits (get_station_coordinates ring "B") ⟨0, 0⟩ ∧
    DiffFits (get_station_coordinates ring "A") ⟨0, 0⟩ ∧
    sq_dist (get_station_coordinates ring "B") ⟨0, 0⟩ =
      sq_dist (get_station_coordinates ring "A") ⟨0, 0⟩ ∧
    (get_station_coordinates ring "B").y < (get_station_coordinates ring "A").y := by
  refine ⟨?_, ?_, by decide, by decide⟩ <;> simp only [DiffFits] <;> decide

theorem closest_ring : stations_closest_to ring ⟨0, 0⟩ = ["C", "B", "A"] := by decide

/-- C8 (counterexample): with two live stations on one coordinate,
stations_closest_to returns a single id although two stations are live. -/
theorem closest_misses_live_station :
    Reachable same_coord ∧ station_count same_coord = 2 ∧
    stations_closest_to same_coord ⟨0, 0⟩ = ["A"] ∧
    (stations_closest_to same_coord ⟨0, 0⟩).length ≠ min 3 (station_count same_coord) := by
  refine ⟨?_, by decide, by decide, by decide⟩
  exact Reach.step _ (.add_station "B" "b" ⟨0, 0⟩) _
    (Reach.step _ (.add_station "A" "a" ⟨0, 0⟩) _ Reach.init trivial rfl) trivial rfl

/-- C8 (amended): in every state stations_closest_to(point) returns at most 3
ids; in every state reached from the empty registry by public operations that
never put a station on a coordinate held by another live station, it returns
min(3, station_count()) ids, none repeated, each of a live station, and all
live stations when fewer than 3 are live. -/
theorem closest_at_most_three (s : Datastructures) (xy : Coord) :
    (stations_closest_to s xy).length ≤ 3 ∧
    (Reach CollisionFree s →
      (stations_closest_to s xy).length = min 3 (station_count s) ∧
      (stations_closest_to s xy).Nodup ∧
      (∀ id ∈ stations_closest_to s xy, id ∈ all_stations s) ∧
      (station_count s < 3 → ∀ id ∈ all_stations s, id ∈ stations_closest_to s xy)) := by
  rw [stations_closest_to_eq, List.map_take]
  refine ⟨by rw [List.length_take]; omega, ?_⟩
  intro h
  have hs := reach_sync s h
  have hperm := ranked_ids_perm s hs xy
  have hlen : ((ranked (build_sorted_ids s.station_ids_to_coords xy)).map
      (fun x => x.2.2)).length = station_count s := by
    rw [hperm.length_eq]; simp [all_stations, station_count]
  have hnd : ((ranked (build_sorted_ids s.station_ids_to_coords xy)).map
      (fun x => x.2.2)).Nodup := hperm.nodup_iff.2 hs.ids_nodup
  refine ⟨?_, ?_, ?_, ?_⟩
  · rw [List.length_take, hlen]
  · exact hnd.sublist (List.take_sublist 3 _)
  · intro id hid
    exact hperm.mem_iff.1 (List.mem_of_mem_take hid)
  · intro hlt id hid
    rw [List.take_of_length_le (by omega)]
    exact hperm.mem_iff.2 hid

theorem closest_at_most_three_witness :
    Reach CollisionFree ring ∧
    (stations_closest_to ring ⟨0, 0⟩).length ≤ 3 ∧
    (stations_closest_to ring ⟨0, 0⟩).length = min 3 (station_count ring) ∧
    (stations_closest_to ring ⟨0, 0⟩).Nodup ∧
    (∀ id ∈ stations_closest_to ring ⟨0, 0⟩, id ∈ all_stations ring) ∧
    (station_count ring < 3 →
      ∀ id ∈ all_stations ring, id ∈ stations_closest_to ring ⟨0, 0⟩) :=
  ⟨reach_ring, (closest_at_most_three ring ⟨0, 0⟩).1,
    (closest_at_most_three ring ⟨0, 0⟩).2 reach_ring⟩

/-! ## The indices list the live stations -/

theorem names_ids_perm (s : Datastructures) (h : NamesInSync s) :
    (s.station_ids_to_names.map Prod.snd).Perm (s.stations_to_ids.map Prod.fst) := by
  have hn : (s.station_ids_to_names.map Prod.snd).Nodup := by
    refine List.Nodup.map_on ?_ h.names_nodup
    rintro ⟨c1, i1⟩ h1 ⟨c2, i2⟩ h2 (e : i1 = i2)
    subst e
    obtain ⟨st1, hst1, hc1⟩ := (h.names_mem _ _).1 h1
    obtain ⟨st2, hst2, hc2⟩ := (h.names_mem _ _).1 h2
    have := eq_of_mem_of_nodup_keys h.ids_nodup hst1 hst2
    rw [← hc1, ← hc2, this]
  rw [List.perm_ext_iff_of_nodup hn h.ids_nodup]
  intro i
  simp only [List.mem_map, Prod.exists, exists_eq_right, exists_and_right]
  constructor
  · rintro ⟨c, hc⟩
    obtain ⟨st, hst, _⟩ := (h.names_mem _ _).1 hc
    exact ⟨st, hst⟩
  · rintro ⟨st, hst⟩
    exact ⟨st.name, (h.names_mem _ _).2 ⟨st, hst, rfl⟩⟩

theorem names_congr (s t : Datastructures) (h1 : t.stations_to_ids = s.stations_to_ids)
    (h2 : t.station_ids_to_names = s.station_ids_to_names) (h : NamesInSync s) :
    NamesInSync t where
  ids_nodup := by rw [h1]; exact h.ids_nodup
  names_nodup := by rw [h2]; exact h.names_nodup
  names_mem := by rw [h1, h2]; exact h.names_mem

theorem names_modify (s t : Datastructures) (id : StationID) (f : Station → Station)
    (h1 : t.stations_to_ids = umap_modify s.stations_to_ids id f)
    (h2 : t.station_ids_to_names = s.station_ids_to_names)
    (hname : ∀ st, (f st).name = st.name) (h : NamesInSync s) :
    NamesInSync t where
  ids_nodup := by rw [h1, keys_umap_modify]; exact h.ids_nodup
  names_nodup := by rw [h2]; exact h.names_nodup
  names_mem := by
    intro n i
    rw [h1, h2, h.names_mem]
    constructor
    · rintro ⟨st, hst, hco⟩
      refine ⟨_, (mem_umap_modify _ _ _ _ _).2 ⟨st, hst, rfl⟩, ?_⟩
      by_cases hk : i = id <;> simp [hk, hname, hco]
    · rintro ⟨st', hst', hco⟩
      obtain ⟨st, hst, rfl⟩ := (mem_umap_modify _ _ _ _ _).1 hst'
      refine ⟨st, hst, ?_⟩
      by_cases hk : i = id <;> simp [hk, hname] at hco <;> exact hco

theorem names_add_station (s : Datastructures) (id : StationID) (name : Name) (xy : Coord)
    (h : NamesInSync s) : NamesInSync (add_station s id name xy).2 := by
  cases hf : umap_find s.stations_to_ids id with
  | some st => simpa [add_station, hf] using h
  | none =>
    rw [add_station_new s id name xy hf]
    have hid : id ∉ s.stations_to_ids.map Prod.fst := (umap_find_eq_none _ _).1 hf
    have hS := strictTotal_pair_lt strictTotal_str_lt strictTotal_str_lt
    refine ⟨?_, nodup_set_insert hS _ _ h.names_nodup, ?_⟩
    · show ((s.stations_to_ids ++ [_]).map Prod.fst).Nodup
      rw [List.map_append, List.nodup_append]
      refine ⟨h.ids_nodup, by simp, ?_⟩
      intro a ha hb
      simp only [List.map_cons, List.map_nil, List.mem_singleton] at hb
      exact hid (hb ▸ ha)
    · intro n i
      show (n, i) ∈ (set_insert (pair_lt str_lt str_lt) s.station_ids_to_names (name, id)).1 ↔
        ∃ st, (i, st) ∈ s.stations_to_ids ++ [_] ∧ st.name = n
      rw [mem_set_insert hS, h.names_mem]
      constructor
      · rintro (he | ⟨st, hst, hco⟩)
        · obtain ⟨rfl, rfl⟩ := Prod.mk.inj he
          exact ⟨_, List.mem_append_right _ (List.mem_singleton.2 rfl), rfl⟩
        · exact ⟨st, List.mem_append_left _ hst, hco⟩
      · rintro ⟨st, hst, hco⟩
        rcases List.mem_append.1 hst with hst | hst
        · exact Or.inr ⟨st, hst, hco⟩
        · obtain ⟨rfl, rfl⟩ := Prod.mk.inj (List.mem_singleton.1 hst)
          exact Or.inl (by rw [← hco])

theorem names_remove_station (s : Datastructures) (id : StationID) (h : NamesInSync s) :
    NamesInSync (remove_station s id).2 := by
  cases hf : umap_find s.stations_to_ids id with
  | none => simpa [remove_station, hf] using h
  | some st =>
    have hst : (id, st) ∈ s.stations_to_ids := umap_find_mem _ _ _ hf
    have hS := strictTotal_pair_lt strictTotal_str_lt strictTotal_str_lt
    simp only [remove_station, hf]
    refine ⟨nodup_keys_filter _ _ h.ids_nodup, h.names_nodup.sublist (List.filter_sublist _), ?_⟩
    intro n i
    show (n, i) ∈ set_erase (pair_lt str_lt str_lt) s.station_ids_to_names (st.name, id) ↔
      ∃ st', (i, st') ∈ umap_erase s.stations_to_ids id ∧ st'.name = n
    rw [mem_set_erase hS, h.names_mem]
    constructor
    · rintro ⟨⟨st', hst', hco⟩, hne⟩
      refine ⟨st', (mem_umap_erase _ _ _).2 ⟨hst', ?_⟩, hco⟩
      rintro rfl
      have := eq_of_mem_of_nodup_keys h.ids_nodup hst' hst
      exact hne (by rw [← hco, this])
    · rintro ⟨st', hst', hco⟩
      obtain ⟨hm, hne⟩ := (mem_umap_erase _ _ _).1 hst'
      exact ⟨⟨st', hm, hco⟩, fun e => hne (Prod.mk.inj e).2⟩

/-- The name index of every reachable state is in sync with the store. -/
theorem reach_names (s : Datastructures) (h : Reachable s) : NamesInSync s := by
  induction h with
  | init => exact ⟨by simp [Datastructures.empty], by simp [Datastructures.empty],
      by simp [Datastructures.empty]⟩
  | step s op t _ _ hstep ih =>
    cases op with
    | clear_all =>
      simp only [step, Option.some.injEq] at hstep
      subst hstep
      exact ⟨by simp [clear_all], by simp [clear_all], by simp [clear_all]⟩
    | add_station id name xy =>
      simp only [step, Option.some.injEq] at hstep
      subst hstep; exact names_add_station s id name xy ih
    | change_station_coord id newcoord =>
      simp only [step, Option.map_eq_some'] at hstep
      obtain ⟨res, hres, rfl⟩ := hstep
      cases hf : umap_find s.stations_to_ids id with
      | none =>
        simp only [change_station_coord, hf, Option.some.injEq] at hres
        rw [← hres]; exact ih
      | some st =>
        cases hm : map_find Coord.lt s.station_ids_to_coords st.coord with
        | none => simp [change_station_coord, hf, map_extract, hm] at hres
        | some e =>
          rw [change_station_coord_live s id newcoord st e hf hm, Option.some.injEq] at hres
          rw [← hres]
          exact names_modify s _ id (fun st => { st with coord := newcoord }) rfl rfl
            (fun _ => rfl) ih
    | add_departure stationid trainid time =>
      simp only [step, Option.some.injEq] at hstep
      subst hstep
      cases hf : umap_find s.stations_to_ids stationid with
      | none => simpa [add_departure, hf] using ih
      | some st =>
        simp only [add_departure, hf]
        exact names_modify s _ stationid
          (fun x => { x with
            departures := (set_insert (pair_lt nat_lt str_lt) st.departures (time, trainid)).1 })
          rfl rfl (fun _ => rfl) ih
    | remove_departure stationid trainid time =>
      simp only [step, Option.some.injEq] at hstep
      subst hstep
      cases hf : umap_find s.stations_to_ids stationid with
      | none => simpa [remove_departure, hf] using ih
      | some st =>
        cases hd : set_find (pair_lt nat_lt str_lt) st.departures (time, trainid) with
        | none => simpa [remove_departure, hf, hd] using ih
        | some d =>
          simp only [remove_departure, hf, hd]
          exact names_modify s _ stationid
            (fun x => { x with
              departures := set_erase (pair_lt nat_lt str_lt) x.departures d })
            rfl rfl (fun _ => rfl) ih
    | add_region id name coords =>
      simp only [step, Option.some.injEq] at hstep
      subst hstep; exact names_congr s _ rfl rfl ih
    | add_subregion_to_region id parentid =>
      simp only [step, Option.some.injEq] at hstep
      subst hstep
      rcases add_subregion_to_region_cases s id parentid with e | ⟨_, _, _, _, e⟩
      · rw [e]; exact ih
      · rw [e]; exact names_congr s _ rfl rfl ih
    | add_station_to_region id parentid =>
      simp only [step, Option.some.injEq] at hstep
      subst hstep
      cases hf : umap_find s.stations_to_ids id with
      | none => simpa [add_station_to_region, hf] using ih
      | some st =>
        cases hr : umap_find s.regions_to_ids parentid with
        | none => simpa [add_station_to_region, hf, hr] using ih
        | some r =>
          by_cases hl : st.location = NO_REGION
          · simp only [add_station_to_region, hf, hr, hl, ne_eq, not_true_eq_false, if_false]
            exact names_modify s _ id (fun x => { x with location := parentid }) rfl rfl
              (fun _ => rfl) ih
          · simpa [add_station_to_region, hf, hr, hl] using ih
    | remove_station id =>
      simp only [step, Option.some.injEq] at hstep
      subst hstep; exact names_remove_station s id ih

/-- C3 (counterexample): after two stations are added on one coordinate, the
second is live but absent from the coordinate index. -/
theorem coord_index_misses_station :
    Reachable same_coord ∧ "B" ∈ all_stations same_coord ∧
    "B" ∉ stations_distance_increasing same_coord := by
  refine ⟨?_, by decide, by decide⟩
  exact Reach.step _ (.add_station "B" "b" ⟨0, 0⟩) _
    (Reach.step _ (.add_station "A" "a" ⟨0, 0⟩) _ Reach.init trivial rfl) trivial rfl

/-- C3 (amended): in every state reachable from the empty registry through the
public operations, the name index contains exactly the live stations: the ids
of stations_alphabetically() are a rearrangement of those of all_stations(),
each id occurring once. The coordinate index does so as well, with
stations_distance_increasing() a rearrangement of all_stations(), when the
state was reached by operations that never put a station on a coordinate held
by another live station. -/
theorem indices_list_live_stations (s : Datastructures) (h : Reachable s) :
    (stations_alphabetically s).Perm (all_stations s) ∧
    (all_stations s).Nodup ∧
    (Reach CollisionFree s → (stations_distance_increasing s).Perm (all_stations s)) :=
  ⟨names_ids_perm s (reach_names s h), (reach_names s h).ids_nodup,
    fun hc => sync_coord_ids_perm s (reach_sync s hc)⟩

theorem reach_two_apart : Reach CollisionFree two_apart :=
  Reach.step _ (.add_station "B" "b" ⟨1, 1⟩) _
    (Reach.step _ (.add_station "A" "a" ⟨0, 0⟩) _ Reach.init
      (by simp only [CollisionFree]; decide) rfl)
    (by simp only [CollisionFree]; decide) rfl

theorem indices_list_live_stations_witness :
    Reachable two_apart ∧ Reach CollisionFree two_apart ∧
    (stations_alphabetically two_apart).Perm (all_stations two_apart) ∧
    (all_stations two_apart).Nodup ∧
    (stations_distance_increasing two_apart).Perm (all_stations two_apart) :=
  ⟨reach_mono _ _ (fun _ _ _ => trivial) two_apart reach_two_apart, reach_two_apart,
    (indices_list_live_stations two_apart
      (reach_mono _ _ (fun _ _ _ => trivial) two_apart reach_two_apart)).1,
    (indices_list_live_stations two_apart
      (reach_mono _ _ (fun _ _ _ => trivial) two_apart reach_two_apart)).2.1,
    (indices_list_live_stations two_apart
      (reach_mono _ _ (fun _ _ _ => trivial) two_apart reach_two_apart)).2.2 reach_two_apart⟩

/-! ## A second parent is refused -/

/-- C11: when region `child` already has the parent `p`, the call
add_subregion_to_region(child, q) returns false for every `q` and leaves the
state as it was, so the parent of `child` is still `p` and the children lists
of `p` and `q` are unchanged. -/
theorem add_subregion_to_region_has_parent (s : Datastructures) (child p q : RegionID)
    (h : ParentOf s child p) :
    add_subregion_to_region s child q = (false, s) ∧
    ParentOf (add_subregion_to_region s child q).2 child p ∧
    children_of (add_subregion_to_region s child q).2 p = children_of s p ∧
    children_of (add_subregion_to_region s child q).2 q = children_of s q := by
  obtain ⟨region, hreg, hpar⟩ := h
  have he : add_subregion_to_region s child q = (false, s) := by
    cases hq : umap_find s.regions_to_ids q with
    | none => simp [add_subregion_to_region, hreg, hq]
    | some par => simp [add_subregion_to_region, hreg, hq, hpar]
  rw [he]
  exact ⟨rfl, ⟨region, hreg, hpar⟩, rfl, rfl⟩

theorem add_subregion_to_region_has_parent_witness :
    ParentOf family 1 2 ∧
    add_subregion_to_region family 1 4 = (false, family) ∧
    ParentOf (add_subregion_to_region family 1 4).2 1 2 ∧
    children_of (add_subregion_to_region family 1 4).2 2 = children_of family 2 ∧
    children_of (add_subregion_to_region family 1 4).2 4 = children_of family 4 :=
  ⟨(parentOf_iff _ _ _).2 (by decide),
    add_subregion_to_region_has_parent family 1 2 4 ((parentOf_iff _ _ _).2 (by decide))⟩

/-! ## A duplicate station id is refused -/

/-- C20: for an id that is already a live station, add_station returns false
for any name and coordinate, and the station count and the stored name and
coordinate of the id are unchanged. -/
theorem add_station_duplicate_id (s : Datastructures) (id : StationID) (name : Name)
    (coord : Coord) (h : id ∈ all_stations s) :
    (add_station s id name coord).1 = false ∧
    station_count (add_station s id name coord).2 = station_count s ∧
    get_station_name (add_station s id name coord).2 id = get_station_name s id ∧
    get_station_coordinates (add_station s id name coord).2 id =
      get_station_coordinates s id := by
  obtain ⟨st, hst⟩ := umap_find_isSome s.stations_to_ids id (by simpa [all_stations] using h)
  have he : add_station s id name coord = (false, s) := by simp [add_station, hst]
  rw [he]
  exact ⟨rfl, rfl, rfl, rfl⟩

theorem add_station_duplicate_id_witness :
    "A" ∈ all_stations two_apart ∧
    (add_station two_apart "A" "other" ⟨9, 9⟩).1 = false ∧
    station_count (add_station two_apart "A" "other" ⟨9, 9⟩).2 = station_count two_apart ∧
    get_station_name (add_station two_apart "A" "other" ⟨9, 9⟩).2 "A" =
      get_station_name two_apart "A" ∧
    get_station_coordinates (add_station two_apart "A" "other" ⟨9, 9⟩).2 "A" =
      get_station_coordinates two_apart "A" :=
  ⟨by decide, add_station_duplicate_id two_apart "A" "other" ⟨9, 9⟩ (by decide)⟩

/-! ## A refused operation changes nothing -/

theorem umap_modify_eq_self {K V : Type} [DecidableEq K] (m : List (K × V)) (k : K)
    (f : V → V) (v : V) (hn : (m.map Prod.fst).Nodup) (hv : umap_find m k = some v)
    (hf : f v = v) : umap_modify m k f = m := by
  have hmem := umap_find_mem m k v hv
  unfold umap_modify
  conv_rhs => rw [← List.map_id m]
  apply List.map_congr_left
  intro e he
  by_cases hk : e.1 = k
  · have : e.2 = v := eq_of_mem_of_nodup_keys hn (by rw [← hk]; exact he) hmem
    simp only [hk, if_true, id]
    exact Prod.ext hk.symm (by simp [this, hf])
  · simp [hk]

theorem add_station_false (s : Datastructures) (id : StationID) (name : Name) (xy : Coord)
    (h : (add_station s id name xy).1 = false) : (add_station s id name xy).2 = s := by
  cases hf : umap_find s.stations_to_ids id with
  | some st => simp [add_station, hf]
  | none =>
    rw [add_station_new s id name xy hf] at h
    exact Bool.noConfusion h

theorem remove_station_false (s : Datastructures) (id : StationID)
    (h : (remove_station s id).1 = false) : (remove_station s id).2 = s := by
  cases hf : umap_find s.stations_to_ids id with
  | none => simp [remove_station, hf]
  | some st => simp [remove_station, hf] at h

theorem change_station_coord_false (s t : Datastructures) (id : StationID) (newcoord : Coord)
    (h : change_station_coord s id newcoord = some (false, t)) : t = s := by
  cases hf : umap_find s.stations_to_ids id with
  | none =>
    simp only [change_station_coord, hf, Option.some.injEq, Prod.mk.injEq] at h
    exact h.2.symm
  | some st =>
    cases hm : map_find Coord.lt s.station_ids_to_coords st.coord with
    | none => simp [change_station_coord, hf, map_extract, hm] at h
    | some e =>
      rw [change_station_coord_live s id newcoord st e hf hm] at h
      simp at h

theorem add_departure_false (s : Datastructures) (stationid : StationID) (trainid : TrainID)
    (time : Time) (hn : (s.stations_to_ids.map Prod.fst).Nodup)
    (h : (add_departure s stationid trainid time).1 = false) :
    (add_departure s stationid trainid time).2 = s := by
  cases hf : umap_find s.stations_to_ids stationid with
  | none => simp [add_departure, hf]
  | some st =>
    simp only [add_departure, hf] at h ⊢
    have hfound : (set_find (pair_lt nat_lt str_lt) st.departures (time, trainid)).isSome =
        true := by
      by_contra hcon
      simp [set_insert, hcon] at h
    have hm : umap_modify s.stations_to_ids stationid (fun x => { x with
        departures :=
          (set_insert (pair_lt nat_lt str_lt) st.departures (time, trainid)).1 }) =
        s.stations_to_ids := by
      apply umap_modify_eq_self _ _ _ st hn hf
      simp [set_insert, hfound]
    rw [hm]

theorem remove_departure_false (s : Datastructures) (stationid : StationID)
    (trainid : TrainID) (time : Time) (h : (remove_departure s stationid trainid time).1 = false) :
    (remove_departure s stationid trainid time).2 = s := by
  cases hf : umap_find s.stations_to_ids stationid with
  | none => simp [remove_departure, hf]
  | some st =>
    cases hd : set_find (pair_lt nat_lt str_lt) st.departures (time, trainid) with
    | none => simp [remove_departure, hf, hd]
    | some d => simp [remove_departure, hf, hd] at h

theorem add_region_false (s : Datastructures) (id : RegionID) (name : Name)
    (coords : List Coord) (h : (add_region s id name coords).1 = false) :
    (add_region s id name coords).2 = s := by
  simp only [add_region, umap_insert] at h ⊢
  by_cases hk : (umap_find s.regions_to_ids id).isSome = true
  · simp [hk]
  · simp [hk] at h

theorem add_subregion_to_region_false (s : Datastructures) (id parentid : RegionID)
    (h : (add_subregion_to_region s id parentid).1 = false) :
    (add_subregion_to_region s id parentid).2 = s := by
  rcases add_subregion_to_region_cases s id parentid with e | ⟨_, _, _, _, e⟩
  · rw [e]
  · rw [e] at h; exact Bool.noConfusion h

theorem add_station_to_region_false (s : Datastructures) (id : StationID)
    (parentid : RegionID) (h : (add_station_to_region s id parentid).1 = false) :
    (add_station_to_region s id parentid).2 = s := by
  cases hf : umap_find s.stations_to_ids id with
  | none => simp [add_station_to_region, hf]
  | some st =>
    cases hr : umap_find s.regions_to_ids parentid with
    | none => simp [add_station_to_region, hf, hr]
    | some r =>
      by_cases hl : st.location = NO_REGION
      · simp [add_station_to_region, hf, hr, hl] at h
      · simp [add_station_to_region, hf, hr, hl]

/-- C19: in a state whose station store has one entry per id, whenever one of
add_station, remove_station, change_station_coord, add_departure,
remove_departure, add_region, add_subregion_to_region or add_station_to_region
returns false, the state after the call is the state before it. -/
theorem false_leaves_state (s : Datastructures) (hn : (s.stations_to_ids.map Prod.fst).Nodup) :
    (∀ id name xy, (add_station s id name xy).1 = false → (add_station s id name xy).2 = s) ∧
    (∀ id, (remove_station s id).1 = false → (remove_station s id).2 = s) ∧
    (∀ id newcoord t, change_station_coord s id newcoord = some (false, t) → t = s) ∧
    (∀ stationid trainid time, (add_departure s stationid trainid time).1 = false →
      (add_departure s stationid trainid time).2 = s) ∧
    (∀ stationid trainid time, (remove_departure s stationid trainid time).1 = false →
      (remove_departure s stationid trainid time).2 = s) ∧
    (∀ id name coords, (add_region s id name coords).1 = false →
      (add_region s id name coords).2 = s) ∧
    (∀ id parentid, (add_subregion_to_region s id parentid).1 = false →
      (add_subregion_to_region s id parentid).2 = s) ∧
    (∀ id parentid, (add_station_to_region s id parentid).1 = false →
      (add_station_to_region s id parentid).2 = s) :=
  ⟨add_station_false s, remove_station_false s,
    fun id newcoord t h => change_station_coord_false s t id newcoord h,
    fun stationid trainid time h => add_departure_false s stationid trainid time hn h,
    remove_departure_false s, add_region_false s, add_subregion_to_region_false s,
    add_station_to_region_false s⟩

theorem false_leaves_state_witness :
    (with_departure.stations_to_ids.map Prod.fst).Nodup ∧
    (∀ id name xy, (add_station with_departure id name xy).1 = false →
      (add_station with_departure id name xy).2 = with_departure) ∧
    (∀ id, (remove_station with_departure id).1 = false →
      (remove_station with_departure id).2 = with_departure) ∧
    (∀ id newcoord t, change_station_coord with_departure id newcoord = some (false, t) →
      t = with_departure) ∧
    (∀ stationid trainid time, (add_departure with_departure stationid trainid time).1 = false →
      (add_departure with_departure stationid trainid time).2 = with_departure) ∧
    (∀ stationid trainid time,
      (remove_departure with_departure stationid trainid time).1 = false →
      (remove_departure with_departure stationid trainid time).2 = with_departure) ∧
    (∀ id name coords, (add_region with_departure id name coords).1 = false →
      (add_region with_departure id name coords).2 = with_departure) ∧
    (∀ id parentid, (add_subregion_to_region with_departure id parentid).1 = false →
      (add_subregion_to_region with_departure id parentid).2 = with_departure) ∧
    (∀ id parentid, (add_station_to_region with_departure id parentid).1 = false →
      (add_station_to_region with_departure id parentid).2 = with_departure) :=
  ⟨by decide, false_leaves_state with_departure (by decide)⟩

theorem refused_departure_unchanged :
    (add_departure with_departure "A" "T1" 100).1 = false ∧
    (add_departure with_departure "A" "T1" 100).2 = with_departure := by
  constructor <;> decide

/-! ## Adding a departure -/

theorem departures_of_eq (s : Datastructures) (id : StationID) (st : Station)
    (h : umap_find s.stations_to_ids id = some st) : departures_of s id = st.departures := by
  simp [departures_of, h]

/-- C18: add_departure returns false exactly when the station is unknown or
the pair (time, train) is already recorded for it; when it returns true the
recorded pairs of the station are the earlier ones and the new pair; and a
ledger without a repeated pair stays so. -/
theorem add_departure_recorded (s : Datastructures) (stationid : StationID)
    (trainid : TrainID) (time : Time) :
    ((add_departure s stationid trainid time).1 = false ↔
      (stationid ∉ all_stations s ∨ (time, trainid) ∈ departures_of s stationid)) ∧
    ((add_departure s stationid trainid time).1 = true →
      (departures_of (add_departure s stationid trainid time).2 stationid).Perm
        ((time, trainid) :: departures_of s stationid)) ∧
    ((departures_of s stationid).Nodup →
      (departures_of (add_departure s stationid trainid time).2 stationid).Nodup) := by
  have hP := strictTotal_pair_lt strictTotal_nat_lt strictTotal_str_lt
  cases hf : umap_find s.stations_to_ids stationid with
  | none =>
    have hno : stationid ∉ all_stations s := by
      simpa [all_stations] using (umap_find_eq_none _ _).1 hf
    refine ⟨?_, ?_, ?_⟩
    · simp [add_departure, hf, hno]
    · simp [add_departure, hf]
    · simp [add_departure, hf, departures_of]
  | some st =>
    have hlive : stationid ∈ all_stations s :=
      List.mem_map.2 ⟨(stationid, st), umap_find_mem _ _ _ hf, rfl⟩
    have hdep : departures_of s stationid = st.departures := departures_of_eq s _ st hf
    have hafter : departures_of (add_departure s stationid trainid time).2 stationid =
        (set_insert (pair_lt nat_lt str_lt) st.departures (time, trainid)).1 := by
      simp [add_departure, hf, departures_of, umap_find_umap_modify]
    have hflag : (add_departure s stationid trainid time).1 =
        (set_insert (pair_lt nat_lt str_lt) st.departures (time, trainid)).2 := by
      simp [add_departure, hf]
    rw [hafter, hflag, hdep]
    by_cases hin : (time, trainid) ∈ st.departures
    · have hfound : (set_find (pair_lt nat_lt str_lt) st.departures (time, trainid)).isSome =
          true := by
        cases hs : set_find (pair_lt nat_lt str_lt) st.departures (time, trainid) with
        | none => exact absurd hin ((set_find_eq_none hP _ _).1 hs)
        | some _ => rfl
      refine ⟨?_, ?_, ?_⟩
      · simp [set_insert, hfound, hin]
      · simp [set_insert, hfound]
      · intro hnd; rw [set_insert_of_mem hP _ _ hin]; exact hnd
    · have hnone := (set_find_eq_none hP st.departures (time, trainid)).2 hin
      refine ⟨?_, ?_, ?_⟩
      · simp [set_insert, hnone, hin, hlive]
      · intro _; exact set_insert_perm hP _ _ hin
      · intro hnd; exact nodup_set_insert hP _ _ hnd

theorem add_departure_recorded_witness :
    (add_departure with_departure "A" "T2" 100).1 = true ∧
    (departures_of with_departure "A").Nodup ∧
    (departures_of (add_departure with_departure "A" "T2" 100).2 "A").Perm
      ((100, "T2") :: departures_of with_departure "A") ∧
    (departures_of (add_departure with_departure "A" "T2" 100).2 "A").Nodup :=
  ⟨by decide, by decide,
    (add_departure_recorded with_departure "A" "T2" 100).2.1 (by decide),
    (add_departure_recorded with_departure "A" "T2" 100).2.2 (by decide)⟩

theorem add_departure_same_time_other_train :
    (add_departure with_departure "A" "T2" 100).1 = true ∧
    departures_of (add_departure with_departure "A" "T2" 100).2 "A" =
      [(100, "T1"), (100, "T2")] ∧
    (add_departure with_departure "A" "T1" 100).1 = false := by
  refine ⟨by decide, by decide, by decide⟩

/-! ## The ordered containers stay ordered -/

theorem map_insert_sorted {K V : Type} {lt : K → K → Bool} (h : StrictTotal lt)
    (m : List (K × V)) (k : K) (v : V)
    (hm : m.Pairwise (fun e f => lt e.1 f.1 = true)) :
    (map_insert lt m k v).1.Pairwise (fun e f => lt e.1 f.1 = true) := by
  by_cases hk : k ∈ m.map Prod.fst
  · rw [map_insert_of_mem h m k v hk]; exact hm
  · have hf := (map_find_eq_none h m k).2 hk
    simp only [map_insert, hf]
    refine ordered_insert_pairwise (key_lt lt) (fun a b c h1 h2 => h.trans _ _ _ h1 h2)
      (k, v) m hm ?_
    intro b hb hab
    by_contra hba
    have : k = b.1 := h.total k b.1 hab (by simpa [key_lt] using hba)
    exact hk (List.mem_map.2 ⟨b, hb, this.symm⟩)

theorem oc_empty : OrderedContainers {} where
  coords_sorted := List.Pairwise.nil
  names_sorted := List.Pairwise.nil
  departures_sorted := by simp

theorem oc_congr (s t : Datastructures) (h1 : t.stations_to_ids = s.stations_to_ids)
    (h2 : t.station_ids_to_coords = s.station_ids_to_coords)
    (h3 : t.station_ids_to_names = s.station_ids_to_names) (h : OrderedContainers s) :
    OrderedContainers t where
  coords_sorted := by rw [h2]; exact h.coords_sorted
  names_sorted := by rw [h3]; exact h.names_sorted
  departures_sorted := by rw [h1]; exact h.departures_sorted

theorem oc_modify (s t : Datastructures) (id : StationID) (f : Station → Station)
    (h1 : t.stations_to_ids = umap_modify s.stations_to_ids id f)
    (h3 : t.station_ids_to_names = s.station_ids_to_names)
    (h2 : t.station_ids_to_coords.Pairwise (fun e f => Coord.lt e.1 f.1 = true))
    (hf : ∀ v, v.departures.Pairwise (fun a b => pair_lt nat_lt str_lt a b = true) →
      (f v).departures.Pairwise (fun a b => pair_lt nat_lt str_lt a b = true))
    (h : OrderedContainers s) : OrderedContainers t where
  coords_sorted := h2
  names_sorted := by rw [h3]; exact h.names_sorted
  departures_sorted := by
    rw [h1]
    rintro ⟨i, v'⟩ he
    obtain ⟨v, hv, rfl⟩ := (mem_umap_modify _ _ _ _ _).1 he
    have hs := h.departures_sorted (i, v) hv
    by_cases hk : i = id
    · simp only [hk, if_true]; exact hf v hs
    · simp only [hk, if_false]; exact hs

theorem oc_add_station (s : Datastructures) (id : StationID) (name : Name) (xy : Coord)
    (h : OrderedContainers s) : OrderedContainers (add_station s id name xy).2 := by
  cases hf : umap_find s.stations_to_ids id with
  | some st => simpa [add_station, hf] using h
  | none =>
    rw [add_station_new s id name xy hf]
    refine ⟨map_insert_sorted strictTotal_coord_lt _ _ _ h.coords_sorted,
      set_insert_pairwise (strictTotal_pair_lt strictTotal_str_lt strictTotal_str_lt) _ _
        h.names_sorted, ?_⟩
    intro e he
    rcases List.mem_append.1 he with he | he
    · exact h.departures_sorted e he
    · rw [List.mem_singleton.1 he]; exact List.Pairwise.nil

theorem oc_remove_station (s : Datastructures) (id : StationID) (h : OrderedContainers s) :
    OrderedContainers (remove_station s id).2 := by
  cases hf : umap_find s.stations_to_ids id with
  | none => simpa [remove_station, hf] using h
  | some st =>
    simp only [remove_station, hf]
    refine ⟨h.coords_sorted.sublist (List.filter_sublist _),
      h.names_sorted.sublist (List.filter_sublist _), ?_⟩
    intro e he
    exact h.departures_sorted e ((mem_umap_erase _ _ _).1 he).1

/-- The ordered containers of every reachable state are in comparator order. -/
theorem reach_ordered (s : Datastructures) (h : Reachable s) : OrderedContainers s := by
  have hD := strictTotal_pair_lt strictTotal_nat_lt strictTotal_str_lt
  induction h with
  | init => exact oc_empty
  | step s op t _ _ hstep ih =>
    cases op with
    | clear_all =>
      simp only [step, Option.some.injEq] at hstep
      subst hstep; exact oc_empty
    | add_station id name xy =>
      simp only [step, Option.some.injEq] at hstep
      subst hstep; exact oc_add_station s id name xy ih
    | change_station_coord id newcoord =>
      simp only [step, Option.map_eq_some'] at hstep
      obtain ⟨res, hres, rfl⟩ := hstep
      cases hf : umap_find s.stations_to_ids id with
      | none =>
        simp only [change_station_coord, hf, Option.some.injEq] at hres
        rw [← hres]; exact ih
      | some st =>
        cases hm : map_find Coord.lt s.station_ids_to_coords st.coord with
        | none => simp [change_station_coord, hf, map_extract, hm] at hres
        | some e =>
          rw [change_station_coord_live s id newcoord st e hf hm, Option.some.injEq] at hres
          rw [← hres]
          exact oc_modify s _ id (fun st => { st with coord := newcoord }) rfl rfl
            (map_insert_sorted strictTotal_coord_lt _ _ _
              (ih.coords_sorted.sublist (List.filter_sublist _)))
            (fun _ hv => hv) ih
    | add_departure stationid trainid time =>
      simp only [step, Option.some.injEq] at hstep
      subst hstep
      cases hf : umap_find s.stations_to_ids stationid with
      | none => simpa [add_departure, hf] using ih
      | some st =>
        simp only [add_departure, hf]
        exact oc_modify s _ stationid
          (fun x => { x with
            departures := (set_insert (pair_lt nat_lt str_lt) st.departures (time, trainid)).1 })
          rfl rfl ih.coords_sorted
          (fun _ _ => set_insert_pairwise hD _ _
            (ih.departures_sorted (stationid, st) (umap_find_mem _ _ _ hf))) ih
    | remove_departure stationid trainid time =>
      simp only [step, Option.some.injEq] at hstep
      subst hstep
      cases hf : umap_find s.stations_to_ids stationid with
      | none => simpa [remove_departure, hf] using ih
      | some st =>
        cases hd : set_find (pair_lt nat_lt str_lt) st.departures (time, trainid) with
        | none => simpa [remove_departure, hf, hd] using ih
        | some d =>
          simp only [remove_departure, hf, hd]
          exact oc_modify s _ stationid
            (fun x => { x with
              departures := set_erase (pair_lt nat_lt str_lt) x.departures d })
            rfl rfl ih.coords_sorted
            (fun _ hv => hv.sublist (List.filter_sublist _)) ih
    | add_region id name coords =>
      simp only [step, Option.some.injEq] at hstep
      subst hstep; exact oc_congr s _ rfl rfl rfl ih
    | add_subregion_to_region id parentid =>
      simp only [step, Option.some.injEq] at hstep
      subst hstep
      rcases add_subregion_to_region_cases s id parentid with e | ⟨_, _, _, _, e⟩
      · rw [e]; exact ih
      · rw [e]; exact oc_congr s _ rfl rfl rfl ih
    | add_station_to_region id parentid =>
      simp only [step, Option.some.injEq] at hstep
      subst hstep
      cases hf : umap_find s.stations_to_ids id with
      | none => simpa [add_station_to_region, hf] using ih
      | some st =>
        cases hr : umap_find s.regions_to_ids parentid with
        | none => simpa [add_station_to_region, hf, hr] using ih
        | some r =>
          by_cases hl : st.location = NO_REGION
          · simp only [add_station_to_region, hf, hr, hl, ne_eq, not_true_eq_false, if_false]
            exact oc_modify s _ id (fun x => { x with location := parentid }) rfl rfl
              ih.coords_sorted (fun _ hv => hv) ih
          · simpa [add_station_to_region, hf, hr, hl] using ih
    | remove_station id =>
      simp only [step, Option.some.injEq] at hstep
      subst hstep; exact oc_remove_station s id ih

/-! ## Departures after a given time -/

theorem dropWhile_eq_filter_of_sorted (l : List (Time × TrainID)) (t : Time)
    (hl : l.Pairwise (fun a b => a.1 ≤ b.1)) :
    l.dropWhile (fun departure => !decide (departure.1 ≥ t)) =
      l.filter (fun departure => decide (t ≤ departure.1)) := by
  induction l with
  | nil => rfl
  | cons a rest ih =>
    obtain ⟨ha, hrest⟩ := List.pairwise_cons.1 hl
    by_cases hat : t ≤ a.1
    · have hall : ∀ b ∈ rest, decide (t ≤ b.1) = true := by
        intro b hb
        exact decide_eq_true (le_trans hat (ha b hb))
      simp only [List.dropWhile_cons, ge_iff_le, hat, decide_True, Bool.not_true,
        Bool.false_eq_true, if_false, List.filter_cons, if_true]
      rw [List.filter_eq_self.2 hall]
    · simp only [List.dropWhile_cons, ge_iff_le, hat, decide_False, Bool.not_false, if_true,
        List.filter_cons, Bool.false_eq_true, if_false]
      exact ih hrest

theorem departure_lt_cases (a b : Time × TrainID)
    (h : pair_lt nat_lt str_lt a b = true) :
    a.1 < b.1 ∨ (a.1 = b.1 ∧ a.2 < b.2) := by
  simp only [pair_lt, nat_lt, Bool.or_eq_true, Bool.and_eq_true, decide_eq_true_eq,
    Bool.not_eq_true', decide_eq_false_iff_not, str_lt_iff] at h
  rcases h with h | ⟨h1, h2⟩
  · exact Or.inl h
  · by_cases hlt : a.1 < b.1
    · exact Or.inl hlt
    · exact Or.inr ⟨le_antisymm (not_lt.1 h1) (not_lt.1 hlt), h2⟩

/-- C17: for an unknown station station_departures_after returns the single
pair (NO_TIME, NO_TRAIN); for a known station it returns the recorded pairs
whose time is at least `time`, in the order of the ledger: ascending time and,
for equal times, ascending train id, no pair twice. -/
theorem departures_after_listing (s : Datastructures) (hoc : OrderedContainers s)
    (stationid : StationID) (time : Time) :
    (stationid ∉ all_stations s →
      station_departures_after s stationid time = [(NO_TIME, NO_TRAIN)]) ∧
    (stationid ∈ all_stations s →
      station_departures_after s stationid time =
        (departures_of s stationid).filter (fun d => decide (time ≤ d.1)) ∧
      (∀ d, d ∈ station_departures_after s stationid time ↔
        d ∈ departures_of s stationid ∧ time ≤ d.1) ∧
      (station_departures_after s stationid time).Pairwise
        (fun a b => a.1 < b.1 ∨ (a.1 = b.1 ∧ a.2 < b.2)) ∧
      (station_departures_after s stationid time).Nodup) := by
  constructor
  · intro hno
    have hf : umap_find s.stations_to_ids stationid = none := by
      rw [umap_find_eq_none]; simpa [all_stations] using hno
    simp [station_departures_after, hf]
  · intro hlive
    obtain ⟨st, hst⟩ := umap_find_isSome s.stations_to_ids stationid
      (by simpa [all_stations] using hlive)
    have hsorted := hoc.departures_sorted (stationid, st) (umap_find_mem _ _ _ hst)
    have hord : st.departures.Pairwise (fun a b => a.1 < b.1 ∨ (a.1 = b.1 ∧ a.2 < b.2)) :=
      hsorted.imp (fun {a b} h => departure_lt_cases a b h)
    have hle : st.departures.Pairwise (fun a b => a.1 ≤ b.1) := by
      refine hord.imp ?_
      rintro a b (h | ⟨h, _⟩)
      · exact le_of_lt h
      · exact le_of_eq h
    have heq : station_departures_after s stationid time =
        st.departures.filter (fun d => decide (time ≤ d.1)) := by
      simp only [station_departures_after, hst]
      exact dropWhile_eq_filter_of_sorted st.departures time hle
    have hpw := hord.sublist (List.filter_sublist (p := fun d => decide (time ≤ d.1))
      st.departures)
    rw [heq, departures_of_eq s stationid st hst]
    refine ⟨rfl, ?_, hpw, ?_⟩
    · intro d; simp [List.mem_filter]
    · refine hpw.imp ?_
      rintro a b (h | ⟨_, h⟩) e
      · rw [e] at h; exact lt_irrefl _ h
      · rw [e] at h; exact lt_irrefl _ h

theorem reachable_ledger : Reachable ledger :=
  reachable_run ledger_ops _ _ Reach.init (by decide)

theorem departures_after_listing_witness :
    OrderedContainers ledger ∧ "Z" ∉ all_stations ledger ∧ "A" ∈ all_stations ledger ∧
    station_departures_after ledger "Z" 100 = [(NO_TIME, NO_TRAIN)] ∧
    (station_departures_after ledger "A" 100 =
        (departures_of ledger "A").filter (fun d => decide (100 ≤ d.1)) ∧
      (∀ d, d ∈ station_departures_after ledger "A" 100 ↔
        d ∈ departures_of ledger "A" ∧ 100 ≤ d.1) ∧
      (station_departures_after ledger "A" 100).Pairwise
        (fun a b => a.1 < b.1 ∨ (a.1 = b.1 ∧ a.2 < b.2)) ∧
      (station_departures_after ledger "A" 100).Nodup) :=
  ⟨reach_ordered ledger reachable_ledger, by decide, by decide,
    (departures_after_listing ledger (reach_ordered ledger reachable_ledger) "Z" 100).1
      (by decide),
    (departures_after_listing ledger (reach_ordered ledger reachable_ledger) "A" 100).2
      (by decide)⟩

theorem departures_after_ledger :
    departures_of ledger "A" = [(50, "T3"), (100, "T1"), (100, "T2"), (200, "T0")] ∧
    station_departures_after ledger "A" 100 = [(100, "T1"), (100, "T2"), (200, "T0")] ∧
    station_departures_after ledger "Z" 100 = [(NO_TIME, NO_TRAIN)] := by
  refine ⟨by decide, by decide, by decide⟩

/-! ## The alphabetical listing -/

theorem names_get_name (s : Datastructures) (h : NamesInSync s) (n : Name) (id : StationID)
    (hm : (n, id) ∈ s.station_ids_to_names) : get_station_name s id = n := by
  obtain ⟨st, hst, hn⟩ := (h.names_mem n id).1 hm
  simp [get_station_name, umap_find_of_mem _ _ _ h.ids_nodup hst, hn]

theorem name_lt_cases (a b : Name × StationID) (h : pair_lt str_lt str_lt a b = true) :
    a.1 < b.1 ∨ (a.1 = b.1 ∧ a.2 < b.2) := by
  simp only [pair_lt, Bool.or_eq_true, Bool.and_eq_true, Bool.not_eq_true',
    ← Bool.not_eq_true, str_lt_iff] at h
  rcases h with h | ⟨h1, h2⟩
  · exact Or.inl h
  · by_cases hlt : a.1 < b.1
    · exact Or.inl hlt
    · exact Or.inr ⟨le_antisymm (not_lt.1 h1) (not_lt.1 hlt), h2⟩

/-- C15: in every state reachable through the public operations,
stations_alphabetically lists every live station id exactly once, ordered by
station name ascending and, among stations of equal name, by id ascending. -/
theorem alphabetical_listing (s : Datastructures) (h : Reachable s) :
    (stations_alphabetically s).Perm (all_stations s) ∧
    (stations_alphabetically s).Nodup ∧
    (stations_alphabetically s).Pairwise (fun a b =>
      get_station_name s a < get_station_name s b ∨
      (get_station_name s a = get_station_name s b ∧ a < b)) := by
  have hn := reach_names s h
  have ho := reach_ordered s h
  have hperm := names_ids_perm s hn
  refine ⟨hperm, hperm.nodup_iff.2 hn.ids_nodup, ?_⟩
  unfold stations_alphabetically
  rw [List.pairwise_map]
  refine List.Pairwise.imp_of_mem ?_ ho.names_sorted
  intro a b ha hb hab
  rw [names_get_name s hn a.1 a.2 ha, names_get_name s hn b.1 b.2 hb]
  exact name_lt_cases a b hab

theorem reachable_centrals : Reachable centrals :=
  reachable_run centrals_ops _ _ Reach.init (by decide)

theorem alphabetical_listing_witness :
    Reachable centrals ∧
    (stations_alphabetically centrals).Perm (all_stations centrals) ∧
    (stations_alphabetically centrals).Nodup ∧
    (stations_alphabetically centrals).Pairwise (fun a b =>
      get_station_name centrals a < get_station_name centrals b ∨
      (get_station_name centrals a = get_station_name centrals b ∧ a < b)) :=
  ⟨reachable_centrals, alphabetical_listing centrals reachable_centrals⟩

theorem alphabetical_centrals : stations_alphabetically centrals = ["C", "A", "B"] := by
  decide

/-! ## The listing by distance from the origin -/

set_option maxRecDepth 100000 in
/-- C16 (counterexample): station B at distance `1` from the origin is listed
after station A at distance `sqrt 2`, in a state whose indices are in sync. In
the reachable state `moved_far`, whose coordinate index has lost sync, the
live station A at distance 1 is listed after station C at distance 5. In
`far_pair` station B, whose distance has the integer part 134217729, is listed
before station A, whose distance has the integer part 134217728. In
`beyond_pair` station A, more than `INT_MAX` away, is listed before station B
at distance 1. -/
theorem distance_listing_not_exact :
    (Reachable near_pair ∧ StationsSync near_pair ∧
      stations_distance_increasing near_pair = ["A", "B"] ∧
      sq_dist (get_station_coordinates near_pair "B") ⟨0, 0⟩ <
        sq_dist (get_station_coordinates near_pair "A") ⟨0, 0⟩) ∧
    (Reachable moved_far ∧ "A" ∈ all_stations moved_far ∧ "C" ∈ all_stations moved_far ∧
      stations_distance_increasing moved_far = ["C", "A"] ∧
      floor_dist (get_station_coordinates moved_far "A") ⟨0, 0⟩ <
        floor_dist (get_station_coordinates moved_far "C") ⟨0, 0⟩) ∧
    (StationsSync far_pair ∧ stations_distance_increasing far_pair = ["B", "A"] ∧
      floor_dist (get_station_coordinates far_pair "A") ⟨0, 0⟩ = 134217728 ∧
      floor_dist (get_station_coordinates far_pair "B") ⟨0, 0⟩ = 134217729) ∧
    (StationsSync beyond_pair ∧ stations_distance_increasing beyond_pair = ["A", "B"] ∧
      hypot_int (get_station_coordinates beyond_pair "A").x
        (get_station_coordinates beyond_pair "A").y = -2147483648 ∧
      sq_dist (get_station_coordinates beyond_pair "B") ⟨0, 0⟩ <
        sq_dist (get_station_coordinates beyond_pair "A") ⟨0, 0⟩) := by
  have hr : Reach CollisionFree near_pair :=
    Reach.step _ (.add_station "B" "b" ⟨1, 0⟩) _
      (Reach.step _ (.add_station "A" "a" ⟨1, -1⟩) _ Reach.init
        (by simp only [CollisionFree]; decide) rfl)
      (by simp only [CollisionFree]; decide) rfl
  have hrun : run Datastructures.empty moved_far_ops = some moved_far := by decide
  exact ⟨⟨reach_mono _ _ (fun _ _ _ => trivial) _ hr, reach_sync _ hr, by decide, by decide⟩,
    ⟨reachable_run _ _ _ Reach.init hrun, by decide, by decide, by decide, by decide⟩,
    ⟨reach_sync _ reach_far_pair, by decide, by decide, by decide⟩,
    ⟨reach_sync _ reach_beyond_pair, by decide, by decide, by decide⟩⟩

/-- C16 (amended): in a state whose coordinate index is in sync with the store
and in comparator order, and in which the square of the distance from the
origin to every live station is below `2 ^ 52`, stations_distance_increasing
lists every live station once, and of two listed stations the earlier one has
the smaller integer part of the Euclidean distance from the origin, or the
same integer part and the smaller y, or the same integer part and y and the
smaller x. -/
theorem distance_listing (s : Datastructures) (h : StationsSync s)
    (ho : OrderedContainers s)
    (hnear : ∀ id ∈ all_stations s, sq_dist (get_station_coordinates s id) ⟨0, 0⟩ < 2 ^ 52) :
    (stations_distance_increasing s).Perm (all_stations s) ∧
    (stations_distance_increasing s).Pairwise (fun a b =>
      floor_dist (get_station_coordinates s a) ⟨0, 0⟩ <
        floor_dist (get_station_coordinates s b) ⟨0, 0⟩ ∨
      (floor_dist (get_station_coordinates s a) ⟨0, 0⟩ =
          floor_dist (get_station_coordinates s b) ⟨0, 0⟩ ∧
        ((get_station_coordinates s a).y < (get_station_coordinates s b).y ∨
          ((get_station_coordinates s a).y = (get_station_coordinates s b).y ∧
            (get_station_coordinates s a).x < (get_station_coordinates s b).x)))) := by
  refine ⟨sync_coord_ids_perm s h, ?_⟩
  unfold stations_distance_increasing
  rw [List.pairwise_map]
  refine List.Pairwise.imp_of_mem ?_ ho.coords_sorted
  intro a b ha hb hab
  have hla : a.2 ∈ all_stations s :=
    (sync_coord_ids_perm s h).mem_iff.1 (List.mem_map.2 ⟨a, ha, rfl⟩)
  have hlb : b.2 ∈ all_stations s :=
    (sync_coord_ids_perm s h).mem_iff.1 (List.mem_map.2 ⟨b, hb, rfl⟩)
  have hna := hnear _ hla
  have hnb := hnear _ hlb
  rw [sync_get_coordinates s h a.1 a.2 ha] at hna ⊢
  rw [sync_get_coordinates s h b.1 b.2 hb] at hnb ⊢
  rw [← hypot_int_floor_dist a.1 hna, ← hypot_int_floor_dist b.1 hnb]
  exact (coord_lt_iff a.1 b.1).1 hab

theorem distance_listing_witness :
    StationsSync ring ∧ OrderedContainers ring ∧
    (∀ id ∈ all_stations ring, sq_dist (get_station_coordinates ring id) ⟨0, 0⟩ < 2 ^ 52) ∧
    (stations_distance_increasing ring).Perm (all_stations ring) ∧
    (stations_distance_increasing ring).Pairwise (fun a b =>
      floor_dist (get_station_coordinates ring a) ⟨0, 0⟩ <
        floor_dist (get_station_coordinates ring b) ⟨0, 0⟩ ∨
      (floor_dist (get_station_coordinates ring a) ⟨0, 0⟩ =
          floor_dist (get_station_coordinates ring b) ⟨0, 0⟩ ∧
        ((get_station_coordinates ring a).y < (get_station_coordinates ring b).y ∨
          ((get_station_coordinates ring a).y = (get_station_coordinates ring b).y ∧
            (get_station_coordinates ring a).x < (get_station_coordinates ring b).x)))) :=
  ⟨reach_sync ring reach_ring,
    reach_ordered ring (reach_mono _ _ (fun _ _ _ => trivial) ring reach_ring), by decide,
    distance_listing ring (reach_sync ring reach_ring)
      (reach_ordered ring (reach_mono _ _ (fun _ _ _ => trivial) ring reach_ring)) (by decide)⟩

theorem distance_listing_ring : stations_distance_increasing ring = ["C", "B", "A"] := by
  decide

/-! ## Removing a station -/

theorem length_umap_erase {K V : Type} [DecidableEq K] (m : List (K × V)) (k : K)
    (hn : (m.map Prod.fst).Nodup) (hk : k ∈ m.map Prod.fst) :
    (umap_erase m k).length + 1 = m.length := by
  induction m with
  | nil => simp at hk
  | cons e t ih =>
    simp only [List.map_cons, List.nodup_cons] at hn
    by_cases he : e.1 = k
    · have hall : ∀ x ∈ t, (!decide (x.1 = k)) = true := by
        intro x hx
        have : x.1 ≠ k := fun e' => hn.1 (List.mem_map.2 ⟨x, hx, e'.trans he.symm⟩)
        simp [this]
      simp only [umap_erase, List.filter_cons, he, decide_True, Bool.not_true,
        Bool.false_eq_true, if_false, List.length_cons]
      rw [List.filter_eq_self.2 hall]
    · have hk' : k ∈ t.map Prod.fst := by
        rcases List.mem_cons.1 hk with h | h
        · exact absurd h.symm he
        · exact h
      have := ih hn.2 hk'
      simp only [umap_erase] at this
      simp [umap_erase, List.filter_cons, he, this]

/-- C14 (counterexample): in the reachable state `moved_entry` the index entry
of the live station A carries another coordinate; remove_station("A") returns
true and A still occurs in stations_distance_increasing. -/
theorem removed_station_still_indexed :
    Reachable moved_entry ∧ "A" ∈ all_stations moved_entry ∧
    (remove_station moved_entry "A").1 = true ∧
    "A" ∈ stations_distance_increasing (remove_station moved_entry "A").2 := by
  have hrun : run Datastructures.empty moved_entry_ops = some moved_entry := by decide
  exact ⟨reachable_run _ _ _ Reach.init hrun, by decide, by decide, by decide⟩

/-- C14 (amended): in a state whose name index is in sync with the store, as
every reachable state is, for a live station id with coordinate c the call
remove_station(id) returns true; afterwards find_station_with_coord(c) returns
NO_STATION, id occurs neither in all_stations() nor in
stations_alphabetically(), and station_count() is smaller by one. When the
coordinate index is in sync as well, id does not occur in
stations_distance_increasing() either. -/
theorem remove_station_purges (s : Datastructures) (hn : NamesInSync s) (id : StationID)
    (hlive : id ∈ all_stations s) :
    (remove_station s id).1 = true ∧
    find_station_with_coord (remove_station s id).2 (get_station_coordinates s id) =
      NO_STATION ∧
    id ∉ all_stations (remove_station s id).2 ∧
    id ∉ stations_alphabetically (remove_station s id).2 ∧
    station_count (remove_station s id).2 + 1 = station_count s ∧
    (StationsSync s → id ∉ stations_distance_increasing (remove_station s id).2) := by
  obtain ⟨st, hst⟩ := umap_find_isSome s.stations_to_ids id (by simpa [all_stations] using hlive)
  have hmem : (id, st) ∈ s.stations_to_ids := umap_find_mem _ _ _ hst
  have hT := strictTotal_coord_lt
  have hS := strictTotal_pair_lt strictTotal_str_lt strictTotal_str_lt
  have hc : get_station_coordinates s id = st.coord := by simp [get_station_coordinates, hst]
  have hgone : id ∉ all_stations (remove_station s id).2 := by
    simp only [remove_station, hst, all_stations, List.mem_map, not_exists, not_and]
    intro e he hid
    exact ((mem_umap_erase _ _ _).1 he).2 hid
  refine ⟨by simp [remove_station, hst], ?_, hgone, ?_, ?_, ?_⟩
  · have hnone : map_find Coord.lt (map_erase Coord.lt s.station_ids_to_coords st.coord)
        st.coord = none := by
      rw [map_find_eq_none hT]
      intro hm
      obtain ⟨e, he, hek⟩ := List.mem_map.1 hm
      exact ((mem_map_erase hT _ _ _).1 he).2 hek
    simp [remove_station, hst, find_station_with_coord, hc, hnone]
  · simp only [remove_station, hst, stations_alphabetically, List.mem_map, not_exists, not_and]
    intro e he hid
    obtain ⟨he1, he2⟩ := (mem_set_erase hS _ _ _).1 he
    obtain ⟨st', hst', hname⟩ := (hn.names_mem e.1 e.2).1 he1
    rw [hid] at hst'
    have := eq_of_mem_of_nodup_keys hn.ids_nodup hst' hmem
    exact he2 (Prod.ext (by rw [← hname, this]) hid)
  · simp only [remove_station, hst, station_count]
    exact length_umap_erase _ _ hn.ids_nodup (by simpa [all_stations] using hlive)
  · intro hsync
    have hafter := sync_remove_station s id hsync
    intro hin
    obtain ⟨e, he, hid⟩ := List.mem_map.1 hin
    obtain ⟨st', hst', _⟩ := (hafter.coords_mem e.1 e.2).1 he
    exact hgone (List.mem_map.2 ⟨(e.2, st'), hst', hid⟩)

theorem remove_station_purges_witness :
    NamesInSync two_apart ∧ "A" ∈ all_stations two_apart ∧ StationsSync two_apart ∧
    (remove_station two_apart "A").1 = true ∧
    find_station_with_coord (remove_station two_apart "A").2
      (get_station_coordinates two_apart "A") = NO_STATION ∧
    "A" ∉ all_stations (remove_station two_apart "A").2 ∧
    "A" ∉ stations_alphabetically (remove_station two_apart "A").2 ∧
    station_count (remove_station two_apart "A").2 + 1 = station_count two_apart ∧
    "A" ∉ stations_distance_increasing (remove_station two_apart "A").2 :=
  ⟨reach_names two_apart (reach_mono _ _ (fun _ _ _ => trivial) two_apart reach_two_apart),
    by decide, reach_sync two_apart reach_two_apart,
    (remove_station_purges two_apart
      (reach_names two_apart (reach_mono _ _ (fun _ _ _ => trivial) two_apart reach_two_apart))
      "A" (by decide)).1,
    (remove_station_purges two_apart
      (reach_names two_apart (reach_mono _ _ (fun _ _ _ => trivial) two_apart reach_two_apart))
      "A" (by decide)).2.1,
    (remove_station_purges two_apart
      (reach_names two_apart (reach_mono _ _ (fun _ _ _ => trivial) two_apart reach_two_apart))
      "A" (by decide)).2.2.1,
    (remove_station_purges two_apart
      (reach_names two_apart (reach_mono _ _ (fun _ _ _ => trivial) two_apart reach_two_apart))
      "A" (by decide)).2.2.2.1,
    (remove_station_purges two_apart
      (reach_names two_apart (reach_mono _ _ (fun _ _ _ => trivial) two_apart reach_two_apart))
      "A" (by decide)).2.2.2.2.1,
    (remove_station_purges two_apart
      (reach_names two_apart (reach_mono _ _ (fun _ _ _ => trivial) two_apart reach_two_apart))
      "A" (by decide)).2.2.2.2.2 (reach_sync two_apart reach_two_apart)⟩

/-! ## The regions a station belongs to -/

theorem locationsStored_congr (s t : Datastructures)
    (h1 : t.stations_to_ids = s.stations_to_ids)
    (h2 : ∀ r, (umap_find s.regions_to_ids r).isSome = true →
      (umap_find t.regions_to_ids r).isSome = true)
    (h : LocationsStored s) : LocationsStored t := by
  intro e he
  rw [h1] at he
  rcases h e he with h | h
  · exact Or.inl h
  · exact Or.inr (h2 _ h)

theorem locationsStored_modify (s t : Datastructures) (id : StationID) (f : Station → Station)
    (h1 : t.stations_to_ids = umap_modify s.stations_to_ids id f)
    (h2 : t.regions_to_ids = s.regions_to_ids)
    (hf : ∀ v, (f v).location = v.location ∨
      (umap_find s.regions_to_ids (f v).location).isSome = true)
    (h : LocationsStored s) : LocationsStored t := by
  rintro ⟨i, v'⟩ he
  rw [h1] at he
  rw [h2]
  obtain ⟨v, hv, rfl⟩ := (mem_umap_modify _ _ _ _ _).1 he
  have hs := h (i, v) hv
  by_cases hk : i = id
  · simp only [hk, if_true]
    rcases hf v with e | e
    · rw [e]; exact hs
    · exact Or.inr e
  · simp only [hk, if_false]; exact hs

/-- The station records of every reachable state point to stored regions. -/
theorem reach_locationsStored (s : Datastructures) (h : Reachable s) : LocationsStored s := by
  induction h with
  | init => intro e he; simp [Datastructures.empty] at he
  | step s op t _ _ hstep ih =>
    cases op with
    | clear_all =>
      simp only [step, Option.some.injEq] at hstep
      subst hstep
      intro e he; simp [clear_all] at he
    | add_station id name xy =>
      simp only [step, Option.some.injEq] at hstep
      subst hstep
      cases hf : umap_find s.stations_to_ids id with
      | some st => simpa [add_station, hf] using ih
      | none =>
        rw [add_station_new s id name xy hf]
        intro e he
        rcases List.mem_append.1 he with he | he
        · exact ih e he
        · rw [List.mem_singleton.1 he]; exact Or.inl rfl
    | change_station_coord id newcoord =>
      simp only [step, Option.map_eq_some'] at hstep
      obtain ⟨res, hres, rfl⟩ := hstep
      cases hf : umap_find s.stations_to_ids id with
      | none =>
        simp only [change_station_coord, hf, Option.some.injEq] at hres
        rw [← hres]; exact ih
      | some st =>
        cases hm : map_find Coord.lt s.station_ids_to_coords st.coord with
        | none => simp [change_station_coord, hf, map_extract, hm] at hres
        | some e =>
          rw [change_station_coord_live s id newcoord st e hf hm, Option.some.injEq] at hres
          rw [← hres]
          exact locationsStored_modify s _ id (fun st => { st with coord := newcoord }) rfl rfl
            (fun _ => Or.inl rfl) ih
    | add_departure stationid trainid time =>
      simp only [step, Option.some.injEq] at hstep
      subst hstep
      cases hf : umap_find s.stations_to_ids stationid with
      | none => simpa [add_departure, hf] using ih
      | some st =>
        simp only [add_departure, hf]
        exact locationsStored_modify s _ stationid
          (fun x => { x with
            departures := (set_insert (pair_lt nat_lt str_lt) st.departures (time, trainid)).1 })
          rfl rfl (fun _ => Or.inl rfl) ih
    | remove_departure stationid trainid time =>
      simp only [step, Option.some.injEq] at hstep
      subst hstep
      cases hf : umap_find s.stations_to_ids stationid with
      | none => simpa [remove_departure, hf] using ih
      | some st =>
        cases hd : set_find (pair_lt nat_lt str_lt) st.departures (time, trainid) with
        | none => simpa [remove_departure, hf, hd] using ih
        | some d =>
          simp only [remove_departure, hf, hd]
          exact locationsStored_modify s _ stationid
            (fun x => { x with
              departures := set_erase (pair_lt nat_lt str_lt) x.departures d })
            rfl rfl (fun _ => Or.inl rfl) ih
    | add_region id name coords =>
      exact locationsStored_congr s t
        (by simp only [step, Option.some.injEq] at hstep; subst hstep; rfl)
        (fun r hr => known_step s t r _ hr (by simp) hstep) ih
    | add_subregion_to_region id parentid =>
      refine locationsStored_congr s t ?_
        (fun r hr => known_step s t r _ hr (by simp) hstep) ih
      simp only [step, Option.some.injEq] at hstep
      subst hstep
      rcases add_subregion_to_region_cases s id parentid with e | ⟨_, _, _, _, e⟩
      · rw [e]
      · rw [e]
    | add_station_to_region id parentid =>
      simp only [step, Option.some.injEq] at hstep
      subst hstep
      cases hf : umap_find s.stations_to_ids id with
      | none => simpa [add_station_to_region, hf] using ih
      | some st =>
        cases hr : umap_find s.regions_to_ids parentid with
        | none => simpa [add_station_to_region, hf, hr] using ih
        | some r =>
          by_cases hl : st.location = NO_REGION
          · simp only [add_station_to_region, hf, hr, hl, ne_eq, not_true_eq_false, if_false]
            exact locationsStored_modify s _ id (fun x => { x with location := parentid })
              rfl rfl (fun _ => Or.inr (by simp [hr])) ih
          · simpa [add_station_to_region, hf, hr, hl] using ih
    | remove_station id =>
      simp only [step, Option.some.injEq] at hstep
      subst hstep
      cases hf : umap_find s.stations_to_ids id with
      | none => simpa [remove_station, hf] using ih
      | some st =>
        simp only [remove_station, hf]
        intro e he
        exact ih e ((mem_umap_erase _ _ _).1 he).1

/-- The region of every live station of a reachable state is `NO_REGION` or a
stored region. -/
theorem reach_locationsWF (s : Datastructures) (h : Reachable s) : LocationsWF s := by
  intro id station hst
  exact reach_locationsStored s h (id, station) (umap_find_mem _ _ _ hst)

/-- A finished ancestor walk is a chain of parent links that ends in a region
without a parent. -/
theorem parent_walk_chain (s : Datastructures) (hwf : RegionsWF s) :
    ∀ (fuel : Nat) (x : RegionID) (l : List RegionID),
      parent_walk s fuel (some x) = some l →
      List.Chain' (ParentOf s) l ∧ ∀ z, l.getLast? = some z → parent_of s z = none := by
  intro fuel
  induction fuel with
  | zero => intro x l h; simp [parent_walk] at h
  | succ n ih =>
    intro x l h
    cases hx : umap_find s.regions_to_ids x with
    | none => simp [parent_walk, hx] at h
    | some region =>
      rw [parent_walk_succ s n x region hx, Option.map_eq_some'] at h
      obtain ⟨l', hl', rfl⟩ := h
      have hid : region.id = x := hwf.1 x region hx
      cases hp : region.parent with
      | none =>
        rw [hp, parent_walk_none] at hl'
        cases hl'
        refine ⟨List.chain'_singleton _, ?_⟩
        intro z hz
        simp only [List.getLast?_singleton, Option.some.injEq] at hz
        rw [← hz, hid]
        simp [parent_of, hx, hp]
      | some p =>
        rw [hp] at hl'
        obtain ⟨l'', rfl, _, _⟩ := parent_walk_spec s hwf n p l' hl'
        obtain ⟨hch, hlast⟩ := ih p (p :: l'') hl'
        refine ⟨List.chain'_cons.2 ⟨?_, hch⟩, ?_⟩
        · rw [hid]; exact ⟨region, hx, hp⟩
        · intro z hz
          rw [List.getLast?_cons_cons] at hz
          exact hlast z hz

theorem reach_sentinel_lodged : Reach NoCycleOp sentinel_lodged :=
  Reach.step _ (.add_station_to_region "s" NO_REGION) _
    (Reach.step _ (.add_station "s" "n" ⟨0, 0⟩) _
      (Reach.step _ (.add_region 7 "Y" []) _
        (Reach.step _ (.add_region NO_REGION "X" []) _ Reach.init trivial rfl) trivial rfl)
      trivial rfl)
    trivial rfl

/-- C13 (counterexample): a region is stored under the id `NO_REGION` and
add_station_to_region assigns the live station s to it with result true; the
state is reachable and its parent relation is a forest, the ancestor chain of
the assigned region is `[NO_REGION]`, and station_in_regions(s) is the empty
sequence. -/
theorem station_in_sentinel_region :
    Reachable sentinel_lodged ∧ Forest sentinel_lodged ∧
    "s" ∈ all_stations sentinel_lodged ∧ NO_REGION ∈ all_regions sentinel_lodged ∧
    (add_station_to_region sentinel_region "s" NO_REGION).1 = true ∧
    HasLocation sentinel_lodged "s" NO_REGION ∧
    all_parents_of_region 2 sentinel_lodged NO_REGION = some [NO_REGION] ∧
    station_in_regions 2 sentinel_lodged "s" = some [] :=
  ⟨reach_mono _ _ (fun _ _ _ => trivial) sentinel_lodged reach_sentinel_lodged,
    ⟨parentOf_functional sentinel_lodged, reach_acyclic sentinel_lodged reach_sentinel_lodged⟩,
    by decide, by decide, by decide,
    add_station_to_region_true sentinel_region "s" NO_REGION (by decide), by decide, by decide⟩

/-- C13 (amended): in a forest of well-formed region records in which every
station's region is stored, station_in_regions returns a result as soon as the
walk is given as many rounds as there are regions: `[NO_REGION]` for an
unknown station, the empty sequence for a live station whose stored region is
`NO_REGION` (no region assigned, or assigned to the region stored under the id
`NO_REGION`), and otherwise a chain that starts with the station's region, in
which each next element is the parent of the one before it, whose last element
has no parent, and whose elements after the first are exactly the proper
ancestors of the station's region. -/
theorem station_in_regions_chain (s : Datastructures) (hwf : RegionsWF s) (hf : Forest s)
    (hloc : LocationsWF s) (id : StationID) (fuel : Nat)
    (hfuel : s.regions_to_ids.length ≤ fuel) :
    (id ∉ all_stations s → station_in_regions fuel s id = some [NO_REGION]) ∧
    (HasLocation s id NO_REGION → station_in_regions fuel s id = some []) ∧
    (∀ r0, r0 ≠ NO_REGION → HasLocation s id r0 →
      ∃ l, station_in_regions fuel s id = some (r0 :: l) ∧
        List.Chain' (ParentOf s) (r0 :: l) ∧
        (∀ rk, (r0 :: l).getLast? = some rk → parent_of s rk = none) ∧
        ∀ a, a ∈ l ↔ Anc s r0 a) := by
  refine ⟨?_, ?_, ?_⟩
  · intro hid
    have : umap_find s.stations_to_ids id = none :=
      (umap_find_eq_none _ _).2 (by simpa [all_stations] using hid)
    simp [station_in_regions, this]
  · rintro ⟨st, hst, hl⟩
    simp [station_in_regions, hst, hl]
  · rintro r0 hr ⟨st, hst, hl⟩
    have hk : (umap_find s.regions_to_ids r0).isSome = true := by
      rcases hloc id st hst with h | h
      · exact absurd (hl ▸ h) hr
      · rw [← hl]; exact h
    obtain ⟨reg, hreg⟩ := Option.isSome_iff_exists.1 hk
    obtain ⟨l, hwalk⟩ := parent_walk_total s hwf hf.2 fuel r0 hk hfuel
    obtain ⟨l', rfl, hmem, _⟩ := parent_walk_spec s hwf fuel r0 l hwalk
    obtain ⟨hch, hlast⟩ := parent_walk_chain s hwf fuel r0 (r0 :: l') hwalk
    exact ⟨l', by simp [station_in_regions, hst, hl, hr, all_parents_of_region, hreg, hwalk],
      hch, hlast, hmem⟩

theorem reach_lodged : Reach NoCycleOp lodged :=
  Reach.step _ (.add_station_to_region "s" 1) _
    (Reach.step _ (.add_station "s" "n" ⟨0, 0⟩) _ reach_family trivial rfl) trivial rfl

theorem station_in_regions_chain_witness :
    RegionsWF lodged ∧ Forest lodged ∧ LocationsWF lodged ∧ lodged.regions_to_ids.length ≤ 4 ∧
    (1 : RegionID) ≠ NO_REGION ∧ HasLocation lodged "s" 1 ∧
    ∃ l, station_in_regions 4 lodged "s" = some (1 :: l) ∧
      List.Chain' (ParentOf lodged) (1 :: l) ∧
      (∀ rk, (1 :: l).getLast? = some rk → parent_of lodged rk = none) ∧
      ∀ a, a ∈ l ↔ Anc lodged 1 a :=
  ⟨reach_regionsWF lodged (reach_mono _ _ (fun _ _ _ => trivial) lodged reach_lodged),
    ⟨parentOf_functional lodged, reach_acyclic lodged reach_lodged⟩,
    reach_locationsWF lodged (reach_mono _ _ (fun _ _ _ => trivial) lodged reach_lodged),
    by decide, by decide,
    add_station_to_region_true (add_station family "s" "n" ⟨0, 0⟩).2 "s" 1 (by decide),
    (station_in_regions_chain lodged
      (reach_regionsWF lodged (reach_mono _ _ (fun _ _ _ => trivial) lodged reach_lodged))
      ⟨parentOf_functional lodged, reach_acyclic lodged reach_lodged⟩
      (reach_locationsWF lodged (reach_mono _ _ (fun _ _ _ => trivial) lodged reach_lodged))
      "s" 4 (by decide)).2.2 1 (by decide)
      (add_station_to_region_true (add_station family "s" "n" ⟨0, 0⟩).2 "s" 1 (by decide))⟩

theorem station_in_regions_lodged :
    station_in_regions 4 lodged "s" = some [1, 2, 4] ∧
    station_in_regions 4 lodged "t" = some [NO_REGION] ∧
    station_in_regions 4 unassigned_station "s" = some [] := by
  refine ⟨by decide, by decide, by decide⟩

/-! ## All subregions of a region -/

theorem subregions_loop_eq (visit : RegionID → Option (List RegionID)) :
    ∀ (subregions ids : List RegionID),
      subregions_loop visit ids subregions =
        if subregions.all (fun c => (visit c).isSome) = true then
          some (ids ++ subregions.flatMap (fun c => (visit c).getD []))
        else none := by
  intro subregions
  induction subregions with
  | nil => intro ids; simp [subregions_loop]
  | cons c rest ih =>
    intro ids
    cases hv : visit c with
    | none => simp [subregions_loop, hv]
    | some l => simp [subregions_loop, hv, ih, List.append_assoc]

theorem subregions_loop_mono (v1 v2 : RegionID → Option (List RegionID))
    (h : ∀ c r, v1 c = some r → v2 c = some r) :
    ∀ (subregions ids r : List RegionID),
      subregions_loop v1 ids subregions = some r → subregions_loop v2 ids subregions = some r := by
  intro subregions
  induction subregions with
  | nil => intro ids r hr; exact hr
  | cons c rest ih =>
    intro ids r hr
    cases hv : v1 c with
    | none => simp [subregions_loop, hv] at hr
    | some l =>
      simp only [subregions_loop, hv] at hr
      simp only [subregions_loop, h c l hv]
      exact ih _ _ hr

/-- A call that returns within `fuel` nested calls returns the same with one
more. -/
theorem all_subregions_mono (s : Datastructures) :
    ∀ (fuel : Nat) (x : RegionID) (l : List RegionID),
      all_subregions_of_region fuel s x = some l →
      all_subregions_of_region (fuel + 1) s x = some l := by
  intro fuel
  induction fuel with
  | zero => intro x l h; simp [all_subregions_of_region] at h
  | succ n ih =>
    intro x l h
    cases hx : umap_find s.regions_to_ids x with
    | none =>
      simp only [all_subregions_of_region, hx] at h ⊢
      exact h
    | some region =>
      simp only [all_subregions_of_region, hx] at h
      rw [all_subregions_of_region]
      simp only [hx]
      refine subregions_loop_mono _ _ ?_ _ _ _ h
      intro c r hv
      cases hp : pointee_id s c with
      | none => simp [hp] at hv
      | some sub_id =>
        simp only [hp, Option.map_eq_some'] at hv ⊢
        obtain ⟨l', hl', rfl⟩ := hv
        exact ⟨l', ih _ _ hl', rfl⟩

theorem children_known (s : Datastructures) (hci : ChildrenInverse s) (x : RegionID)
    (region : Region) (hx : umap_find s.regions_to_ids x = some region) :
    ∀ c ∈ region.subregions, (umap_find s.regions_to_ids c).isSome = true := by
  intro c hc
  obtain ⟨r, hr, _⟩ := ((hci x region hx).2 c).1 hc
  simp [hr]

/-- One call for a stored region whose child pointers point to stored regions:
the children are visited in the order of the list, and the call returns when
every nested call does. -/
theorem all_subregions_succ (s : Datastructures) (hwf : RegionsWF s) (fuel : Nat)
    (x : RegionID) (region : Region) (hx : umap_find s.regions_to_ids x = some region)
    (hk : ∀ c ∈ region.subregions, (umap_find s.regions_to_ids c).isSome = true) :
    all_subregions_of_region (fuel + 1) s x =
      if region.subregions.all (fun c => (all_subregions_of_region fuel s c).isSome) = true then
        some (region.subregions.flatMap
          (fun c => c :: (all_subregions_of_region fuel s c).getD []))
      else none := by
  have hpt : ∀ c ∈ region.subregions, pointee_id s c = some c := by
    intro c hc
    obtain ⟨r, hr⟩ := Option.isSome_iff_exists.1 (hk c hc)
    simp [pointee_id, hr, hwf.1 c r hr]
  rw [all_subregions_of_region]
  simp only [hx]
  rw [subregions_loop_eq]
  by_cases hall : ∀ c ∈ region.subregions, (all_subregions_of_region fuel s c).isSome = true
  · have h1 : (region.subregions.all (fun c => (all_subregions_of_region fuel s c).isSome))
        = true := List.all_eq_true.2 hall
    rw [if_pos h1, if_pos]
    · rw [List.nil_append]
      congr 1
      apply List.flatMap_congr
      intro c hc
      obtain ⟨lc, hlc⟩ := Option.isSome_iff_exists.1 (hall c hc)
      simp [hpt c hc, hlc]
    · apply List.all_eq_true.2
      intro c hc
      obtain ⟨lc, hlc⟩ := Option.isSome_iff_exists.1 (hall c hc)
      simp [hpt c hc, hlc]
  · have h1 : ¬ (region.subregions.all (fun c => (all_subregions_of_region fuel s c).isSome))
        = true := fun h => hall (List.all_eq_true.1 h)
    rw [if_neg h1, if_neg]
    intro h
    apply hall
    intro c hc
    have := List.all_eq_true.1 h c hc
    simp only [hpt c hc] at this
    cases hlc : all_subregions_of_region fuel s c with
    | none => simp [hlc] at this
    | some lc => rfl

theorem all_subregions_out_of_fuel (s : Datastructures) (hwf : RegionsWF s)
    (hci : ChildrenInverse s) :
    ∀ (fuel : Nat) (x : RegionID), (umap_find s.regions_to_ids x).isSome = true →
      all_subregions_of_region fuel s x = none →
      ∃ l, l.length = fuel ∧ List.Chain (Function.swap (ParentOf s)) x l ∧
        ∀ y ∈ l, y ∈ s.regions_to_ids.map Prod.fst := by
  intro fuel
  induction fuel with
  | zero => intro x _ _; exact ⟨[], rfl, List.Chain.nil, by simp⟩
  | succ n ih =>
    intro x hx h
    obtain ⟨region, hreg⟩ := Option.isSome_iff_exists.1 hx
    have hk := children_known s hci x region hreg
    rw [all_subregions_succ s hwf n x region hreg hk] at h
    split_ifs at h with hall
    have hex : ∃ c ∈ region.subregions, all_subregions_of_region n s c = none := by
      by_contra hcon
      apply hall
      apply List.all_eq_true.2
      intro c hc
      cases hlc : all_subregions_of_region n s c with
      | none => exact absurd ⟨c, hc, hlc⟩ hcon
      | some lc => rfl
    obtain ⟨c, hc, hcn⟩ := hex
    obtain ⟨l, hlen, hch, hsub⟩ := ih c (hk c hc) hcn
    refine ⟨c :: l, by simp [hlen], List.Chain.cons (((hci x region hreg).2 c).1 hc) hch, ?_⟩
    intro y hy
    rcases List.mem_cons.1 hy with rfl | hy
    · by_contra hcon
      have := hk y hc
      rw [(umap_find_eq_none _ _).2 hcon] at this
      exact Bool.noConfusion this
    · exact hsub y hy

/-- In a forest the recursion over the children ends within as many nested
calls as there are regions. -/
theorem all_subregions_total (s : Datastructures) (hwf : RegionsWF s)
    (hci : ChildrenInverse s) (hac : ∀ r, ¬ Anc s r r) (fuel : Nat) (x : RegionID)
    (hx : (umap_find s.regions_to_ids x).isSome = true)
    (hfuel : s.regions_to_ids.length ≤ fuel) :
    ∃ l, all_subregions_of_region fuel s x = some l := by
  cases h : all_subregions_of_region fuel s x with
  | some l => exact ⟨l, rfl⟩
  | none =>
    exfalso
    obtain ⟨l, hlen, hch, hsub⟩ := all_subregions_out_of_fuel s hwf hci fuel x hx h
    have hxk : x ∈ s.regions_to_ids.map Prod.fst := by
      by_contra hcon
      rw [(umap_find_eq_none _ _).2 hcon] at hx
      exact Bool.noConfusion hx
    have hch' : List.Chain' (Relation.TransGen (Function.swap (ParentOf s))) (x :: l) :=
      List.Chain'.imp (fun _ _ h => Relation.TransGen.single h) (show List.Chain' _ (x :: l) from hch)
    have hpw : (x :: l).Pairwise (Relation.TransGen (Function.swap (ParentOf s))) :=
      List.chain'_iff_pairwise.1 hch'
    have hnd : (x :: l).Nodup := by
      refine List.Pairwise.imp ?_ hpw
      intro a b hab e
      rw [← e] at hab
      exact hac a (Relation.transGen_swap.1 hab)
    have hss : (x :: l) ⊆ s.regions_to_ids.map Prod.fst := by
      intro y hy
      rcases List.mem_cons.1 hy with rfl | hy
      · exact hxk
      · exact hsub y hy
    have := (List.subperm_of_subset hnd hss).length_le
    simp only [List.length_cons, List.length_map, hlen] at this
    omega

/-- A finished call lists exactly the regions below `x`. -/
theorem all_subregions_mem (s : Datastructures) (hwf : RegionsWF s) (hci : ChildrenInverse s) :
    ∀ (fuel : Nat) (x : RegionID) (l : List RegionID),
      (umap_find s.regions_to_ids x).isSome = true →
      all_subregions_of_region fuel s x = some l → ∀ d, d ∈ l ↔ Anc s d x := by
  intro fuel
  induction fuel with
  | zero => intro x l _ h; simp [all_subregions_of_region] at h
  | succ n ih =>
    intro x l hx h d
    obtain ⟨region, hreg⟩ := Option.isSome_iff_exists.1 hx
    have hk := children_known s hci x region hreg
    rw [all_subregions_succ s hwf n x region hreg hk] at h
    split_ifs at h with hall
    simp only [Option.some.injEq] at h
    subst h
    have hall' := List.all_eq_true.1 hall
    rw [List.mem_flatMap]
    constructor
    · rintro ⟨c, hc, hd⟩
      have hpar : ParentOf s c x := ((hci x region hreg).2 c).1 hc
      obtain ⟨lc, hlc⟩ := Option.isSome_iff_exists.1 (hall' c hc)
      rw [hlc] at hd
      rcases List.mem_cons.1 hd with rfl | hd
      · exact Relation.TransGen.single hpar
      · exact Relation.TransGen.tail ((ih c lc (hk c hc) hlc d).1 hd) hpar
    · intro hdx
      obtain ⟨c, hdc, hpar⟩ := Relation.TransGen.tail'_iff.1 hdx
      have hc : c ∈ region.subregions := ((hci x region hreg).2 c).2 hpar
      obtain ⟨lc, hlc⟩ := Option.isSome_iff_exists.1 (hall' c hc)
      refine ⟨c, hc, ?_⟩
      rw [hlc]
      rcases Relation.reflTransGen_iff_eq_or_transGen.1 hdc with e | e
      · rw [e]; exact List.mem_cons_self _ _
      · exact List.mem_cons_of_mem _ ((ih c lc (hk c hc) hlc d).2 e)

/-- In a forest two children of one region have no region below both. -/
theorem siblings_disjoint (s : Datastructures) (hf : Forest s) (x c1 c2 d : RegionID)
    (h1 : ParentOf s c1 x) (h2 : ParentOf s c2 x)
    (hd1 : Relation.ReflTransGen (ParentOf s) d c1)
    (hd2 : Relation.ReflTransGen (ParentOf s) d c2) : c1 = c2 := by
  have key : ∀ a b, ParentOf s a x → ParentOf s b x →
      Relation.ReflTransGen (ParentOf s) a b → a = b := by
    intro a b ha hb hab
    rcases Relation.reflTransGen_iff_eq_or_transGen.1 hab with e | e
    · exact e.symm
    · exfalso
      rcases (anc_iff_of_parent s a x b ha).1 e with e' | e'
      · rw [e'] at hb
        exact hf.2 x (Relation.TransGen.single hb)
      · exact hf.2 x (Relation.TransGen.tail e' hb)
  have hU : Relator.RightUnique (ParentOf s) := fun a b c hab hac => hf.1 a b c hab hac
  rcases Relation.ReflTransGen.total_of_right_unique hU hd1 hd2 with h | h
  · exact key c1 c2 h1 h2 h
  · exact (key c2 c1 h2 h1 h).symm

/-- In a forest a finished call lists no region twice. -/
theorem all_subregions_nodup (s : Datastructures) (hwf : RegionsWF s)
    (hci : ChildrenInverse s) (hf : Forest s) :
    ∀ (fuel : Nat) (x : RegionID) (l : List RegionID),
      (umap_find s.regions_to_ids x).isSome = true →
      all_subregions_of_region fuel s x = some l → l.Nodup := by
  intro fuel
  induction fuel with
  | zero => intro x l _ h; simp [all_subregions_of_region] at h
  | succ n ih =>
    intro x l hx h
    obtain ⟨region, hreg⟩ := Option.isSome_iff_exists.1 hx
    have hk := children_known s hci x region hreg
    rw [all_subregions_succ s hwf n x region hreg hk] at h
    split_ifs at h with hall
    simp only [Option.some.injEq] at h
    subst h
    have hall' := List.all_eq_true.1 hall
    have hmem : ∀ c ∈ region.subregions, ∀ d,
        d ∈ c :: (all_subregions_of_region n s c).getD [] →
          Relation.ReflTransGen (ParentOf s) d c := by
      intro c hc d hd
      obtain ⟨lc, hlc⟩ := Option.isSome_iff_exists.1 (hall' c hc)
      rw [hlc] at hd
      rcases List.mem_cons.1 hd with rfl | hd
      · exact Relation.ReflTransGen.refl
      · exact ((all_subregions_mem s hwf hci n c lc (hk c hc) hlc d).1 hd).to_reflTransGen
    rw [List.nodup_flatMap]
    constructor
    · intro c hc
      obtain ⟨lc, hlc⟩ := Option.isSome_iff_exists.1 (hall' c hc)
      rw [hlc]
      refine List.nodup_cons.2 ⟨?_, ih c lc (hk c hc) hlc⟩
      intro hin
      exact hf.2 c ((all_subregions_mem s hwf hci n c lc (hk c hc) hlc c).1 hin)
    · refine List.Pairwise.imp_of_mem ?_ (hci x region hreg).1
      intro c1 c2 hc1 hc2 hne
      rw [Function.onFun, List.disjoint_left]
      intro d hd1 hd2
      exact hne (siblings_disjoint s hf x c1 c2 d (((hci x region hreg).2 c1).1 hc1)
        (((hci x region hreg).2 c2).1 hc2) (hmem c1 hc1 d hd1) (hmem c2 hc2 d hd2))

theorem add_region_find (s : Datastructures) (id : RegionID) (name : Name)
    (coords : List Coord) (k : RegionID) (region : Region)
    (h : umap_find (add_region s id name coords).2.regions_to_ids k = some region) :
    umap_find s.regions_to_ids k = some region ∨
      (k = id ∧ region = { id := id, name := name, limits := coords } ∧
        umap_find s.regions_to_ids id = none) := by
  simp only [add_region, umap_find_umap_insert] at h
  cases hk : umap_find s.regions_to_ids k with
  | some x => rw [hk] at h; exact Or.inl h
  | none =>
    rw [hk] at h
    by_cases hid : k = id
    · simp only [hid, if_true, Option.some.injEq] at h
      exact Or.inr ⟨hid, h.symm, hid ▸ hk⟩
    · simp [hid] at h

theorem childrenInverse_congr (s t : Datastructures) (h : t.regions_to_ids = s.regions_to_ids)
    (hs : ChildrenInverse s) : ChildrenInverse t := by
  intro p region hreg
  rw [parentOf_congr s t h]
  rw [h] at hreg
  exact hs p region hreg

theorem childrenInverse_add_region (s : Datastructures) (id : RegionID) (name : Name)
    (coords : List Coord) (hwf : RegionsWF s) (hs : ChildrenInverse s) :
    ChildrenInverse (add_region s id name coords).2 := by
  intro p region hreg
  rw [parentOf_add_region]
  rcases add_region_find s id name coords p region hreg with h | ⟨rfl, rfl, hnone⟩
  · exact hs p region h
  · refine ⟨List.nodup_nil, ?_⟩
    intro c
    simp only [List.not_mem_nil, false_iff]
    rintro ⟨r, hr, hp⟩
    have := hwf.2 c r p hr hp
    rw [hnone] at this
    exact Bool.noConfusion this

theorem childrenInverse_add_subregion (s : Datastructures) (id parentid : RegionID)
    (hs : ChildrenInverse s) : ChildrenInverse (add_subregion_to_region s id parentid).2 := by
  rcases add_subregion_to_region_cases s id parentid with h | ⟨sub, h1, h3, hk, h⟩
  · rw [h]; exact hs
  · rw [h]
    intro p region hreg
    simp only [parentOf_add_subregion s id parentid sub h1 h3]
    simp only [umap_find_umap_modify, Option.map_map, Option.map_eq_some',
      Function.comp] at hreg
    obtain ⟨r0, hr0, rfl⟩ := hreg
    obtain ⟨hnd, hiff⟩ := hs p r0 hr0
    by_cases hp : p = parentid
    · subst hp
      have hsub : (if p = p then
            { (if p = id then { r0 with parent := some p } else r0) with
              subregions := (if p = id then { r0 with parent := some p } else r0).subregions ++
                [id] }
          else (if p = id then { r0 with parent := some p } else r0)).subregions =
          r0.subregions ++ [id] := by
        by_cases hpi : p = id <;> simp [hpi]
      rw [hsub]
      have hnot : id ∉ r0.subregions := by
        intro hin
        obtain ⟨r, hr, hpar⟩ := (hiff id).1 hin
        rw [h1] at hr
        cases hr
        rw [h3] at hpar
        exact Option.noConfusion hpar
      refine ⟨List.nodup_append.2 ⟨hnd, List.nodup_singleton _, ?_⟩, ?_⟩
      · intro a ha hb
        rw [List.mem_singleton.1 hb] at ha
        exact hnot ha
      · intro c
        rw [List.mem_append, List.mem_singleton, hiff c]
        constructor
        · rintro (h | h)
          · exact Or.inl h
          · exact Or.inr ⟨h, rfl⟩
        · rintro (h | ⟨h, _⟩)
          · exact Or.inl h
          · exact Or.inr h
    · have hsub : (if p = parentid then
            { (if p = id then { r0 with parent := some parentid } else r0) with
              subregions :=
                (if p = id then { r0 with parent := some parentid } else r0).subregions ++
                  [id] }
          else (if p = id then { r0 with parent := some parentid } else r0)).subregions =
          r0.subregions := by
        rw [if_neg hp]
        split_ifs <;> rfl
      rw [hsub]
      refine ⟨hnd, ?_⟩
      intro c
      rw [hiff c]
      constructor
      · exact Or.inl
      · rintro (h | ⟨_, h⟩)
        · exact h
        · exact absurd h hp

/-- The children lists of every reachable state are the inverse of the parent
links. -/
theorem reach_childrenInverse (s : Datastructures) (h : Reachable s) : ChildrenInverse s := by
  induction h with
  | init => intro p region hreg; simp [Datastructures.empty, umap_find] at hreg
  | step s op t hs _ hstep ih =>
    cases op with
    | clear_all =>
      simp only [step, Option.some.injEq] at hstep
      subst hstep
      intro p region hreg; simp [clear_all, umap_find] at hreg
    | add_station id name xy =>
      simp only [step, Option.some.injEq] at hstep
      subst hstep; exact childrenInverse_congr s _ (add_station_regions s _ _ _) ih
    | change_station_coord id newcoord =>
      simp only [step, Option.map_eq_some'] at hstep
      obtain ⟨r, hr, rfl⟩ := hstep
      exact childrenInverse_congr s _ (change_station_coord_regions s _ _ r hr) ih
    | add_departure stationid trainid time =>
      simp only [step, Option.some.injEq] at hstep
      subst hstep; exact childrenInverse_congr s _ (add_departure_regions s _ _ _) ih
    | remove_departure stationid trainid time =>
      simp only [step, Option.some.injEq] at hstep
      subst hstep; exact childrenInverse_congr s _ (remove_departure_regions s _ _ _) ih
    | add_region id name coords =>
      simp only [step, Option.some.injEq] at hstep
      subst hstep; exact childrenInverse_add_region s _ _ _ (reach_regionsWF s hs) ih
    | add_subregion_to_region id parentid =>
      simp only [step, Option.some.injEq] at hstep
      subst hstep; exact childrenInverse_add_subregion s _ _ ih
    | add_station_to_region id parentid =>
      simp only [step, Option.some.injEq] at hstep
      subst hstep; exact childrenInverse_congr s _ (add_station_to_region_regions s _ _) ih
    | remove_station id =>
      simp only [step, Option.some.injEq] at hstep
      subst hstep; exact childrenInverse_congr s _ (remove_station_regions s _) ih

theorem reach_sentinel_child : Reach NoCycleOp sentinel_child :=
  Reach.step _ (.add_subregion_to_region NO_REGION 1) _
    (Reach.step _ (.add_region NO_REGION "X" []) _
      (Reach.step _ (.add_region 1 "R" []) _ Reach.init trivial rfl) trivial rfl)
    ⟨by decide, not_anc_of_parent_of_none _ 1 NO_REGION (by decide)⟩ rfl

/-- C12 (counterexample): a region is stored under the id `NO_REGION` and made
the only subregion of region 1; the parent relation is a forest, region 1 is
known, and all_subregions_of_region(1) is `[NO_REGION]`. -/
theorem all_subregions_sentinel_child :
    Reachable sentinel_child ∧ Forest sentinel_child ∧ 1 ∈ all_regions sentinel_child ∧
    all_subregions_of_region 3 sentinel_child 1 = some [NO_REGION] :=
  ⟨reach_mono _ _ (fun _ _ _ => trivial) sentinel_child reach_sentinel_child,
    ⟨parentOf_functional sentinel_child, reach_acyclic sentinel_child reach_sentinel_child⟩,
    by decide, by decide⟩

/-- C12 (amended): in a forest of well-formed region records whose children
lists are the inverse of the parent links, as in every reachable forest,
all_subregions_of_region returns a result as soon as it is given more nested
calls than there are regions. For an unknown region the result is
`[NO_REGION]`. For a known region r every call for a direct child returns,
and the result is the concatenation, over the children of r in the order of
the children list, of the child followed by the result for the child; it
lists every region below r exactly once, it is empty when r has no children,
and it is `[NO_REGION]` only when the region stored under the id `NO_REGION`
is the only child of r. -/
theorem all_subregions_preorder (s : Datastructures) (hwf : RegionsWF s)
    (hci : ChildrenInverse s) (hf : Forest s) (r : RegionID) (fuel : Nat)
    (hfuel : s.regions_to_ids.length < fuel) :
    (r ∉ all_regions s → all_subregions_of_region fuel s r = some [NO_REGION]) ∧
    (r ∈ all_regions s →
      (∀ c ∈ children_of s r, (all_subregions_of_region fuel s c).isSome = true) ∧
      all_subregions_of_region fuel s r =
        some ((children_of s r).flatMap
          (fun c => c :: (all_subregions_of_region fuel s c).getD [])) ∧
      (∀ l, all_subregions_of_region fuel s r = some l → l.Nodup ∧ ∀ d, d ∈ l ↔ Anc s d r) ∧
      (children_of s r = [] → all_subregions_of_region fuel s r = some []) ∧
      (all_subregions_of_region fuel s r = some [NO_REGION] →
        children_of s r = [NO_REGION])) := by
  obtain ⟨n, rfl⟩ : ∃ n, fuel = n + 1 := ⟨fuel - 1, by omega⟩
  have hn : s.regions_to_ids.length ≤ n := by omega
  constructor
  · intro hr
    have : umap_find s.regions_to_ids r = none :=
      (umap_find_eq_none _ _).2 (by simpa [all_regions] using hr)
    simp [all_subregions_of_region, this]
  · intro hr
    obtain ⟨region, hreg⟩ :=
      umap_find_isSome s.regions_to_ids r (by simpa [all_regions] using hr)
    have hx : (umap_find s.regions_to_ids r).isSome = true := by simp [hreg]
    have hk := children_known s hci r region hreg
    have hch : children_of s r = region.subregions := by simp [children_of, hreg]
    have hrec : ∀ c ∈ region.subregions, ∃ lc,
        all_subregions_of_region n s c = some lc ∧
          all_subregions_of_region (n + 1) s c = some lc := by
      intro c hc
      obtain ⟨lc, hlc⟩ := all_subregions_total s hwf hci hf.2 n c (hk c hc) hn
      exact ⟨lc, hlc, all_subregions_mono s n c lc hlc⟩
    have heq : all_subregions_of_region (n + 1) s r =
        some (region.subregions.flatMap
          (fun c => c :: (all_subregions_of_region (n + 1) s c).getD [])) := by
      rw [all_subregions_succ s hwf n r region hreg hk, if_pos]
      · congr 1
        apply List.flatMap_congr
        intro c hc
        obtain ⟨lc, h1, h2⟩ := hrec c hc
        rw [h1, h2]
      · apply List.all_eq_true.2
        intro c hc
        obtain ⟨lc, h1, _⟩ := hrec c hc
        simp [h1]
    rw [hch]
    refine ⟨?_, heq, ?_, ?_, ?_⟩
    · intro c hc
      obtain ⟨lc, _, h2⟩ := hrec c hc
      simp [h2]
    · intro l hl
      exact ⟨all_subregions_nodup s hwf hci hf (n + 1) r l hx hl,
        all_subregions_mem s hwf hci (n + 1) r l hx hl⟩
    · intro he
      rw [heq, he]
      rfl
    · intro hl
      rw [heq] at hl
      simp only [Option.some.injEq] at hl
      cases hsub : region.subregions with
      | nil => rw [hsub] at hl; simp at hl
      | cons c rest =>
        rw [hsub] at hl
        simp only [List.flatMap_cons, List.cons_append, List.cons.injEq] at hl
        obtain ⟨hc, hrest⟩ := hl
        have h2 := (List.append_eq_nil.1 hrest).2
        cases rest with
        | nil => rw [hc]
        | cons c' rest' => simp at h2

theorem all_subregions_preorder_witness :
    RegionsWF family ∧ ChildrenInverse family ∧ Forest family ∧
    family.regions_to_ids.length < 5 ∧ (4 : RegionID) ∈ all_regions family ∧
    ((∀ c ∈ children_of family 4, (all_subregions_of_region 5 family c).isSome = true) ∧
      all_subregions_of_region 5 family 4 =
        some ((children_of family 4).flatMap
          (fun c => c :: (all_subregions_of_region 5 family c).getD [])) ∧
      (∀ l, all_subregions_of_region 5 family 4 = some l →
        l.Nodup ∧ ∀ d, d ∈ l ↔ Anc family d 4) ∧
      (children_of family 4 = [] → all_subregions_of_region 5 family 4 = some []) ∧
      (all_subregions_of_region 5 family 4 = some [NO_REGION] →
        children_of family 4 = [NO_REGION])) :=
  ⟨reach_regionsWF family (reach_mono _ _ (fun _ _ _ => trivial) family reach_family),
    reach_childrenInverse family (reach_mono _ _ (fun _ _ _ => trivial) family reach_family),
    ⟨parentOf_functional family, reach_acyclic family reach_family⟩, by decide, by decide,
    (all_subregions_preorder family
      (reach_regionsWF family (reach_mono _ _ (fun _ _ _ => trivial) family reach_family))
      (reach_childrenInverse family (reach_mono _ _ (fun _ _ _ => trivial) family reach_family))
      ⟨parentOf_functional family, reach_acyclic family reach_family⟩ 4 5 (by decide)).2
      (by decide)⟩

theorem all_subregions_family :
    all_subregions_of_region 5 family 4 = some [2, 1, 3] ∧
    all_subregions_of_region 5 family 2 = some [1, 3] ∧
    all_subregions_of_region 5 family 1 = some [] ∧
    all_subregions_of_region 5 family 9 = some [NO_REGION] := by
  refine ⟨by decide, by decide, by decide, by decide⟩

/-! ## The children lists mirror the parent links -/

/-- C21: in every state reachable from the empty registry through the public
operations, for every region id p the children list of p holds no region
twice, and region c occurs in it if and only if the parent of c is p. -/
theorem children_mirror_parents (s : Datastructures) (h : Reachable s) (p : RegionID) :
    (children_of s p).Nodup ∧ ∀ c, c ∈ children_of s p ↔ ParentOf s c p := by
  cases hp : umap_find s.regions_to_ids p with
  | none =>
    have hch : children_of s p = [] := by simp [children_of, hp]
    rw [hch]
    refine ⟨List.nodup_nil, ?_⟩
    intro c
    simp only [List.not_mem_nil, false_iff]
    rintro ⟨r, hr, hpar⟩
    have := (reach_regionsWF s h).2 c r p hr hpar
    rw [hp] at this
    exact Bool.noConfusion this
  | some region =>
    have hch : children_of s p = region.subregions := by simp [children_of, hp]
    rw [hch]
    exact reach_childrenInverse s h p region hp

theorem children_mirror_parents_witness :
    Reachable family ∧ (children_of family 2).Nodup ∧
    ∀ c, c ∈ children_of family 2 ↔ ParentOf family c 2 :=
  ⟨reach_mono _ _ (fun _ _ _ => trivial) family reach_family,
    children_mirror_parents family (reach_mono _ _ (fun _ _ _ => trivial) family reach_family) 2⟩

theorem children_family :
    children_of family 2 = [1, 3] ∧ children_of family 4 = [2] ∧ children_of family 1 = [] ∧
    parent_of family 1 = some 2 ∧ parent_of family 3 = some 2 ∧ parent_of family 2 = some 4 := by
  refine ⟨by decide, by decide, by decide, by decide, by decide, by decide⟩

/-! ## The nearest common ancestor does not depend on the order of the arguments -/

/-- Two ancestor chains of a forest: the first element of one chain that lies
on the other is the same whichever chain is scanned. -/
theorem find_first_of_comm (s : Datastructures) (hac : ∀ r, ¬ Anc s r r)
    (l1 l2 : List RegionID) (h1 : l1.Pairwise (fun a b => Anc s a b))
    (h2 : l2.Pairwise (fun a b => Anc s a b)) :
    find_first_of l1 l2 = find_first_of l2 l1 := by
  cases hf : find_first_of l1 l2 with
  | none =>
    have hno := find_first_of_none l1 l2 hf
    cases hg : find_first_of l2 l1 with
    | none => rfl
    | some r =>
      obtain ⟨hr1, as, bs, hsplit, _⟩ := find_first_of_some l2 l1 r hg
      have hr2 : r ∈ l2 := by rw [hsplit]; simp
      exact absurd hr2 (hno r hr1)
  | some r =>
    obtain ⟨hr2, as, bs, hsplit, has⟩ := find_first_of_some l1 l2 r hf
    have hr1 : r ∈ l1 := by rw [hsplit]; simp
    cases hg : find_first_of l2 l1 with
    | none => exact absurd hr1 (find_first_of_none l2 l1 hg r hr2)
    | some r' =>
      obtain ⟨hr1', as', bs', hsplit', has'⟩ := find_first_of_some l2 l1 r' hg
      have hr2' : r' ∈ l2 := by rw [hsplit']; simp
      by_contra hne
      have hne' : r ≠ r' := fun e => hne (by rw [e])
      have hrr' : Anc s r r' := by
        rw [hsplit] at hr1' h1
        rcases List.mem_append.1 hr1' with hin | hin
        · exact absurd hr2' (has r' hin)
        · rcases List.mem_cons.1 hin with e | hin
          · exact absurd e.symm hne'
          · exact (List.pairwise_cons.1 (List.pairwise_append.1 h1).2.1).1 r' hin
      have hr'r : Anc s r' r := by
        rw [hsplit'] at hr2 h2
        rcases List.mem_append.1 hr2 with hin | hin
        · exact absurd hr1 (has' r hin)
        · rcases List.mem_cons.1 hin with e | hin
          · exact absurd e hne'
          · exact (List.pairwise_cons.1 (List.pairwise_append.1 h2).2.1).1 r hin
      exact hac r (Relation.TransGen.trans hrr' hr'r)

/-- C22: in a forest of well-formed region records, for all region ids a and
b, known or unknown, common_parent_of_regions(a, b) and
common_parent_of_regions(b, a) both return a result as soon as the walks are
given as many rounds as there are regions, and the two results are equal. -/
theorem common_parent_symmetric (s : Datastructures) (hwf : RegionsWF s) (hf : Forest s)
    (a b : RegionID) (fuel : Nat) (hfuel : s.regions_to_ids.length ≤ fuel) :
    ∃ r, common_parent_of_regions fuel s a b = some r ∧
      common_parent_of_regions fuel s b a = some r := by
  cases ha : umap_find s.regions_to_ids a with
  | none =>
    cases hb : umap_find s.regions_to_ids b with
    | none => exact ⟨NO_REGION, by simp [common_parent_of_regions, ha, hb],
        by simp [common_parent_of_regions, ha, hb]⟩
    | some rb => exact ⟨NO_REGION, by simp [common_parent_of_regions, ha, hb],
        by simp [common_parent_of_regions, ha, hb]⟩
  | some ra =>
    cases hb : umap_find s.regions_to_ids b with
    | none => exact ⟨NO_REGION, by simp [common_parent_of_regions, ha, hb],
        by simp [common_parent_of_regions, ha, hb]⟩
    | some rb =>
      cases hpa : ra.parent with
      | none =>
        cases hpb : rb.parent with
        | none => exact ⟨NO_REGION, by simp [common_parent_of_regions, ha, hb, hpa, hpb],
            by simp [common_parent_of_regions, ha, hb, hpa, hpb]⟩
        | some pb => exact ⟨NO_REGION, by simp [common_parent_of_regions, ha, hb, hpa, hpb],
            by simp [common_parent_of_regions, ha, hb, hpa, hpb]⟩
      | some pa =>
        cases hpb : rb.parent with
        | none => exact ⟨NO_REGION, by simp [common_parent_of_regions, ha, hb, hpa, hpb],
            by simp [common_parent_of_regions, ha, hb, hpa, hpb]⟩
        | some pb =>
          obtain ⟨hpt1, l1, hl1, _, hpw1⟩ :=
            chain_of_parent s hwf hf.2 fuel a pa ⟨ra, ha, hpa⟩ hfuel
          obtain ⟨hpt2, l2, hl2, _, hpw2⟩ :=
            chain_of_parent s hwf hf.2 fuel b pb ⟨rb, hb, hpb⟩ hfuel
          have hcomm := find_first_of_comm s hf.2 l1 l2 hpw1 hpw2
          cases hff : find_first_of l1 l2 with
          | none =>
            have hff' : find_first_of l2 l1 = none := by rw [← hcomm]; exact hff
            exact ⟨NO_REGION,
              by simp only [common_parent_of_regions, ha, hb, hpa, hpb, hpt1, hpt2, hl1, hl2,
                hff],
              by simp only [common_parent_of_regions, ha, hb, hpa, hpb, hpt1, hpt2, hl1, hl2,
                hff']⟩
          | some r =>
            have hff' : find_first_of l2 l1 = some r := by rw [← hcomm]; exact hff
            exact ⟨r,
              by simp only [common_parent_of_regions, ha, hb, hpa, hpb, hpt1, hpt2, hl1, hl2,
                hff],
              by simp only [common_parent_of_regions, ha, hb, hpa, hpb, hpt1, hpt2, hl1, hl2,
                hff']⟩

theorem common_parent_symmetric_witness :
    RegionsWF family ∧ Forest family ∧ family.regions_to_ids.length ≤ 4 ∧
    ∃ r, common_parent_of_regions 4 family 1 3 = some r ∧
      common_parent_of_regions 4 family 3 1 = some r :=
  ⟨reach_regionsWF family (reach_mono _ _ (fun _ _ _ => trivial) family reach_family),
    ⟨parentOf_functional family, reach_acyclic family reach_family⟩, by decide,
    common_parent_symmetric family
      (reach_regionsWF family (reach_mono _ _ (fun _ _ _ => trivial) family reach_family))
      ⟨parentOf_functional family, reach_acyclic family reach_family⟩ 1 3 4 (by decide)⟩

theorem common_parent_family_both_orders :
    common_parent_of_regions 4 family 3 1 = some 2 ∧
    common_parent_of_regions 4 family 1 2 = some 4 ∧
    common_parent_of_regions 4 family 2 1 = some 4 ∧
    common_parent_of_regions 4 family 1 9 = some NO_REGION ∧
    common_parent_of_regions 4 family 9 1 = some NO_REGION ∧
    common_parent_of_regions 4 family 1 4 = some NO_REGION ∧
    common_parent_of_regions 4 family 4 1 = some NO_REGION := by
  refine ⟨by decide, by decide, by decide, by decide, by decide, by decide, by decide⟩

/-! ## The ordering of coordinates -/

theorem floor_dist_spec (c1 c2 : Coord) :
    0 ≤ floor_dist c1 c2 ∧ floor_dist c1 c2 * floor_dist c1 c2 ≤ sq_dist c1 c2 ∧
    sq_dist c1 c2 < (floor_dist c1 c2 + 1) * (floor_dist c1 c2 + 1) := by
  have hn : 0 ≤ sq_dist c1 c2 := add_nonneg (mul_self_nonneg _) (mul_self_nonneg _)
  obtain ⟨h1, h2⟩ := isqrt_spec (sq_dist c1 c2).toNat
  have hc : ((sq_dist c1 c2).toNat : Int) = sq_dist c1 c2 := Int.toNat_of_nonneg hn
  unfold floor_dist
  refine ⟨Int.natCast_nonneg _, ?_, ?_⟩
  · rw [← hc]; exact_mod_cast h1
  · rw [← hc]; exact_mod_cast h2

set_option maxRecDepth 100000 in
/-- C23 (counterexample): the comparator does not always compare the integer
part of sqrt(x^2+y^2). The distance of (134217728, 16384) from the origin has
the integer part 134217728 and that of (134217729, -5) has 134217729, yet the
`int` taken from `std::hypot` is 134217729 for both and the second coordinate
is the smaller one by its y. The coordinate (2000000000, 2000000000) is more
than `INT_MAX` away, its `int` is `INT_MIN`, and it is less than (1, 0). -/
theorem coord_lt_not_by_integer_part :
    (floor_dist ⟨134217728, 16384⟩ ⟨0, 0⟩ = 134217728 ∧
      floor_dist ⟨134217729, -5⟩ ⟨0, 0⟩ = 134217729 ∧
      hypot_int 134217728 16384 = 134217729 ∧ hypot_int 134217729 (-5) = 134217729 ∧
      Coord.lt ⟨134217728, 16384⟩ ⟨134217729, -5⟩ = false ∧
      Coord.lt ⟨134217729, -5⟩ ⟨134217728, 16384⟩ = true) ∧
    (hypot_int 2000000000 2000000000 = -2147483648 ∧
      floor_dist ⟨1, 0⟩ ⟨0, 0⟩ < floor_dist ⟨2000000000, 2000000000⟩ ⟨0, 0⟩ ∧
      Coord.lt ⟨2000000000, 2000000000⟩ ⟨1, 0⟩ = true) := by
  refine ⟨⟨by decide, by decide, by decide, by decide, by decide, by decide⟩,
    by decide, by decide, by decide⟩

/-- C23 (amended): the comparator of coordinates compares the `int` taken from
`std::hypot(x, y)`, then y, then x; that `int` is the integer part of
sqrt(x^2+y^2) whenever x^2+y^2 is below `2 ^ 52`. The comparator is
irreflexive and transitive, and two coordinates of which neither is less than
the other have the same x and the same y. Hence two keys are equivalent for
the coordinate index only when they are the same coordinate: a lookup misses
exactly the coordinates that are not keys, and an insertion under a coordinate
that is not a key always adds an entry. -/
theorem coord_lt_strict_total_order :
    (∀ a : Coord, sq_dist a ⟨0, 0⟩ < 2 ^ 52 →
      0 ≤ hypot_int a.x a.y ∧
      hypot_int a.x a.y * hypot_int a.x a.y ≤ a.x * a.x + a.y * a.y ∧
      a.x * a.x + a.y * a.y < (hypot_int a.x a.y + 1) * (hypot_int a.x a.y + 1)) ∧
    (∀ a b : Coord, Coord.lt a b = true ↔
      hypot_int a.x a.y < hypot_int b.x b.y ∨
      (hypot_int a.x a.y = hypot_int b.x b.y ∧ (a.y < b.y ∨ (a.y = b.y ∧ a.x < b.x)))) ∧
    (∀ a : Coord, Coord.lt a a = false) ∧
    (∀ a b c : Coord, Coord.lt a b = true → Coord.lt b c = true → Coord.lt a c = true) ∧
    (∀ a b : Coord, Coord.lt a b = false → Coord.lt b a = false → a.x = b.x ∧ a.y = b.y) ∧
    (∀ a b : Coord, equiv Coord.lt a b = true ↔ a = b) ∧
    (∀ (m : List (Coord × StationID)) (k : Coord),
      map_find Coord.lt m k = none ↔ k ∉ m.map Prod.fst) ∧
    (∀ (m : List (Coord × StationID)) (k : Coord) (id : StationID), k ∉ m.map Prod.fst →
      (map_insert Coord.lt m k id).2 = true ∧ (k, id) ∈ (map_insert Coord.lt m k id).1) := by
  have hT := strictTotal_coord_lt
  refine ⟨?_, coord_lt_iff, hT.irrefl, hT.trans, ?_, equiv_iff_eq hT, map_find_eq_none hT, ?_⟩
  · intro a ha
    have hsq : sq_dist a ⟨0, 0⟩ = a.x * a.x + a.y * a.y := by simp [sq_dist]
    rw [hypot_int_floor_dist a ha, ← hsq]
    exact floor_dist_spec a ⟨0, 0⟩
  · intro a b h1 h2
    have := hT.total a b h1 h2
    rw [this]
    exact ⟨rfl, rfl⟩
  · intro m k id hk
    have hf := (map_find_eq_none hT m k).2 hk
    refine ⟨by simp [map_insert, hf], ?_⟩
    exact (map_insert_perm hT m k id hk).symm.subset (List.mem_cons_self _ _)

theorem coord_lt_strict_total_order_witness :
    Coord.lt ⟨0, 1⟩ ⟨1, 1⟩ = true ∧ Coord.lt ⟨1, 1⟩ ⟨-3, 4⟩ = true ∧
    Coord.lt ⟨0, 1⟩ ⟨-3, 4⟩ = true ∧
    sq_dist ⟨-3, 4⟩ ⟨0, 0⟩ < 2 ^ 52 ∧
    (0 ≤ hypot_int (-3) 4 ∧ hypot_int (-3) 4 * hypot_int (-3) 4 ≤ (-3) * (-3) + 4 * 4 ∧
      (-3) * (-3) + 4 * 4 < (hypot_int (-3) 4 + 1) * (hypot_int (-3) 4 + 1)) :=
  ⟨by decide, by decide,
    coord_lt_strict_total_order.2.2.2.1 ⟨0, 1⟩ ⟨1, 1⟩ ⟨-3, 4⟩ (by decide) (by decide),
    by decide, coord_lt_strict_total_order.1 ⟨-3, 4⟩ (by decide)⟩

/-! ## Both walks over the region tree end -/

theorem known_of_isSome (s : Datastructures) (x : RegionID)
    (h : (umap_find s.regions_to_ids x).isSome = true) : x ∈ all_regions s := by
  by_contra hcon
  have : x ∉ s.regions_to_ids.map Prod.fst := by simpa [all_regions] using hcon
  rw [(umap_find_eq_none _ _).2 this] at h
  exact Bool.noConfusion h

theorem anc_known_right (s : Datastructures) (hwf : RegionsWF s) (x a : RegionID)
    (h : Anc s x a) : a ∈ all_regions s := by
  obtain ⟨b, _, ⟨r, hr, hp⟩⟩ := Relation.TransGen.tail'_iff.1 h
  exact known_of_isSome s a (hwf.2 b r a hr hp)

theorem anc_known_left (s : Datastructures) (d x : RegionID) (h : Anc s d x) :
    d ∈ all_regions s := by
  obtain ⟨b, ⟨r, hr, _⟩, _⟩ := Relation.TransGen.head'_iff.1 h
  exact known_of_isSome s d (by simp [hr])

theorem length_le_regions (s : Datastructures) (l : List RegionID) (hnd : l.Nodup)
    (hk : ∀ y ∈ l, y ∈ all_regions s) : l.length ≤ (all_regions s).length :=
  (List.subperm_of_subset hnd hk).length_le

/-- C24 (counterexample): the registry without regions has an acyclic parent
relation and children lists that are the inverse of it; for the unknown id 5
all_subregions_of_region returns `[NO_REGION]`, one element, while the number
of regions is 0. -/
theorem all_subregions_longer_than_regions :
    RegionsWF Datastructures.empty ∧ ChildrenInverse Datastructures.empty ∧
    (∀ r, ¬ Anc Datastructures.empty r r) ∧
    (5 : RegionID) ∉ all_regions Datastructures.empty ∧
    all_subregions_of_region 1 Datastructures.empty 5 = some [NO_REGION] ∧
    (all_regions Datastructures.empty).length < [NO_REGION].length :=
  ⟨reach_regionsWF _ Reach.init, reach_childrenInverse _ Reach.init,
    reach_acyclic _ Reach.init, by decide, by decide, by decide⟩

/-- C24 (amended): when the region records are well formed, the children lists
are the inverse of the parent links and no region is its own ancestor, then
for every known region id both all_parents_of_region(id) and
all_subregions_of_region(id) return a result as soon as they are given as many
rounds, or nested calls, as there are regions; neither result holds a region
id twice and neither is longer than the number of regions. For an unknown id
all_subregions_of_region returns the one-element sequence `[NO_REGION]`. -/
theorem region_walks_terminate (s : Datastructures) (hwf : RegionsWF s)
    (hci : ChildrenInverse s) (hac : ∀ r, ¬ Anc s r r) (id : RegionID) (fuel : Nat)
    (hfuel : (all_regions s).length ≤ fuel) :
    (id ∈ all_regions s →
      (∃ l, all_parents_of_region fuel s id = some l ∧ l.Nodup ∧
        l.length ≤ (all_regions s).length) ∧
      (∃ l, all_subregions_of_region fuel s id = some l ∧ l.Nodup ∧
        l.length ≤ (all_regions s).length)) ∧
    (id ∉ all_regions s → 0 < fuel → all_subregions_of_region fuel s id = some [NO_REGION]) := by
  have hfuel' : s.regions_to_ids.length ≤ fuel := by simpa [all_regions] using hfuel
  constructor
  · intro hid
    obtain ⟨region, hreg⟩ :=
      umap_find_isSome s.regions_to_ids id (by simpa [all_regions] using hid)
    have hx : (umap_find s.regions_to_ids id).isSome = true := by simp [hreg]
    constructor
    · obtain ⟨l, hl⟩ := parent_walk_total s hwf hac fuel id hx hfuel'
      obtain ⟨l', rfl, hmem, hpw⟩ := parent_walk_spec s hwf fuel id l hl
      have hnd : (id :: l').Nodup := by
        refine List.Pairwise.imp ?_ hpw
        intro a b hab e
        rw [← e] at hab
        exact hac a hab
      refine ⟨id :: l', by simp [all_parents_of_region, hreg, hl], hnd,
        length_le_regions s _ hnd ?_⟩
      intro y hy
      rcases List.mem_cons.1 hy with rfl | hy
      · exact hid
      · exact anc_known_right s hwf id y ((hmem y).1 hy)
    · obtain ⟨l, hl⟩ := all_subregions_total s hwf hci hac fuel id hx hfuel'
      have hnd := all_subregions_nodup s hwf hci ⟨parentOf_functional s, hac⟩ fuel id l hx hl
      refine ⟨l, hl, hnd, length_le_regions s l hnd ?_⟩
      intro y hy
      exact anc_known_left s y id ((all_subregions_mem s hwf hci fuel id l hx hl y).1 hy)
  · intro hid hpos
    obtain ⟨n, rfl⟩ : ∃ n, fuel = n + 1 := ⟨fuel - 1, by omega⟩
    have : umap_find s.regions_to_ids id = none :=
      (umap_find_eq_none _ _).2 (by simpa [all_regions] using hid)
    simp [all_subregions_of_region, this]

theorem region_walks_terminate_witness :
    RegionsWF family ∧ ChildrenInverse family ∧ (∀ r, ¬ Anc family r r) ∧
    (all_regions family).length ≤ 4 ∧ (2 : RegionID) ∈ all_regions family ∧
    (∃ l, all_parents_of_region 4 family 2 = some l ∧ l.Nodup ∧
      l.length ≤ (all_regions family).length) ∧
    (∃ l, all_subregions_of_region 4 family 2 = some l ∧ l.Nodup ∧
      l.length ≤ (all_regions family).length) :=
  ⟨reach_regionsWF family (reach_mono _ _ (fun _ _ _ => trivial) family reach_family),
    reach_childrenInverse family (reach_mono _ _ (fun _ _ _ => trivial) family reach_family),
    reach_acyclic family reach_family, by decide, by decide,
    (region_walks_terminate family
      (reach_regionsWF family (reach_mono _ _ (fun _ _ _ => trivial) family reach_family))
      (reach_childrenInverse family (reach_mono _ _ (fun _ _ _ => trivial) family reach_family))
      (reach_acyclic family reach_family) 2 4 (by decide)).1 (by decide)⟩

theorem region_walks_family :
    all_parents_of_region 4 family 2 = some [2, 4] ∧
    all_parents_of_region 4 family 1 = some [1, 2, 4] ∧
    all_subregions_of_region 4 family 2 = some [1, 3] ∧
    all_subregions_of_region 4 family 4 = some [2, 1, 3] ∧
    (all_regions family).length = 4 := by
  refine ⟨by decide, by decide, by decide, by decide, by decide⟩

end Registry
